import Mathlib

/-!
Verification of the hfo2 page-table engine (src/hfo2/src/mm.rs).

The Rust source manipulates hardware descriptors through an external
architecture adapter (the extern "C" arch_mm_* functions) and uses the page
geometry constants of the page module; neither is part of the sources under
verification, so both are modelled from the specification (ARMv8-style:
4 KiB pages, 9 bits per level, four levels below the root, one stage-2 root
table, blocks allowed at levels 0..2).  All recursion and control flow is
translated from mm.rs.

Modelling choices, recorded once here:
* a descriptor is an inductive tree (absent / block / table); the engine
  owns every child table exclusively (spec invariant 3), so in-place
  mutation becomes functional update;
* machine words are Nat; usize addition that can wrap is made explicit with
  a mod 2^64, and the Rust bitwise-not on usize is xor with 2^64-1;
* the memory pool is its count of free pages: alloc fails exactly when the
  count is zero, free returns a page;
* TLB invalidations and descriptor stores are recorded in an event trace
  (this models a stage whose invalidation is live, i.e. stage 1 or stage 2
  after mm_vm_enable_invalidation);
* the u8 subtraction level-1, which underflows (debug panic) if a level-0
  walk reaches the populate path, is modelled as operation failure; that
  path is unreachable for the page-aligned ranges identity_update produces;
* recursion over levels is structural on the level so that every operation
  is executable by the kernel on concrete inputs.
-/

set_option maxHeartbeats 4000000
set_option maxRecDepth 20000

namespace Hfo2

/-- Number of bits in a page offset: 4 KiB pages (page module, modelled from the spec). -/
def PAGE_BITS : Nat := 12

/-- Size of a page in bytes. -/
def PAGE_SIZE : Nat := 2 ^ PAGE_BITS

/-- Bits of the table index consumed per level: 512 entries per table. -/
def PAGE_LEVEL_BITS : Nat := 9

/-- Number of page table entries in one page-sized table (PAGE_SIZE divided by the
size of one descriptor word). -/
def PTE_PER_PAGE : Nat := PAGE_SIZE / 8

/-- Modulus of the usize type. -/
def USIZE : Nat := 2 ^ 64

/-- Bitwise complement on usize (Rust !x at type usize). -/
def usizeNot (x : Nat) : Nat := (USIZE - 1) ^^^ x

namespace addr

/-- Rounds an address down to a page boundary (mm.rs round_down_to_page). -/
def round_down_to_page (a : Nat) : Nat := a &&& usizeNot (PAGE_SIZE - 1)

/-- Rounds an address up to a page boundary (mm.rs round_up_to_page); the usize
addition may wrap, hence the explicit mod. -/
def round_up_to_page (a : Nat) : Nat := round_down_to_page ((a + PAGE_SIZE - 1) % USIZE)

/-- Size of the address range covered by one entry at the given level (mm.rs entry_size). -/
def entry_size (level : Nat) : Nat := 1 <<< (PAGE_BITS + level * PAGE_LEVEL_BITS)

/-- Start of the next block of the given power-of-two size (mm.rs start_of_next_block). -/
def start_of_next_block (a block_size : Nat) : Nat :=
  ((a + block_size) % USIZE) &&& usizeNot (block_size - 1)

/-- One past the maximum address representable by the table, at the given level,
that holds the entry of the given address (mm.rs level_end). -/
def level_end (a : Nat) (level : Nat) : Nat :=
  (((a >>> (PAGE_BITS + (level + 1) * PAGE_LEVEL_BITS)) + 1)
      <<< (PAGE_BITS + (level + 1) * PAGE_LEVEL_BITS)) % USIZE

/-- Index of the entry for the given address in a table at the given level (mm.rs index). -/
def index (a : Nat) (level : Nat) : Nat :=
  (a >>> (PAGE_BITS + level * PAGE_LEVEL_BITS)) &&& ((1 <<< PAGE_LEVEL_BITS) - 1)

end addr

-- Arch-independent mapping mode bits (mm.rs Mode); a mode is a usize bitset.
namespace Mode

def R : Nat := 1
def W : Nat := 2
def X : Nat := 4
def D : Nat := 8
def INVALID : Nat := 16
def UNOWNED : Nat := 32
def SHARED : Nat := 64

end Mode

/-- Modelled from the spec: the attribute word the architecture adapter attaches
to a block descriptor.  The adapter is external C code (arch_mm_mode_to_stage2_attrs
and friends); per the spec, attrs record validity, access bits, and the stage-2
ownership bookkeeping, with an all-clear sentinel for absent entries. -/
structure Attrs where
  valid : Bool
  r : Bool
  w : Bool
  x : Bool
  d : Bool
  owned : Bool
  exclusive : Bool
deriving DecidableEq, Repr

/-- Modelled from the spec: the attrs sentinel of an absent descriptor
(arch_mm_pte_attrs of the absent PTE). -/
def absentAttrs : Attrs :=
  { valid := false, r := false, w := false, x := false, d := false,
    owned := false, exclusive := false }

/-- Modelled from the spec: an attrs word is present when the memory is related
to the VM, i.e. valid or owned (present = allocated at all; a present-but-invalid
entry records ownership metadata without translating). -/
def Attrs.present (a : Attrs) : Bool := a.valid || a.owned

/-- Modelled from the spec: arch_mm_mode_to_stage2_attrs.  Validity, ownership and
exclusivity are stored inverted (owner of exclusive valid memory is the all-zero
mode); access bits are copied. -/
def modeToAttrs (m : Nat) : Attrs :=
  { valid := decide (m &&& Mode.INVALID = 0)
    r := decide (m &&& Mode.R ≠ 0)
    w := decide (m &&& Mode.W ≠ 0)
    x := decide (m &&& Mode.X ≠ 0)
    d := decide (m &&& Mode.D ≠ 0)
    owned := decide (m &&& Mode.UNOWNED = 0)
    exclusive := decide (m &&& Mode.SHARED = 0) }

/-- Modelled from the spec: arch_mm_stage2_attrs_to_mode, the stage-2 attribute
to mode recovery (inverse of modeToAttrs). -/
def attrsToMode (a : Attrs) : Nat :=
  (if a.r then Mode.R else 0) + (if a.w then Mode.W else 0) +
  (if a.x then Mode.X else 0) + (if a.d then Mode.D else 0) +
  (if a.valid then 0 else Mode.INVALID) + (if a.owned then 0 else Mode.UNOWNED) +
  (if a.exclusive then 0 else Mode.SHARED)

/-- Modelled from the spec: arch_mm_is_block_allowed — block descriptors are
permitted at levels 0, 1 and 2 (ARMv8-style). -/
def blockAllowed (level : Nat) : Bool := decide (level ≤ 2)

/-- Modelled from the spec: arch_mm_combine_table_entry_attrs.  The modelled
table descriptors carry no restricting attribute bits, so combining yields the
block attrs. -/
def combineTableEntryAttrs (_tableAttrs blockAttrs : Attrs) : Attrs := blockAttrs

/-- Modelled from the spec: arch_mm_clear_pa zeroes the bits of an address that
are not physical-address bits; for 4 KiB granules that clears the page offset. -/
def clearPa (a : Nat) : Nat := a &&& usizeNot (PAGE_SIZE - 1)

/-- The maximum level of the modelled stage-2 table (arch_mm_stage2_max_level,
modelled from the spec's four-level scenario: levels 0..3). -/
def stage2MaxLevel : Nat := 3

/-- The number of stage-2 root tables (arch_mm_stage2_root_table_count, modelled
from the spec's single-root scenario). -/
def stage2RootCount : Nat := 1

/-- A page table entry (mm.rs PageTableEntry): one descriptor word, decoded
through the adapter into absent, block (output address and attrs) or a pointer
to a child table.  The child table is owned by the descriptor, so it is stored
inline as the list of its PTE_PER_PAGE entries. -/
inductive PTE where
  | absent : PTE
  | block (oa : Nat) (attrs : Attrs) : PTE
  | table (children : List PTE) : PTE

namespace PTE

/-- Decoded attrs of a descriptor (arch_mm_pte_attrs); the modelled table
descriptor carries no attribute bits. -/
def attrs : PTE → Attrs
  | .absent => absentAttrs
  | .block _ a => a
  | .table _ => absentAttrs

/-- Whether the descriptor is present (arch_mm_pte_is_present): valid or owned. -/
def is_present : PTE → Bool
  | .absent => false
  | .block _ a => a.present
  | .table _ => true

/-- Whether the descriptor is valid, i.e. honoured by the MMU (arch_mm_pte_is_valid). -/
def is_valid : PTE → Bool
  | .absent => false
  | .block _ a => a.valid
  | .table _ => true

/-- Whether the descriptor is a block (arch_mm_pte_is_block). -/
def is_block : PTE → Bool
  | .block _ _ => true
  | _ => false

/-- Whether the descriptor is a table pointer (arch_mm_pte_is_table); at level 0
the adapter decodes every descriptor as a leaf, never as a table. -/
def is_table (p : PTE) (level : Nat) : Bool :=
  match p with
  | .table _ => decide (level ≠ 0)
  | _ => false

/-- Output address of a block descriptor (arch_mm_block_from_pte); meaningless
on other descriptors, as in the unchecked source accessor. -/
def block_addr : PTE → Nat
  | .block oa _ => oa
  | _ => 0

end PTE

/-- Observable events of a run: descriptor stores and TLB invalidations over a
half-open address range (S::invalidate_tlb). -/
inductive Event where
  | store (p : PTE) : Event
  | tlb (b e : Nat) : Event

/-- State threaded through the operations: the memory pool (MPool, modelled by
its count of free pages) and the trace of observable events. -/
structure MMState where
  pool : Nat
  trace : List Event

/-- Allocates one page from the pool (MPool::alloc); fails iff the pool is empty. -/
def MMState.alloc (s : MMState) : Option MMState :=
  match s.pool with
  | 0 => none
  | n + 1 => some { s with pool := n }

/-- Returns one page to the pool (MPool::free). -/
def MMState.freePage (s : MMState) : MMState := { s with pool := s.pool + 1 }

/-- Appends an event to the trace. -/
def MMState.emit (s : MMState) (e : Event) : MMState := { s with trace := s.trace ++ [e] }

/-- Folds a state-threading step over the entries of a child table (the
iter_mut loops of PageTableEntry::free). -/
def foldEntries (f : PTE → MMState → MMState) : List PTE → MMState → MMState
  | [], s => s
  | p :: ps, s => foldEntries f ps (f p s)

/-- Recursively frees the pages of a descriptor's subtree and returns them to the
pool (PageTableEntry::free).  Recursion is by level, exactly like the source:
at level 0 nothing decodes as a table, so nothing is freed. -/
def pteFree : Nat → PTE → MMState → MMState
  | 0 => fun _ s => s
  | level + 1 => fun p s =>
    match p with
    | .table c => (foldEntries (pteFree level) c s).freePage
    | _ => s

/-- Replaces a slot with a new descriptor (PageTableEntry::replace): when both
the old and the new value are valid, it first stores an absent descriptor and
flushes the TLB for the entry's range (break-before-make), then stores the new
value; finally the old descriptor's subtree is freed. -/
def pteReplace (old new_pte : PTE) (begin_ level : Nat) (s : MMState) : PTE × MMState :=
  let s :=
    if old.is_valid && new_pte.is_valid then
      (s.emit (.store .absent)).emit (.tlb begin_ (begin_ + addr.entry_size level))
    else s
  let s := s.emit (.store new_pte)
  (new_pte, pteFree level old s)

/-- Ensures a slot holds a table descriptor (PageTableEntry::populate_table).
If the slot held a block, the fresh child table is initialised with blocks of
the level below striding the same range with the same attrs; the stride is added
to the block's output address (the source adds it to the raw descriptor word,
which under the adapter's encoding of an aligned block is the same value).
Returns false iff the pool allocation failed, leaving the slot untouched. -/
def populateTable (p : PTE) (begin_ level : Nat) (s : MMState) : Bool × PTE × MMState :=
  if p.is_table level then (true, p, s)
  else
    match s.alloc with
    | none => (false, p, s)
    | some s1 =>
      let below := level - 1
      let children : List PTE :=
        if p.is_block then
          (List.range PTE_PER_PAGE).map
            (fun i => PTE.block (p.block_addr + i * addr.entry_size below) p.attrs)
        else
          List.replicate PTE_PER_PAGE PTE.absent
      let (p2, s2) := pteReplace p (.table children) begin_ level s1
      (true, p2, s2)

/-- Whether every entry of a table is non-present (RawPageTable::is_empty). -/
def tableEmpty (t : List PTE) : Bool := t.all (fun p => !p.is_present)

/-- The source's reduce over the defrag results of a table's children: the
common value if all elements are the same some, a failure otherwise (also on
an empty list — unreachable, since tables have PTE_PER_PAGE entries). -/
def reduceEq : List (Option Attrs) → Option Attrs
  | [] => none
  | r :: rs => rs.foldl (fun l v => if l = v then l else none) r

/-- Runs a defrag step over every child of a table in order, threading the
state and collecting the per-child results (the strict map plus reduce of
PageTableEntry::defrag). -/
def defragChildren (f : PTE → MMState → Option Attrs × PTE × MMState) :
    List PTE → MMState → List (Option Attrs) × List PTE × MMState
  | [], s => ([], [], s)
  | p :: ps, s =>
    let (r, p1, s1) := f p s
    let (rs, ps1, s2) := defragChildren f ps s1
    (r :: rs, p1 :: ps1, s2)

/-- Defragments one descriptor (PageTableEntry::defrag): a block reports its
attrs; anything that is not a table at this level fails; a table first
defragments every child, then, if the children agree on an absent summary,
frees the child table and becomes absent, and if they agree on a present
summary at a block-allowed level, frees the child table and becomes one
equivalent block whose address is the first child's block address. -/
def pteDefrag : Nat → PTE → MMState → Option Attrs × PTE × MMState
  | 0 => fun p s =>
    if p.is_block then (some p.attrs, p, s) else (none, p, s)
  | level + 1 => fun p s =>
    if p.is_block then (some p.attrs, p, s)
    else
      match p with
      | .table c =>
        let (rs, c1, s1) := defragChildren (pteDefrag level) c s
        match reduceEq rs with
        | none => (none, .table c1, s1)
        | some ca =>
          if !ca.present then
            (some absentAttrs, .absent, s1.freePage)
          else if !blockAllowed (level + 1) then (none, .table c1, s1)
          else
            let combined := combineTableEntryAttrs p.attrs ca
            (some combined, .block (c1.headD .absent).block_addr combined, s1.freePage)
      | _ => (none, p, s)

/-- One step of the block iterator (mm.rs BlockIter), unrolled with fuel: the
iterator yields the begin address, then jumps to the start of the next block,
until it reaches the end.  The fuel end minus begin is enough because every
step advances by at least one. -/
def blockIterGo (e sz : Nat) : Nat → Nat → List Nat
  | 0, _ => []
  | fuel + 1, b => if b < e then b :: blockIterGo e sz fuel (addr.start_of_next_block b sz) else []

/-- The list of addresses yielded by BlockIter::new(b, e, sz). -/
def blockIterList (b e sz : Nat) : List Nat := blockIterGo e sz (e - b) b

/-- Processes one (entry, begin) pair of map_level: skip entries that already
have the target state, map or unmap a whole entry in place (under COMMIT), and
otherwise fall to the populate-and-recurse branch given by descend. -/
def entryStep (commit unmap : Bool) (attrs : Attrs) (e : Nat) (level : Nat)
    (descend : Nat → PTE → MMState → Bool × PTE × MMState)
    (pte : PTE) (b : Nat) (s : MMState) : Bool × PTE × MMState :=
  let entry_size := addr.entry_size level
  -- Skip: already absent on unmap, or already a block with the right attrs.
  if unmap && !pte.is_present then (true, pte, s)
  else if !unmap && pte.is_block && pte.attrs = attrs then (true, pte, s)
  -- Whole-entry case: map or unmap the entire entry.
  else if e - b ≥ entry_size && (unmap || blockAllowed level) && decide (b &&& (entry_size - 1) = 0) then
    if commit then
      let new_pte := if unmap then PTE.absent else PTE.block b attrs
      let (pte1, s1) := pteReplace pte new_pte b level s
      (true, pte1, s1)
    else (true, pte, s)
  -- Partial case: ensure a subtable and recurse into it.
  else descend b pte s

/-- Processes the zipped (entry, begin) pairs of one level of map_level.  The
descend argument performs the populate-and-recurse branch for one entry (it is
instantiated with the recursion at the level below, or with failure at level 0,
where the source's level-1 underflows).  On failure the remaining entries are
left untouched, like the ? early return. -/
def mapEntries (commit unmap : Bool) (attrs : Attrs) (e : Nat) (level : Nat)
    (descend : Nat → PTE → MMState → Bool × PTE × MMState) :
    List PTE → List Nat → MMState → Bool × List PTE × MMState
  | ptes, [], s => (true, ptes, s)
  | [], _ :: _, s => (true, [], s)
  | pte :: ptes, b :: bs, s =>
    let (ok1, pte1, s1) := entryStep commit unmap attrs e level descend pte b s
    if ok1 then
      let (ok, rest, s2) := mapEntries commit unmap attrs e level descend ptes bs s1
      (ok, pte1 :: rest, s2)
    else (false, pte1 :: ptes, s1)

/-- The partial-case body of map_level for one entry at a level above 0:
populate the subtable, recurse into it with the given recursion, and collapse
the entry to absent when an unmapping commit emptied the subtable. -/
def descendStep (commit unmap : Bool) (level : Nat)
    (recurse : Nat → List PTE → MMState → Bool × List PTE × MMState)
    (b : Nat) (pte : PTE) (s : MMState) : Bool × PTE × MMState :=
  let (ok, pte1, s1) := populateTable pte b level s
  if !ok then (false, pte1, s1)
  else
    match pte1 with
    | .table c =>
      let (ok2, c1, s2) := recurse b c s1
      if !ok2 then (false, .table c1, s2)
      else if commit && unmap && tableEmpty c1 then
        let (pte2, s3) := pteReplace (.table c1) .absent b level s2
        (true, pte2, s3)
      else (true, .table c1, s2)
    | _ => (false, pte1, s1)

/-- Updates one table at one level to map or unmap a range
(RawPageTable::map_level).  The entries from the index of begin are zipped with
the block iterator capped at the level end; at level 0 the partial case is the
source's u8 underflow, modelled as failure. -/
def mapLevel (commit unmap : Bool) (attrs : Attrs) :
    Nat → Nat → Nat → List PTE → MMState → Bool × List PTE × MMState
  | 0 => fun b e t s =>
    let idx := addr.index b 0
    let bs := blockIterList b (min e (addr.level_end b 0)) (addr.entry_size 0)
    let (ok, suffix, s1) :=
      mapEntries commit unmap attrs e 0 (fun _ p s => (false, p, s)) (t.drop idx) bs s
    (ok, t.take idx ++ suffix, s1)
  | level + 1 => fun b e t s =>
    let idx := addr.index b (level + 1)
    let bs := blockIterList b (min e (addr.level_end b (level + 1))) (addr.entry_size (level + 1))
    let (ok, suffix, s1) :=
      mapEntries commit unmap attrs e (level + 1)
        (descendStep commit unmap (level + 1)
          (fun b2 c s2 => mapLevel commit unmap attrs level b2 e c s2))
        (t.drop idx) bs s
    (ok, t.take idx ++ suffix, s1)

/-- The reduce of Option values used by the query walks (OptReduce::opt_reduce
with the equality combiner): the common value when every element is the same
some, a failure otherwise, including on the empty list. -/
def optReduceEq : List (Option Attrs) → Option Attrs
  | [] => none
  | v :: vs => vs.foldl (fun acc w => match acc, w with
      | some l, some r => if l = r then some l else none
      | _, _ => none) v

/-- Gets the attributes of a range at one level (RawPageTable::get_attrs_level):
walk the covering entries, recursing into subtables, and reduce the per-entry
attrs with equality. -/
def getAttrsLevel : Nat → List PTE → Nat → Nat → Option Attrs
  | 0 => fun t b e =>
    let idx := addr.index b 0
    let bs := blockIterList b (min e (addr.level_end b 0)) (addr.entry_size 0)
    optReduceEq (((t.drop idx).zip bs).map (fun pb => some pb.1.attrs))
  | level + 1 => fun t b e =>
    let idx := addr.index b (level + 1)
    let bs := blockIterList b (min e (addr.level_end b (level + 1))) (addr.entry_size (level + 1))
    optReduceEq (((t.drop idx).zip bs).map (fun pb =>
      match pb.1 with
      | .table c => getAttrsLevel level c pb.2 e
      | p => some p.attrs))

/-- A page table (mm.rs PageTable): the contiguous run of root raw tables. -/
abbrev PTable := List (List PTE)

/-- Iterates map_level over the root tables starting at the root index of begin
(PageTable::map_root); the per-root begins come from the uncapped block
iterator over root-table-sized blocks.  The source slices the root run with
self[index(begin, root_level)..], which panics when the start index exceeds
the root table count; this embedding's List.drop collapses that case to an
empty walk, so no theorem here concludes absence of panics for begins past
the root coverage. -/
def mapRootGo (commit unmap : Bool) (attrs : Attrs) (e root_level : Nat) :
    List (List PTE) → List Nat → MMState → Bool × List (List PTE) × MMState
  | ts, [], s => (true, ts, s)
  | [], _ :: _, s => (true, [], s)
  | t :: ts, b :: bs, s =>
    let (ok, t1, s1) := mapLevel commit unmap attrs (root_level - 1) b e t s
    if ok then
      let (ok2, rest, s2) := mapRootGo commit unmap attrs e root_level ts bs s1
      (ok2, t1 :: rest, s2)
    else (false, t1 :: ts, s1)

/-- Updates the page table from the root (PageTable::map_root). -/
def mapRoot (commit unmap : Bool) (attrs : Attrs) (b e root_level : Nat)
    (pt : PTable) (s : MMState) : Bool × PTable × MMState :=
  let idx := addr.index b root_level
  let bs := blockIterList b e (addr.entry_size root_level)
  let (ok, suffix, s1) := mapRootGo commit unmap attrs e root_level (pt.drop idx) bs s
  (ok, pt.take idx ++ suffix, s1)

/-- Maps or unmaps a physical range (PageTable::identity_update): canonicalise
the range, run the walk without COMMIT to pre-allocate, run it again with
COMMIT, then invalidate the TLB for the range. -/
def identityUpdate (maxLevel rootCount : Nat) (unmap : Bool) (attrs : Attrs)
    (b e : Nat) (pt : PTable) (s : MMState) : Bool × PTable × MMState :=
  let root_level := maxLevel + 1
  let ptable_end := rootCount * addr.entry_size root_level
  let e1 := min (addr.round_up_to_page e) ptable_end
  let b1 := clearPa b
  let (ok1, pt1, s1) := mapRoot false unmap attrs b1 e1 root_level pt s
  if !ok1 then (false, pt1, s1)
  else
    let (ok2, pt2, s2) := mapRoot true unmap attrs b1 e1 root_level pt1 s1
    if !ok2 then (false, pt2, s2)
    else (true, pt2, s2.emit (.tlb b1 e1))

/-- PageTable::identity_map on the modelled stage-2 table. -/
def identityMap (b e mode : Nat) (pt : PTable) (s : MMState) : Bool × PTable × MMState :=
  identityUpdate stage2MaxLevel stage2RootCount false (modeToAttrs mode) b e pt s

/-- PageTable::unmap on the modelled stage-2 table: identity_update with the
UNMAP flag and the unowned-invalid-shared attrs. -/
def tableUnmap (b e : Nat) (pt : PTable) (s : MMState) : Bool × PTable × MMState :=
  identityUpdate stage2MaxLevel stage2RootCount true
    (modeToAttrs (Mode.UNOWNED ||| Mode.INVALID ||| Mode.SHARED)) b e pt s

/-- PageTable::get_attrs: page-align the range, reject it when it is out of the
root tables' coverage, then reduce get_attrs_level over the covered roots. -/
def getAttrs (maxLevel rootCount : Nat) (pt : PTable) (b e : Nat) : Option Attrs :=
  let root_level := maxLevel + 1
  let root_table_size := addr.entry_size root_level
  let ptable_end := rootCount * root_table_size
  let b1 := addr.round_down_to_page b
  let e1 := addr.round_up_to_page e
  if b1 ≤ e1 && e1 ≤ ptable_end then
    let idx := addr.index b1 root_level
    let bs := blockIterList b1 e1 root_table_size
    optReduceEq (((pt.drop idx).zip bs).map (fun tb => getAttrsLevel maxLevel tb.1 tb.2 e1))
  else none

/-- PageTable::get_mode on the modelled stage-2 table. -/
def getMode (pt : PTable) (b e : Nat) : Option Nat :=
  (getAttrs stage2MaxLevel stage2RootCount pt b e).map attrsToMode

/-- PageTable::defrag: defragment every entry of every root table at the
maximum level. -/
def tableDefragGo (maxLevel : Nat) : List (List PTE) → MMState → List (List PTE) × MMState
  | [], s => ([], s)
  | t :: ts, s =>
    let (_, t1, s1) := defragChildren (pteDefrag maxLevel) t s
    let (ts1, s2) := tableDefragGo maxLevel ts s1
    (t1 :: ts1, s2)

/-- PageTable::defrag on the modelled stage-2 table. -/
def tableDefrag (pt : PTable) (s : MMState) : PTable × MMState :=
  tableDefragGo stage2MaxLevel pt s

/-- A freshly constructed page table (PageTable::new): every entry of every
root table absent. -/
def freshTable : PTable :=
  List.replicate stage2RootCount (List.replicate PTE_PER_PAGE PTE.absent)

/-!
## Observation functions

Specification-side views of a table: the leaf descriptor the hardware would
use for a given input address, together with the output address and attrs it
yields.  These are what "committed, hardware-visible state" means.
-/

/-- The translation result an entry at the given level produces for input
address V: the covering leaf's output address for V and its attrs, or none if
the covering leaf is absent.  Descends through tables by the index bits of V. -/
def entryView : Nat → PTE → Nat → Option (Nat × Attrs)
  | 0 => fun p V =>
    match p with
    | .block oa a => some (oa + V % addr.entry_size 0, a)
    | _ => none
  | level + 1 => fun p V =>
    match p with
    | .block oa a => some (oa + V % addr.entry_size (level + 1), a)
    | .table c => entryView level (c.getD (addr.index V level) .absent) V
    | .absent => none

/-- The translation view of a whole table at a level. -/
def leafView (level : Nat) (t : List PTE) (V : Nat) : Option (Nat × Attrs) :=
  entryView level (t.getD (addr.index V level) .absent) V

/-- The attrs of the leaf descriptor covering input address V under an entry:
this is what the get_attrs walk reads off for V. -/
def entryAttrsAt : Nat → PTE → Nat → Attrs
  | 0 => fun p _ => p.attrs
  | level + 1 => fun p V =>
    match p with
    | .table c => entryAttrsAt level (c.getD (addr.index V level) .absent) V
    | p => p.attrs

/-- The attrs of the leaf covering V in a whole table at a level. -/
def leafAttrsAt (level : Nat) (t : List PTE) (V : Nat) : Attrs :=
  entryAttrsAt level (t.getD (addr.index V level) .absent) V

/-- The translation view of a whole page table (root run of raw tables). -/
def ptableView (pt : PTable) (V : Nat) : Option (Nat × Attrs) :=
  leafView stage2MaxLevel (pt.getD (addr.index V (stage2MaxLevel + 1)) []) V

/-- The leaf attrs of a whole page table at an address. -/
def ptableAttrsAt (pt : PTable) (V : Nat) : Attrs :=
  leafAttrsAt stage2MaxLevel (pt.getD (addr.index V (stage2MaxLevel + 1)) []) V

/-- Whether every block descriptor in an entry's subtree is present (the states
produced by mapping with valid or owned modes). -/
def entryBlocksPresent : Nat → PTE → Bool
  | 0 => fun p =>
    match p with
    | .block _ a => a.present
    | _ => true
  | level + 1 => fun p =>
    match p with
    | .block _ a => a.present
    | .table c => c.all (entryBlocksPresent level)
    | .absent => true

/-- Whether every block descriptor of a page table is present. -/
def ptableBlocksPresent (pt : PTable) : Bool :=
  pt.all (fun t => t.all (entryBlocksPresent stage2MaxLevel))

/-!
## Basic lemmas about the state monoid
-/

theorem MMState.emit_trace (s : MMState) (e : Event) :
    (s.emit e).trace = s.trace ++ [e] := rfl

theorem MMState.emit_pool (s : MMState) (e : Event) : (s.emit e).pool = s.pool := rfl

theorem foldEntries_trace (f : PTE → MMState → MMState)
    (h : ∀ p s, (f p s).trace = s.trace) :
    ∀ (ps : List PTE) (s : MMState), (foldEntries f ps s).trace = s.trace := by
  intro ps
  induction ps with
  | nil => intro s; rfl
  | cons p ps ih => intro s; rw [foldEntries, ih, h]

theorem pteFree_trace : ∀ (level : Nat) (p : PTE) (s : MMState),
    (pteFree level p s).trace = s.trace := by
  intro level
  induction level with
  | zero => intro p s; rfl
  | succ l ih =>
    intro p s
    cases p with
    | absent => rfl
    | block oa a => rfl
    | table c =>
      show (foldEntries (pteFree l) c s).freePage.trace = s.trace
      rw [show ∀ t : MMState, t.freePage.trace = t.trace from fun _ => rfl]
      exact foldEntries_trace _ ih c s

/-!
## Arithmetic toolkit

The bit-level operations of the address helpers, rewritten into div/mod form.
-/

theorem entry_size_eq (level : Nat) :
    addr.entry_size level = 2 ^ (PAGE_BITS + level * PAGE_LEVEL_BITS) := by
  unfold addr.entry_size
  rw [Nat.shiftLeft_eq, Nat.one_mul]

theorem entry_size_pos (level : Nat) : 0 < addr.entry_size level := by
  rw [entry_size_eq]; exact Nat.pos_pow_of_pos _ (by decide)

theorem entry_size_succ (level : Nat) :
    addr.entry_size (level + 1) = addr.entry_size level * PTE_PER_PAGE := by
  rw [entry_size_eq, entry_size_eq]
  show 2 ^ (PAGE_BITS + (level + 1) * PAGE_LEVEL_BITS) =
    2 ^ (PAGE_BITS + level * PAGE_LEVEL_BITS) * (PAGE_SIZE / 8)
  rw [show PAGE_SIZE / 8 = 2 ^ PAGE_LEVEL_BITS from by decide, ← Nat.pow_add]
  ring_nf

theorem index_eq_div_mod (a level : Nat) :
    addr.index a level = a / 2 ^ (PAGE_BITS + level * PAGE_LEVEL_BITS) % PTE_PER_PAGE := by
  unfold addr.index
  rw [show (1 <<< PAGE_LEVEL_BITS) - 1 = 2 ^ PAGE_LEVEL_BITS - 1 from by decide,
    Nat.and_pow_two_sub_one_eq_mod, Nat.shiftRight_eq_div_pow]
  rfl

/-- The quotient-remainder split of an address against the next level up: the
index at the current level times the entry size, plus the offset inside the
entry, equals the offset inside the parent entry. -/
theorem index_mul_add_mod (a level : Nat) :
    addr.index a level * addr.entry_size level + a % addr.entry_size level =
      a % addr.entry_size (level + 1) := by
  rw [index_eq_div_mod, entry_size_succ, entry_size_eq]
  rw [Nat.mod_mul]
  ring

theorem two_pow_sub_two_pow (k : Nat) (hk : k ≤ 64) :
    (2 : Nat) ^ 64 - 2 ^ k = (2 ^ (64 - k) - 1) <<< k := by
  have h64 : 64 - k + k = 64 := by omega
  rw [Nat.shiftLeft_eq, Nat.sub_mul, one_mul, ← Nat.pow_add, h64]

theorem usizeNot_pow2_sub_one (k : Nat) (hk : k ≤ 64) :
    usizeNot (2 ^ k - 1) = 2 ^ 64 - 2 ^ k := by
  unfold usizeNot USIZE
  apply Nat.eq_of_testBit_eq
  intro i
  rw [Nat.testBit_xor, Nat.testBit_two_pow_sub_one, Nat.testBit_two_pow_sub_one,
    two_pow_sub_two_pow k hk, Nat.testBit_shiftLeft, Nat.testBit_two_pow_sub_one]
  by_cases h1 : i < 64 <;> by_cases h2 : i < k <;> by_cases h3 : k ≤ i <;>
    simp [h1, h2, h3] <;> omega

/-- The usize masked-complement operation in div/mul form: clearing the low k
bits rounds down to a multiple of 2 to the k. -/
theorem and_usizeNot_pow2 (a k : Nat) (hk : k ≤ 64) (ha : a < USIZE) :
    a &&& usizeNot (2 ^ k - 1) = 2 ^ k * (a / 2 ^ k) := by
  have ha' : a < 2 ^ 64 := ha
  rw [usizeNot_pow2_sub_one k hk]
  have hrhs : 2 ^ k * (a / 2 ^ k) = (a >>> k) <<< k := by
    rw [Nat.shiftLeft_eq, Nat.shiftRight_eq_div_pow]; ring
  rw [hrhs, two_pow_sub_two_pow k hk]
  apply Nat.eq_of_testBit_eq
  intro i
  rw [Nat.testBit_and, Nat.testBit_shiftLeft, Nat.testBit_two_pow_sub_one,
    Nat.testBit_shiftLeft, Nat.testBit_shiftRight]
  by_cases h3 : k ≤ i
  · have hi : k + (i - k) = i := by omega
    rw [hi]
    by_cases h1 : i < 64
    · have h4 : i - k < 64 - k := by omega
      simp [h3, h4]
    · have hfa : a.testBit i = false :=
        Nat.testBit_lt_two_pow (lt_of_lt_of_le ha'
          (Nat.pow_le_pow_right (by decide) (by omega)))
      have h4 : ¬ (i - k < 64 - k) := by omega
      simp [h3, h4, hfa]
  · simp [h3]

theorem round_down_to_page_eq (a : Nat) (ha : a < USIZE) :
    addr.round_down_to_page a = a / PAGE_SIZE * PAGE_SIZE := by
  unfold addr.round_down_to_page
  rw [show (PAGE_SIZE : Nat) = 2 ^ 12 from rfl, and_usizeNot_pow2 a 12 (by decide) ha]
  ring

theorem round_up_to_page_eq (a : Nat) (ha : a + PAGE_SIZE ≤ USIZE) :
    addr.round_up_to_page a = (a + PAGE_SIZE - 1) / PAGE_SIZE * PAGE_SIZE := by
  unfold addr.round_up_to_page
  have h1 : a + PAGE_SIZE - 1 < USIZE := by
    have : (PAGE_SIZE : Nat) = 4096 := rfl
    omega
  rw [Nat.mod_eq_of_lt h1, round_down_to_page_eq _ h1]

theorem start_of_next_block_esz (b l : Nat) (hl : PAGE_BITS + l * PAGE_LEVEL_BITS ≤ 64)
    (hb : b + addr.entry_size l < USIZE) :
    addr.start_of_next_block b (addr.entry_size l) =
      (b / addr.entry_size l + 1) * addr.entry_size l := by
  unfold addr.start_of_next_block
  rw [entry_size_eq] at hb ⊢
  rw [Nat.mod_eq_of_lt hb, and_usizeNot_pow2 _ _ hl hb,
    Nat.add_div_right _ (Nat.pos_pow_of_pos _ (by decide))]
  ring

theorem level_end_eq (a l : Nat) (hl : PAGE_BITS + (l + 1) * PAGE_LEVEL_BITS ≤ 64)
    (ha : a + addr.entry_size (l + 1) < USIZE) :
    addr.level_end a l = (a / addr.entry_size (l + 1) + 1) * addr.entry_size (l + 1) := by
  unfold addr.level_end
  rw [entry_size_eq] at ha ⊢
  rw [Nat.shiftLeft_eq, Nat.shiftRight_eq_div_pow]
  have h1 : a / 2 ^ (PAGE_BITS + (l + 1) * PAGE_LEVEL_BITS) *
      2 ^ (PAGE_BITS + (l + 1) * PAGE_LEVEL_BITS) ≤ a := Nat.div_mul_le_self _ _
  have hlt : (a / 2 ^ (PAGE_BITS + (l + 1) * PAGE_LEVEL_BITS) + 1) *
      2 ^ (PAGE_BITS + (l + 1) * PAGE_LEVEL_BITS) < USIZE := by
    have h2 : (a / 2 ^ (PAGE_BITS + (l + 1) * PAGE_LEVEL_BITS) + 1) *
        2 ^ (PAGE_BITS + (l + 1) * PAGE_LEVEL_BITS) =
        a / 2 ^ (PAGE_BITS + (l + 1) * PAGE_LEVEL_BITS) *
          2 ^ (PAGE_BITS + (l + 1) * PAGE_LEVEL_BITS) +
          2 ^ (PAGE_BITS + (l + 1) * PAGE_LEVEL_BITS) := by ring
    unfold USIZE at ha ⊢
    omega
  rw [Nat.mod_eq_of_lt hlt]

theorem div_esz_succ (b l : Nat) :
    b / addr.entry_size (l + 1) = b / addr.entry_size l / PTE_PER_PAGE := by
  rw [entry_size_succ, Nat.div_div_eq_div_mul]

theorem index_def2 (b l : Nat) :
    addr.index b l = b / addr.entry_size l % PTE_PER_PAGE := by
  rw [index_eq_div_mod, entry_size_eq]

/-- The per-level entry index is always below the table size. -/
theorem index_lt_pte (a level : Nat) : addr.index a level < PTE_PER_PAGE := by
  unfold addr.index
  have h : (a >>> (PAGE_BITS + level * PAGE_LEVEL_BITS)) &&& ((1 <<< PAGE_LEVEL_BITS) - 1) ≤
      (1 <<< PAGE_LEVEL_BITS) - 1 := Nat.and_le_right
  have h2 : (1 <<< PAGE_LEVEL_BITS) - 1 < PTE_PER_PAGE := by decide
  omega

/-- The level end of an address is at most one parent entry past it. -/
theorem level_end_le (b l : Nat) (hl : PAGE_BITS + (l + 1) * PAGE_LEVEL_BITS ≤ 64)
    (hb : b + addr.entry_size (l + 1) < USIZE) :
    addr.level_end b l ≤ b + addr.entry_size (l + 1) := by
  rw [level_end_eq b l hl hb]
  have h1 : b / addr.entry_size (l + 1) * addr.entry_size (l + 1) ≤ b :=
    Nat.div_mul_le_self _ _
  have h2 : (b / addr.entry_size (l + 1) + 1) * addr.entry_size (l + 1) =
      b / addr.entry_size (l + 1) * addr.entry_size (l + 1) + addr.entry_size (l + 1) := by
    ring
  omega

/-- The next block start strictly exceeds the current address. -/
theorem lt_next_block (b l : Nat) :
    b < (b / addr.entry_size l + 1) * addr.entry_size l := by
  have hE := entry_size_pos l
  have h1 := Nat.div_add_mod b (addr.entry_size l)
  have h2 := Nat.mod_lt b hE
  have h3 : (b / addr.entry_size l + 1) * addr.entry_size l =
      addr.entry_size l * (b / addr.entry_size l) + addr.entry_size l := by ring
  omega

/-- The next block start stays within the level end of the current address. -/
theorem next_block_le_level_end (b l : Nat)
    (hl : PAGE_BITS + (l + 1) * PAGE_LEVEL_BITS ≤ 64)
    (hb : b + addr.entry_size (l + 1) < USIZE) :
    (b / addr.entry_size l + 1) * addr.entry_size l ≤ addr.level_end b l := by
  rw [level_end_eq b l hl hb, div_esz_succ, entry_size_succ]
  have hE := entry_size_pos l
  have h1 := Nat.div_add_mod (b / addr.entry_size l) PTE_PER_PAGE
  have h2 : b / addr.entry_size l % PTE_PER_PAGE < PTE_PER_PAGE :=
    Nat.mod_lt _ (by decide)
  have h3 : b / addr.entry_size l + 1 ≤ (b / addr.entry_size l / PTE_PER_PAGE + 1) * PTE_PER_PAGE := by
    have h4 : (b / addr.entry_size l / PTE_PER_PAGE + 1) * PTE_PER_PAGE =
        PTE_PER_PAGE * (b / addr.entry_size l / PTE_PER_PAGE) + PTE_PER_PAGE := by ring
    omega
  calc (b / addr.entry_size l + 1) * addr.entry_size l
      ≤ (b / addr.entry_size l / PTE_PER_PAGE + 1) * PTE_PER_PAGE * addr.entry_size l :=
        Nat.mul_le_mul_right _ h3
    _ = (b / addr.entry_size l / PTE_PER_PAGE + 1) * (addr.entry_size l * PTE_PER_PAGE) := by ring

/-- Stepping to the next block inside the same parent window advances the index
by exactly one and keeps the level end. -/
theorem index_next_block (b l : Nat)
    (hl : PAGE_BITS + (l + 1) * PAGE_LEVEL_BITS ≤ 64)
    (hb : b + addr.entry_size (l + 1) < USIZE)
    (hb2 : (b / addr.entry_size l + 1) * addr.entry_size l + addr.entry_size (l + 1) < USIZE)
    (hcap : (b / addr.entry_size l + 1) * addr.entry_size l < addr.level_end b l) :
    addr.index ((b / addr.entry_size l + 1) * addr.entry_size l) l = addr.index b l + 1 ∧
    addr.level_end ((b / addr.entry_size l + 1) * addr.entry_size l) l = addr.level_end b l := by
  have hE := entry_size_pos l
  have hdiv : (b / addr.entry_size l + 1) * addr.entry_size l / addr.entry_size l =
      b / addr.entry_size l + 1 := Nat.mul_div_cancel _ hE
  set q := b / addr.entry_size l with hq
  have h1 := Nat.div_add_mod q PTE_PER_PAGE
  have h2 : q % PTE_PER_PAGE < PTE_PER_PAGE := Nat.mod_lt _ (by decide)
  -- From hcap, the index within the parent window is not the last one.
  rw [level_end_eq b l hl hb, div_esz_succ, entry_size_succ, ← hq] at hcap
  have h3 : q + 1 < (q / PTE_PER_PAGE + 1) * PTE_PER_PAGE := by
    by_contra h4
    have h5 : (q / PTE_PER_PAGE + 1) * PTE_PER_PAGE ≤ q + 1 := by omega
    have h6 : (q / PTE_PER_PAGE + 1) * PTE_PER_PAGE * addr.entry_size l ≤
        (q + 1) * addr.entry_size l := Nat.mul_le_mul_right _ h5
    have h7 : (q / PTE_PER_PAGE + 1) * (addr.entry_size l * PTE_PER_PAGE) =
        (q / PTE_PER_PAGE + 1) * PTE_PER_PAGE * addr.entry_size l := by ring
    omega
  have h8 : (q / PTE_PER_PAGE + 1) * PTE_PER_PAGE =
      PTE_PER_PAGE * (q / PTE_PER_PAGE) + PTE_PER_PAGE := by ring
  have h9 : q % PTE_PER_PAGE + 1 < PTE_PER_PAGE := by omega
  have h10 : q + 1 = PTE_PER_PAGE * (q / PTE_PER_PAGE) + (q % PTE_PER_PAGE + 1) := by omega
  constructor
  · rw [index_def2, index_def2, hdiv, ← hq, h10, Nat.mul_add_mod]
    rw [Nat.mod_eq_of_lt h9]
  · rw [level_end_eq _ l hl hb2, level_end_eq b l hl hb, div_esz_succ, div_esz_succ, ← hq, hdiv]
    congr 2
    rw [h10, Nat.mul_add_div (by decide), Nat.div_eq_of_lt h9]
    omega

/-!
## Block iterator lemmas
-/

theorem blockIterGo_of_ge (e sz f b : Nat) (h : e ≤ b) : blockIterGo e sz f b = [] := by
  cases f with
  | zero => rfl
  | succ f => rw [blockIterGo, if_neg (by omega)]

theorem blockIterGo_fuel (l : Nat) (hl : PAGE_BITS + l * PAGE_LEVEL_BITS ≤ 64) (e : Nat)
    (he : e + addr.entry_size l < USIZE) :
    ∀ f f' b, e - b ≤ f → e - b ≤ f' →
      blockIterGo e (addr.entry_size l) f b = blockIterGo e (addr.entry_size l) f' b := by
  intro f
  induction f with
  | zero =>
    intro f' b h1 h2
    rw [blockIterGo_of_ge e _ 0 b (by omega), blockIterGo_of_ge e _ f' b (by omega)]
  | succ f ih =>
    intro f' b h1 h2
    by_cases hb : b < e
    · obtain ⟨f'', rfl⟩ : ∃ f'', f' = f'' + 1 := ⟨f' - 1, by omega⟩
      rw [blockIterGo, blockIterGo, if_pos hb, if_pos hb]
      have hnext : addr.start_of_next_block b (addr.entry_size l) =
          (b / addr.entry_size l + 1) * addr.entry_size l :=
        start_of_next_block_esz b l hl (by omega)
      have hgt : b < (b / addr.entry_size l + 1) * addr.entry_size l := lt_next_block b l
      rw [hnext]
      rw [ih f'' _ (by omega) (by omega)]
    · rw [blockIterGo_of_ge e _ _ b (by omega), blockIterGo_of_ge e _ _ b (by omega)]

theorem blockIterList_nil (b e sz : Nat) (h : e ≤ b) : blockIterList b e sz = [] := by
  unfold blockIterList
  rw [Nat.sub_eq_zero_of_le h]
  rfl

theorem blockIterList_cons (b e l : Nat) (hl : PAGE_BITS + l * PAGE_LEVEL_BITS ≤ 64)
    (he : e + addr.entry_size l < USIZE) (hb : b < e) :
    blockIterList b e (addr.entry_size l) =
      b :: blockIterList ((b / addr.entry_size l + 1) * addr.entry_size l) e
        (addr.entry_size l) := by
  unfold blockIterList
  obtain ⟨m, hm⟩ : ∃ m, e - b = m + 1 := ⟨e - b - 1, by omega⟩
  rw [hm, blockIterGo, if_pos hb]
  have hnext : addr.start_of_next_block b (addr.entry_size l) =
      (b / addr.entry_size l + 1) * addr.entry_size l :=
    start_of_next_block_esz b l hl (by omega)
  rw [hnext]
  congr 1
  apply blockIterGo_fuel l hl e he
  · have := lt_next_block b l
    omega
  · omega

/-!
## Well-formedness

Every table reachable from the operations has exactly PTE_PER_PAGE entries in
every raw table; the characterization lemmas need this shape.
-/

/-- Whether every table in the subtree of an entry at the given level has
exactly PTE_PER_PAGE entries. -/
def entryWF : Nat → PTE → Bool
  | 0 => fun _ => true
  | level + 1 => fun p =>
    match p with
    | .table c => decide (c.length = PTE_PER_PAGE) && c.all (entryWF level)
    | _ => true

/-- Whether a raw table at a level is well formed. -/
def tableWF (level : Nat) (t : List PTE) : Bool :=
  decide (t.length = PTE_PER_PAGE) && t.all (entryWF level)

/-!
## Characterization of the query reduce
-/

theorem optReduceEq_eq_some_iff (xs : List (Option Attrs)) (A : Attrs) :
    optReduceEq xs = some A ↔ xs ≠ [] ∧ ∀ x ∈ xs, x = some A := by
  have step : ∀ (acc : Option Attrs) (w : Option Attrs),
      (match acc, w with
        | some l, some r => if l = r then some l else none
        | _, _ => (none : Option Attrs)) = some A ↔ acc = some A ∧ w = some A := by
    intro acc w
    rcases acc with _ | l <;> rcases w with _ | r
    · simp
    · simp
    · simp
    · by_cases h : l = r
      · subst h; simp
      · simp only [if_neg h]
        constructor
        · intro hc; cases hc
        · rintro ⟨h1, h2⟩
          injection h1 with h1
          injection h2 with h2
          exact absurd (h1.trans h2.symm) h
  have aux : ∀ (vs : List (Option Attrs)) (acc : Option Attrs),
      vs.foldl (fun acc w => match acc, w with
        | some l, some r => if l = r then some l else none
        | _, _ => none) acc = some A ↔ acc = some A ∧ ∀ x ∈ vs, x = some A := by
    intro vs
    induction vs with
    | nil => intro acc; simp
    | cons w vs ih =>
      intro acc
      rw [List.foldl_cons, ih, step]
      constructor
      · rintro ⟨⟨h1, h2⟩, h3⟩
        refine ⟨h1, ?_⟩
        intro x hx
        rcases List.mem_cons.mp hx with hx | hx
        · rw [hx]; exact h2
        · exact h3 x hx
      · rintro ⟨h1, h2⟩
        exact ⟨⟨h1, h2 w (List.mem_cons_self w vs)⟩,
          fun x hx => h2 x (List.mem_cons_of_mem w hx)⟩
  cases xs with
  | nil => simp [optReduceEq]
  | cons v vs =>
    rw [optReduceEq, aux]
    simp

/-!
## Auxiliary window facts
-/

theorem lt_level_end (b l : Nat) (hl : PAGE_BITS + (l + 1) * PAGE_LEVEL_BITS ≤ 64)
    (hb : b + addr.entry_size (l + 1) < USIZE) : b < addr.level_end b l := by
  rw [level_end_eq b l hl hb]
  have hP := entry_size_pos (l + 1)
  have h1 := Nat.div_add_mod b (addr.entry_size (l + 1))
  have h2 := Nat.mod_lt b hP
  have h3 : (b / addr.entry_size (l + 1) + 1) * addr.entry_size (l + 1) =
      addr.entry_size (l + 1) * (b / addr.entry_size (l + 1)) + addr.entry_size (l + 1) := by
    ring
  omega

theorem div_eq_of_chunk (V b E : Nat) (hE : 0 < E) (h1 : b ≤ V)
    (h2 : V < (b / E + 1) * E) : V / E = b / E := by
  apply Nat.div_eq_of_lt_le
  · calc b / E * E ≤ b := Nat.div_mul_le_self b E
      _ ≤ V := h1
  · rw [Nat.succ_mul] at h2 ⊢
    exact h2

theorem index_eq_of_chunk (V b l : Nat) (h1 : b ≤ V)
    (h2 : V < (b / addr.entry_size l + 1) * addr.entry_size l) :
    addr.index V l = addr.index b l := by
  rw [index_def2, index_def2, div_eq_of_chunk V b _ (entry_size_pos l) h1 h2]

/-!
## Characterization of get_attrs_level by the pointwise leaf attrs
-/

theorem gaInner (lvl e : Nat) (t : List PTE) (A : Attrs) (f : PTE → Nat → Option Attrs)
    (hlvl : PAGE_BITS + (lvl + 1) * PAGE_LEVEL_BITS ≤ 62)
    (hT : t.length = PTE_PER_PAGE)
    (he : e ≤ 2 ^ 62)
    (hWF : t.all (entryWF lvl) = true)
    (hf : ∀ p cb, cb < e → entryWF lvl p = true →
      (f p cb = some A ↔ ∀ V, cb ≤ V →
        V < min e ((cb / addr.entry_size lvl + 1) * addr.entry_size lvl) →
        entryAttrsAt lvl p V = A)) :
    ∀ n b, n = min e (addr.level_end b lvl) - b → b < e →
      b + addr.entry_size (lvl + 1) < USIZE →
      (optReduceEq (((t.drop (addr.index b lvl)).zip
          (blockIterList b (min e (addr.level_end b lvl)) (addr.entry_size lvl))).map
        (fun pb => f pb.1 pb.2)) = some A ↔
        (∀ V, b ≤ V → V < min e (addr.level_end b lvl) → leafAttrsAt lvl t V = A)) := by
  intro n
  induction n using Nat.strong_induction_on with
  | _ n ih =>
    intro b hn hb hbw
    have hE := entry_size_pos lvl
    have hP := entry_size_pos (lvl + 1)
    have hbw2 : b + addr.entry_size (lvl + 1) < 2 ^ 64 := hbw
    have hmono : lvl * PAGE_LEVEL_BITS ≤ (lvl + 1) * PAGE_LEVEL_BITS :=
      Nat.mul_le_mul_right _ (Nat.le_succ lvl)
    have hlvl64 : PAGE_BITS + (lvl + 1) * PAGE_LEVEL_BITS ≤ 64 := by omega
    have hlvl64' : PAGE_BITS + lvl * PAGE_LEVEL_BITS ≤ 64 := by omega
    have hEsmall : addr.entry_size lvl ≤ 2 ^ 62 := by
      rw [entry_size_eq]
      refine Nat.pow_le_pow_right (by decide) ?_
      omega
    have hlt_le : b < addr.level_end b lvl := lt_level_end b lvl hlvl64 hbw
    set cap := min e (addr.level_end b lvl) with hcap
    have hbcap : b < cap := by omega
    have hcaple : cap ≤ e := by omega
    have hcapw : cap + addr.entry_size lvl < USIZE := by
      show cap + addr.entry_size lvl < 2 ^ 64
      have h2 : (2 : Nat) ^ 62 + 2 ^ 62 < 2 ^ 64 := by decide
      omega
    have hidx : addr.index b lvl < PTE_PER_PAGE := index_lt_pte b lvl
    have hidxlen : addr.index b lvl < t.length := by omega
    -- Unfold one chunk.
    rw [blockIterList_cons b cap lvl hlvl64' hcapw hbcap,
      List.drop_eq_getElem_cons hidxlen, List.zip_cons_cons, List.map_cons]
    set b' := (b / addr.entry_size lvl + 1) * addr.entry_size lvl with hb'
    have hbb' : b < b' := lt_next_block b lvl
    have hb'le : b' ≤ addr.level_end b lvl := next_block_le_level_end b lvl hlvl64 hbw
    have hWFhead : entryWF lvl t[addr.index b lvl] = true :=
      List.all_eq_true.mp hWF t[addr.index b lvl] (List.getElem_mem hidxlen)
    have hgetD : t.getD (addr.index b lvl) .absent = t[addr.index b lvl] := by
      rw [List.getD_eq_getElem?_getD, List.getElem?_eq_getElem hidxlen]
      rfl
    have hbridge : ∀ lo hi, lo ≤ hi → b ≤ lo → hi ≤ b' →
        ((∀ V, lo ≤ V → V < hi → entryAttrsAt lvl t[addr.index b lvl] V = A) ↔
          (∀ V, lo ≤ V → V < hi → leafAttrsAt lvl t V = A)) := by
      intro lo hi _ hlo hhi
      have hpt : ∀ V, lo ≤ V → V < hi → leafAttrsAt lvl t V =
          entryAttrsAt lvl t[addr.index b lvl] V := by
        intro V h1 h2
        unfold leafAttrsAt
        rw [index_eq_of_chunk V b lvl (by omega) (by omega), hgetD]
      constructor
      · intro h V h1 h2; rw [hpt V h1 h2]; exact h V h1 h2
      · intro h V h1 h2; rw [← hpt V h1 h2]; exact h V h1 h2
    by_cases hsplit : b' < cap
    · -- A further chunk follows.
      have hb'w : b' + addr.entry_size (lvl + 1) < USIZE := by
        show b' + addr.entry_size (lvl + 1) < 2 ^ 64
        have hPsmall : addr.entry_size (lvl + 1) ≤ 2 ^ 62 := by
          rw [entry_size_eq]
          exact Nat.pow_le_pow_right (by decide) hlvl
        have h2 : (2 : Nat) ^ 62 + 2 ^ 62 + 2 ^ 62 < 2 ^ 64 := by decide
        omega
      obtain ⟨hidx', hle'⟩ := index_next_block b lvl hlvl64 hbw hb'w (by omega)
      rw [← hb'] at hidx' hle'
      have hcap' : min e (addr.level_end b' lvl) = cap := by
        rw [hle']
      have htail : optReduceEq (((t.drop (addr.index b lvl + 1)).zip
          (blockIterList b' cap (addr.entry_size lvl))).map (fun pb => f pb.1 pb.2)) = some A ↔
          (∀ V, b' ≤ V → V < cap → leafAttrsAt lvl t V = A) := by
        have := ih (cap - b') (by omega) b' (by rw [hcap']) (by omega) hb'w
        rw [hcap', hidx'] at this
        exact this
      have hhead : f t[addr.index b lvl] b = some A ↔
          (∀ V, b ≤ V → V < b' → entryAttrsAt lvl t[addr.index b lvl] V = A) := by
        have hmin : min e ((b / addr.entry_size lvl + 1) * addr.entry_size lvl) = b' := by
          rw [← hb']; omega
        rw [hf t[addr.index b lvl] b hb hWFhead, hmin]
      -- Assemble via the all-characterization of the reduce.
      rw [optReduceEq_eq_some_iff] at htail ⊢
      constructor
      · rintro ⟨_, hall⟩
        have h1 : f t[addr.index b lvl] b = some A := hall _ (by simp)
        have h2 : ∀ V, b' ≤ V → V < cap → leafAttrsAt lvl t V = A := by
          have hne : ((t.drop (addr.index b lvl + 1)).zip
              (blockIterList b' cap (addr.entry_size lvl))).map
                (fun pb => f pb.1 pb.2) ≠ [] := by
            have hidx2 : addr.index b lvl + 1 < t.length := by
              have := index_lt_pte b' lvl
              omega
            rw [blockIterList_cons b' cap lvl hlvl64' hcapw hsplit,
              List.drop_eq_getElem_cons hidx2, List.zip_cons_cons, List.map_cons]
            simp
          exact htail.mp ⟨hne, fun x hx => hall x (List.mem_cons_of_mem _ hx)⟩
        have h3 := (hbridge b b' (by omega) le_rfl le_rfl).mp (hhead.mp h1)
        intro V h4 h5
        by_cases h6 : V < b'
        · exact h3 V h4 h6
        · exact h2 V (by omega) h5
      · intro hall
        refine ⟨by simp, ?_⟩
        intro x hx
        rcases List.mem_cons.mp hx with hx | hx
        · rw [hx]
          exact hhead.mpr ((hbridge b b' (by omega) le_rfl le_rfl).mpr
            (fun V h1 h2 => hall V h1 (by omega)))
        · exact (htail.mpr (fun V h1 h2 => hall V (by omega) h2)).2 x hx
    · -- Last chunk: the tail iterator is empty.
      have hb'cap : cap ≤ b' := by omega
      have hmin : min e ((b / addr.entry_size lvl + 1) * addr.entry_size lvl) = cap := by
        rw [← hb']; omega
      rw [blockIterList_nil b' cap _ hb'cap]
      have hhead : f t[addr.index b lvl] b = some A ↔
          (∀ V, b ≤ V → V < cap → entryAttrsAt lvl t[addr.index b lvl] V = A) := by
        rw [hf t[addr.index b lvl] b hb hWFhead, hmin]
      rw [optReduceEq_eq_some_iff]
      simp only [List.zip_nil_right, List.map_nil]
      constructor
      · rintro ⟨_, hall⟩
        exact (hbridge b cap (by omega) le_rfl hb'cap).mp
          (hhead.mp (hall _ (by simp)))
      · intro hall
        refine ⟨by simp, ?_⟩
        intro x hx
        rcases List.mem_cons.mp hx with hx | hx
        · rw [hx]
          exact hhead.mpr ((hbridge b cap (by omega) le_rfl hb'cap).mpr hall)
        · simp at hx

/-- The leaf attrs under a leaf entry do not depend on the address. -/
theorem entryAttrsAt_zero (p : PTE) (V : Nat) : entryAttrsAt 0 p V = p.attrs := rfl

theorem entryAttrsAt_succ_block (level oa : Nat) (a : Attrs) (V : Nat) :
    entryAttrsAt (level + 1) (.block oa a) V = a := rfl

theorem entryAttrsAt_succ_absent (level V : Nat) :
    entryAttrsAt (level + 1) PTE.absent V = absentAttrs := rfl

theorem entryAttrsAt_succ_table (level : Nat) (c : List PTE) (V : Nat) :
    entryAttrsAt (level + 1) (.table c) V = leafAttrsAt level c V := rfl

/-- The chunk characterization of a constant per-chunk value. -/
theorem some_attrs_chunk_iff (lvl e cb : Nat) (x A : Attrs) (hcb : cb < e) :
    ((some x : Option Attrs) = some A ↔
      ∀ V, cb ≤ V →
        V < min e ((cb / addr.entry_size lvl + 1) * addr.entry_size lvl) → x = A) := by
  constructor
  · intro h V _ _
    exact Option.some_inj.mp h
  · intro h
    rw [h cb le_rfl (lt_min hcb (lt_next_block cb lvl))]

/-- The get_attrs_level walk returns some attrs exactly when every address of
its capped range sees that leaf attrs value. -/
theorem getAttrsLevel_char (lvl : Nat) :
    ∀ (t : List PTE) (b e : Nat) (A : Attrs),
    PAGE_BITS + (lvl + 1) * PAGE_LEVEL_BITS ≤ 62 →
    tableWF lvl t = true →
    e ≤ 2 ^ 62 → b < e →
    (getAttrsLevel lvl t b e = some A ↔
      ∀ V, b ≤ V → V < min e (addr.level_end b lvl) → leafAttrsAt lvl t V = A) := by
  induction lvl with
  | zero =>
    intro t b e A hlvl hWF he hb
    obtain ⟨hT, hall⟩ : t.length = PTE_PER_PAGE ∧ t.all (entryWF 0) = true := by
      unfold tableWF at hWF
      simpa using hWF
    have hbw : b + addr.entry_size 1 < USIZE := by
      show b + addr.entry_size 1 < 2 ^ 64
      have h1 : addr.entry_size 1 ≤ 2 ^ 62 := by
        rw [entry_size_eq]
        exact Nat.pow_le_pow_right (by decide) (by decide)
      omega
    exact gaInner 0 e t A (fun p _ => some p.attrs) hlvl hT he hall
      (by
        intro p cb hcb _
        simp only [entryAttrsAt_zero]
        exact some_attrs_chunk_iff 0 e cb p.attrs A hcb)
      (min e (addr.level_end b 0) - b) b rfl hb hbw
  | succ level ihl =>
    intro t b e A hlvl hWF he hb
    obtain ⟨hT, hall⟩ : t.length = PTE_PER_PAGE ∧ t.all (entryWF (level + 1)) = true := by
      unfold tableWF at hWF
      simpa using hWF
    have hmono : level * PAGE_LEVEL_BITS ≤ (level + 1) * PAGE_LEVEL_BITS :=
      Nat.mul_le_mul_right _ (Nat.le_succ level)
    have hmono2 : (level + 1) * PAGE_LEVEL_BITS ≤ (level + 1 + 1) * PAGE_LEVEL_BITS :=
      Nat.mul_le_mul_right _ (Nat.le_succ _)
    have hlvl' : PAGE_BITS + (level + 1) * PAGE_LEVEL_BITS ≤ 62 := by omega
    have hbw : b + addr.entry_size (level + 1 + 1) < USIZE := by
      show b + addr.entry_size (level + 1 + 1) < 2 ^ 64
      have hPsmall : addr.entry_size (level + 1 + 1) ≤ 2 ^ 62 := by
        rw [entry_size_eq]
        exact Nat.pow_le_pow_right (by decide) hlvl
      have h2 : (2 : Nat) ^ 62 + 2 ^ 62 < 2 ^ 64 := by decide
      omega
    exact gaInner (level + 1) e t A
      (fun p cb => match p with
        | .table c => getAttrsLevel level c cb e
        | p => some p.attrs)
      hlvl hT he hall
      (by
        intro p cb hcb hWFp
        have hcbw : cb + addr.entry_size (level + 1) < USIZE := by
          show cb + addr.entry_size (level + 1) < 2 ^ 64
          have h1 : addr.entry_size (level + 1) ≤ 2 ^ 62 := by
            rw [entry_size_eq]
            exact Nat.pow_le_pow_right (by decide) hlvl'
          omega
        cases p with
        | table c =>
          have hcWF : tableWF level c = true := by
            rw [entryWF] at hWFp
            unfold tableWF
            exact hWFp
          have hchar := ihl c cb e A hlvl' hcWF he hcb
          have hle : addr.level_end cb level =
              (cb / addr.entry_size (level + 1) + 1) * addr.entry_size (level + 1) :=
            level_end_eq cb level (by omega) hcbw
          show getAttrsLevel level c cb e = some A ↔ _
          simp only [entryAttrsAt_succ_table]
          rw [hchar, hle]
        | absent =>
          simp only [entryAttrsAt_succ_absent]
          exact some_attrs_chunk_iff (level + 1) e cb absentAttrs A hcb
        | block oa a =>
          simp only [entryAttrsAt_succ_block]
          exact some_attrs_chunk_iff (level + 1) e cb a A hcb)
      (min e (addr.level_end b (level + 1)) - b) b rfl hb hbw

/-- Evaluation of the reduce on a single element. -/
theorem optReduceEq_singleton (x : Option Attrs) : optReduceEq [x] = x := rfl

/-- PageTable::get_attrs on the modelled stage-2 table returns some attrs
exactly when the page-rounded range is ordered, inside the root coverage,
non-empty, and every covered address sees that same leaf attrs. -/
theorem getAttrs_char (pt : PTable) (b e : Nat) (A : Attrs)
    (hpt : pt.length = stage2RootCount)
    (hWF : ∀ t ∈ pt, tableWF stage2MaxLevel t = true)
    (he : e + PAGE_SIZE ≤ USIZE) :
    getAttrs stage2MaxLevel stage2RootCount pt b e = some A ↔
      (addr.round_down_to_page b ≤ addr.round_up_to_page e ∧
       addr.round_up_to_page e ≤ stage2RootCount * addr.entry_size (stage2MaxLevel + 1) ∧
       addr.round_down_to_page b < addr.round_up_to_page e ∧
       ∀ V, addr.round_down_to_page b ≤ V → V < addr.round_up_to_page e →
         ptableAttrsAt pt V = A) := by
  obtain ⟨t, rfl⟩ : ∃ t, pt = [t] := by
    cases pt with
    | nil => cases hpt
    | cons t ts =>
      cases ts with
      | nil => exact ⟨t, rfl⟩
      | cons _ _ => cases hpt
  have hWFt : tableWF stage2MaxLevel t = true := hWF t (by simp)
  have hcov : stage2RootCount * addr.entry_size (stage2MaxLevel + 1) = 2 ^ 48 := by decide
  simp only [getAttrs]
  set b1 := addr.round_down_to_page b with hb1
  set e1 := addr.round_up_to_page e with he1
  rw [hcov]
  by_cases hc1 : b1 ≤ e1 ∧ e1 ≤ 2 ^ 48
  · rcases hc1 with ⟨hc1, hc2⟩
    rw [if_pos (by rw [Bool.and_eq_true]; exact ⟨decide_eq_true hc1, decide_eq_true hc2⟩)]
    by_cases hc3 : b1 < e1
    · -- Non-empty range: a single root chunk.
      have hb1lt : b1 < 2 ^ 48 := by omega
      have hesz4 : addr.entry_size (stage2MaxLevel + 1) = 2 ^ 48 := by decide
      have hidx0 : addr.index b1 (stage2MaxLevel + 1) = 0 := by
        rw [index_def2, hesz4, Nat.div_eq_of_lt hb1lt]
        rfl
      have he1w : e1 + addr.entry_size 4 < USIZE := by
        show e1 + addr.entry_size 4 < 2 ^ 64
        have h4 : addr.entry_size 4 = 2 ^ 48 := by decide
        have : (2 : Nat) ^ 48 + 2 ^ 48 < 2 ^ 64 := by decide
        omega
      have hnext : (b1 / addr.entry_size 4 + 1) * addr.entry_size 4 = 2 ^ 48 := by
        have h4 : addr.entry_size 4 = 2 ^ 48 := by decide
        rw [h4, Nat.div_eq_of_lt hb1lt]
        omega
      rw [hidx0]
      rw [show addr.entry_size (stage2MaxLevel + 1) = addr.entry_size 4 from rfl]
      rw [blockIterList_cons b1 e1 4 (by decide) he1w hc3, hnext,
        blockIterList_nil _ _ _ (by omega)]
      show optReduceEq [getAttrsLevel stage2MaxLevel t b1 e1] = some A ↔ _
      rw [optReduceEq_singleton]
      have hchar := getAttrsLevel_char stage2MaxLevel t b1 e1 A (by decide) hWFt
        (by show e1 ≤ 2 ^ 62; omega) hc3
      have hle3 : addr.level_end b1 stage2MaxLevel = 2 ^ 48 := by
        have hb1w : b1 + addr.entry_size (stage2MaxLevel + 1) < USIZE := by
          show b1 + addr.entry_size (stage2MaxLevel + 1) < 2 ^ 64
          have : (2 : Nat) ^ 48 + 2 ^ 48 < 2 ^ 64 := by decide
          omega
        rw [level_end_eq b1 stage2MaxLevel (by decide) hb1w, hesz4,
          Nat.div_eq_of_lt hb1lt]
        omega
      have hmin : min e1 (addr.level_end b1 stage2MaxLevel) = e1 := by
        rw [hle3]; omega
      rw [hchar, hmin]
      have hpv : ∀ V, V < e1 → ptableAttrsAt [t] V = leafAttrsAt stage2MaxLevel t V := by
        intro V h2
        unfold ptableAttrsAt
        have hidxV : addr.index V (stage2MaxLevel + 1) = 0 := by
          rw [index_def2, hesz4, Nat.div_eq_of_lt (by omega)]
          rfl
        rw [hidxV]
        rfl
      constructor
      · intro h
        refine ⟨hc1, hc2, hc3, ?_⟩
        intro V h1 h2
        rw [hpv V h2]
        exact h V h1 h2
      · rintro ⟨_, _, _, h⟩
        intro V h1 h2
        rw [← hpv V h2]
        exact h V h1 h2
    · -- Empty range: the reduce has no elements and fails.
      have hbe : e1 ≤ b1 := by omega
      rw [blockIterList_nil _ _ _ hbe]
      simp only [List.zip_nil_right, List.map_nil]
      constructor
      · intro h
        exact Option.noConfusion h
      · rintro ⟨_, _, h3, _⟩
        omega
  · rw [if_neg (by
      intro hcc
      rw [Bool.and_eq_true] at hcc
      exact hc1 ⟨of_decide_eq_true hcc.1, of_decide_eq_true hcc.2⟩)]
    constructor
    · intro h
      exact Option.noConfusion h
    · rintro ⟨h1, h2, _, _⟩
      exact (hc1 ⟨h1, h2⟩).elim

/-!
## Claim C10: index bound
-/

/-- C10 counterexample: the root-level slice start is not bounded by the root
table count.  begin = 2 * 2^48 survives arch_mm_clear_pa unchanged, and its
index at the root level is 2, past the single root table of the modelled
stage-2 geometry (the fresh table's root run has length 1): the source's
map_root evaluates self[2..] on a run of one table and panics, so the claim's
conclusion that the walkers cannot panic on any input address is false. -/
theorem map_root_index_out_of_bounds :
    clearPa (2 * 2 ^ 48) = 2 * 2 ^ 48 ∧
    stage2RootCount < addr.index (clearPa (2 * 2 ^ 48)) (stage2MaxLevel + 1) ∧
    freshTable.length < addr.index (clearPa (2 * 2 ^ 48)) (stage2MaxLevel + 1) :=
  ⟨by decide, by decide, by decide⟩

/-- C10 (amended): for every address and level, addr::index is strictly below
PTE_PER_PAGE, so the per-table slice indexing performed by map_level and
get_attrs_level stays within every well-formed table, whose length is
PTE_PER_PAGE.  The claim's further conclusion — that map_root's root-run slice
is thereby in bounds too, and the walkers cannot panic on any input
address — is false: the root-level index can exceed the root table count, and
there the source's slice panics. -/
theorem index_lt_PTE_PER_PAGE (a level : Nat) (t : List PTE)
    (h : tableWF level t = true) :
    addr.index a level < PTE_PER_PAGE ∧ addr.index a level < t.length := by
  refine ⟨index_lt_pte a level, ?_⟩
  rw [tableWF, Bool.and_eq_true, decide_eq_true_eq] at h
  rw [h.1]
  exact index_lt_pte a level

/-- Witness for the amended C10 theorem on a concrete well-formed table. -/
theorem index_lt_PTE_PER_PAGE_witness :
    tableWF 0 (List.replicate PTE_PER_PAGE PTE.absent) = true ∧
    (addr.index 4660 0 < PTE_PER_PAGE ∧
      addr.index 4660 0 < (List.replicate PTE_PER_PAGE PTE.absent).length) :=
  ⟨by decide, index_lt_PTE_PER_PAGE 4660 0 _ (by decide)⟩

/-!
## Claim C2: break-before-make in replace
-/

/-- C2: replace performs break-before-make exactly when both the old and the
new descriptor are valid: in that case it first stores an absent descriptor,
then invalidates the TLB for exactly the entry's range at this level, then
stores the new descriptor; in every other case the only store is the new
descriptor, with no intermediate absent store and no TLB flush.  The slot
afterwards holds the new descriptor. -/
theorem replace_break_before_make (old new_pte : PTE) (b level : Nat) (s : MMState) :
    (pteReplace old new_pte b level s).1 = new_pte ∧
    (pteReplace old new_pte b level s).2.trace =
      s.trace ++
        (if old.is_valid && new_pte.is_valid then
          [Event.store PTE.absent, Event.tlb b (b + addr.entry_size level),
            Event.store new_pte]
        else [Event.store new_pte]) := by
  unfold pteReplace
  refine ⟨rfl, ?_⟩
  cases h : old.is_valid && new_pte.is_valid <;>
    simp [h, pteFree_trace, MMState.emit_trace]

/-!
## Claim C4: populate_table splits a block into an equivalent finer table
-/

/-- The view of a block descriptor does not depend on the level fuel shape. -/
theorem entryView_block (level oa : Nat) (a : Attrs) (V : Nat) :
    entryView level (.block oa a) V = some (oa + V % addr.entry_size level, a) := by
  cases level <;> rfl

/-- C4: on a slot holding a block descriptor at a level above 0, populate_table
allocates exactly one page and builds a table of PTE_PER_PAGE children, child i
being a block at the level below with output address old + i * entry_size(level-1)
and the same attrs; the new table translates every address exactly as the old
block did. -/
theorem populate_table_splits_block (oa : Nat) (a : Attrs) (b level : Nat) (s : MMState)
    (hl : 0 < level) (halloc : s.pool ≠ 0) :
    (populateTable (.block oa a) b level s).1 = true ∧
    (populateTable (.block oa a) b level s).2.1 =
      .table ((List.range PTE_PER_PAGE).map
        (fun i => PTE.block (oa + i * addr.entry_size (level - 1)) a)) ∧
    (populateTable (.block oa a) b level s).2.2.pool = s.pool - 1 ∧
    (∀ V, entryView level (populateTable (.block oa a) b level s).2.1 V =
      entryView level (.block oa a) V) := by
  obtain ⟨n, hn⟩ : ∃ n, s.pool = n + 1 := ⟨s.pool - 1, by omega⟩
  obtain ⟨l, rfl⟩ : ∃ l, level = l + 1 := ⟨level - 1, by omega⟩
  simp only [Nat.add_sub_cancel]
  have h1 : (populateTable (.block oa a) b (l + 1) s).1 = true := by
    unfold populateTable
    simp [PTE.is_table, MMState.alloc, hn]
  have h2 : (populateTable (.block oa a) b (l + 1) s).2.1 =
      .table ((List.range PTE_PER_PAGE).map
        (fun i => PTE.block (oa + i * addr.entry_size l) a)) := by
    unfold populateTable pteReplace
    simp only [PTE.is_table, MMState.alloc, hn]
    cases ha : a.valid <;>
      simp [PTE.is_block, PTE.attrs, PTE.block_addr, PTE.is_valid, ha]
  have h3 : (populateTable (.block oa a) b (l + 1) s).2.2.pool = s.pool - 1 := by
    unfold populateTable pteReplace
    simp only [PTE.is_table, MMState.alloc, hn]
    cases ha : a.valid <;>
      simp [PTE.is_block, PTE.attrs, PTE.block_addr, PTE.is_valid, ha, pteFree,
        MMState.emit_pool, hn]
  refine ⟨h1, h2, h3, ?_⟩
  intro V
  rw [h2]
  show entryView (l + 1) (.table _) V = entryView (l + 1) (.block oa a) V
  have hidx : addr.index V l < PTE_PER_PAGE := index_lt_pte V l
  simp only [entryView]
  rw [List.getD_eq_getElem?_getD, List.getElem?_map, List.getElem?_range hidx]
  show entryView l (.block (oa + addr.index V l * addr.entry_size l) a) V = _
  rw [entryView_block]
  have := index_mul_add_mod V l
  congr 2
  omega

/-- Witness for C4 at a concrete block, level 1 and a non-empty pool. -/
theorem populate_table_splits_block_witness :
    (populateTable (PTE.block 0 (modeToAttrs Mode.R)) 0 1 { pool := 8, trace := [] }).2.1 =
      .table ((List.range PTE_PER_PAGE).map
        (fun i => PTE.block (0 + i * addr.entry_size 0) (modeToAttrs Mode.R))) ∧
    entryView 1 (populateTable (PTE.block 0 (modeToAttrs Mode.R)) 0 1
        { pool := 8, trace := [] }).2.1 4660 =
      entryView 1 (PTE.block 0 (modeToAttrs Mode.R)) 4660 :=
  ⟨(populate_table_splits_block 0 (modeToAttrs Mode.R) 0 1 { pool := 8, trace := [] }
      (by decide) (by decide)).2.1,
   (populate_table_splits_block 0 (modeToAttrs Mode.R) 0 1 { pool := 8, trace := [] }
      (by decide) (by decide)).2.2.2 4660⟩

/-!
## Claim C5: defrag result cases
-/

/-- A concrete state for counterexamples and witnesses. -/
def mmS0 : MMState := { pool := 8, trace := [] }

/-- C5 counterexample: defrag of an absent descriptor returns None, not Some of
the absent attrs sentinel as the claim states. -/
theorem defrag_absent_returns_none :
    (pteDefrag 1 PTE.absent mmS0).1 = none ∧ (pteDefrag 1 PTE.absent mmS0).1 ≠ some absentAttrs := by
  exact ⟨rfl, by simp [pteDefrag, PTE.is_block]⟩

/-- C5 (amended): defrag returns Some of the descriptor's attrs when it is a
block; it returns None and leaves the descriptor unchanged when the descriptor
is absent; and for a table descriptor whose children all defrag to the same
non-present attrs it frees the child table, writes an absent descriptor into
the slot, and returns the slot's new (absent) attrs. -/
theorem defrag_result_cases :
    (∀ level (p : PTE) s, p.is_block = true → pteDefrag level p s = (some p.attrs, p, s)) ∧
    (∀ level s, pteDefrag level PTE.absent s = (none, PTE.absent, s)) ∧
    (∀ level c s ca, reduceEq (defragChildren (pteDefrag level) c s).1 = some ca →
      ca.present = false →
      pteDefrag (level + 1) (PTE.table c) s =
        (some absentAttrs, PTE.absent, (defragChildren (pteDefrag level) c s).2.2.freePage)) := by
  refine ⟨?_, ?_, ?_⟩
  · intro level p s hb
    cases level <;> simp [pteDefrag, hb]
  · intro level s
    cases level <;> simp [pteDefrag, PTE.is_block]
  · intro level c s ca hred hpres
    rw [pteDefrag]
    simp only [PTE.is_block, Bool.false_eq_true, if_false]
    obtain ⟨rs, c1, s1, hd⟩ : ∃ rs c1 s1, defragChildren (pteDefrag level) c s = (rs, c1, s1) :=
      ⟨_, _, _, rfl⟩
    rw [hd] at hred ⊢
    simp only at hred ⊢
    rw [hred]
    simp [hpres]

/-- Witness for C5: a table of 512 equal non-present blocks (attrs of the
unowned-invalid-shared mode) is freed and becomes absent. -/
theorem defrag_result_cases_witness :
    reduceEq (defragChildren (pteDefrag 0)
        (List.replicate PTE_PER_PAGE (PTE.block 0 absentAttrs)) mmS0).1 = some absentAttrs ∧
    absentAttrs.present = false ∧
    pteDefrag 1 (PTE.table (List.replicate PTE_PER_PAGE (PTE.block 0 absentAttrs))) mmS0 =
      (some absentAttrs, PTE.absent,
        (defragChildren (pteDefrag 0)
          (List.replicate PTE_PER_PAGE (PTE.block 0 absentAttrs)) mmS0).2.2.freePage) :=
  ⟨by decide, by decide,
    defrag_result_cases.2.2 0 (List.replicate PTE_PER_PAGE (PTE.block 0 absentAttrs)) mmS0
      absentAttrs (by decide) (by decide)⟩

/-!
## Claim C8: get_attrs total specification
-/

/-- C8 counterexample: on the empty page-rounded range [0, 0), every condition
of the claim holds — the range is ordered, within the root address space, and
every covering leaf (there is none) vacuously yields the same attrs — yet
get_attrs returns None, because the walk reduces an empty iterator. -/
theorem getAttrs_empty_range_none :
    getAttrs stage2MaxLevel stage2RootCount freshTable 0 0 = none ∧
    addr.round_down_to_page 0 ≤ addr.round_up_to_page 0 ∧
    addr.round_up_to_page 0 ≤ stage2RootCount * addr.entry_size (stage2MaxLevel + 1) ∧
    (∀ V, addr.round_down_to_page 0 ≤ V → V < addr.round_up_to_page 0 →
      ptableAttrsAt freshTable V = absentAttrs) := by
  refine ⟨by decide, by decide, by decide, ?_⟩
  intro V _ h2
  rw [show addr.round_up_to_page 0 = 0 from by decide] at h2
  exact absurd h2 (Nat.not_lt_zero V)

/-- C8 (amended): for every well-formed stage-2 table, get_attrs(begin, end)
returns Some(attrs) if and only if the page-rounded range is ordered, does not
exceed the root tables' address space, is non-empty, and every leaf descriptor
covering the range yields the identical attrs; in all other cases (reversed,
out-of-range, empty, or heterogeneous ranges) it returns None. -/
theorem getAttrs_total_spec (pt : PTable) (b e : Nat) (A : Attrs)
    (hpt : pt.length = stage2RootCount)
    (hWF : ∀ t ∈ pt, tableWF stage2MaxLevel t = true)
    (he : e + PAGE_SIZE ≤ USIZE) :
    getAttrs stage2MaxLevel stage2RootCount pt b e = some A ↔
      (addr.round_down_to_page b ≤ addr.round_up_to_page e ∧
       addr.round_up_to_page e ≤ stage2RootCount * addr.entry_size (stage2MaxLevel + 1) ∧
       addr.round_down_to_page b < addr.round_up_to_page e ∧
       ∀ V, addr.round_down_to_page b ≤ V → V < addr.round_up_to_page e →
         ptableAttrsAt pt V = A) :=
  getAttrs_char pt b e A hpt hWF he

/-- Witness for C8 on a fresh table over one page: all leaves absent, so the
query returns the absent attrs sentinel. -/
theorem getAttrs_total_spec_witness :
    getAttrs stage2MaxLevel stage2RootCount freshTable 0 4096 = some absentAttrs :=
  (getAttrs_total_spec freshTable 0 4096 absentAttrs rfl (by decide) (by decide)).mpr
    ⟨by decide, by decide, by decide, by
      intro V _ h2
      rw [show addr.round_up_to_page 4096 = 4096 from by decide] at h2
      show ptableAttrsAt freshTable V = absentAttrs
      unfold ptableAttrsAt freshTable
      have hidxV : addr.index V (stage2MaxLevel + 1) = 0 := by
        rw [index_def2]
        have h4 : addr.entry_size (stage2MaxLevel + 1) = 2 ^ 48 := by decide
        rw [h4, Nat.div_eq_of_lt (by omega)]
        rfl
      rw [hidxV]
      show leafAttrsAt stage2MaxLevel (List.replicate PTE_PER_PAGE PTE.absent) V = absentAttrs
      unfold leafAttrsAt
      rw [List.getD_eq_getElem?_getD, List.getElem?_replicate,
        if_pos (index_lt_pte V stage2MaxLevel)]
      rfl⟩

/-!
## Defrag preserves the pointwise leaf attrs (when all blocks are present)
-/

theorem entryWF_absent (level : Nat) : entryWF level PTE.absent = true := by
  cases level <;> rfl

theorem entryWF_block (level oa : Nat) (a : Attrs) : entryWF level (.block oa a) = true := by
  cases level <;> rfl

theorem entryBlocksPresent_absent (level : Nat) :
    entryBlocksPresent level PTE.absent = true := by
  cases level <;> rfl

theorem entryBlocksPresent_block (level oa : Nat) (a : Attrs) :
    entryBlocksPresent level (.block oa a) = a.present := by
  cases level <;> rfl

theorem entryAttrsAt_block_const (level oa : Nat) (a : Attrs) (V : Nat) :
    entryAttrsAt level (.block oa a) V = a := by
  cases level <;> rfl

theorem pteDefrag_block (level oa : Nat) (a : Attrs) (s : MMState) :
    pteDefrag level (.block oa a) s = (some a, .block oa a, s) := by
  cases level <;> simp [pteDefrag, PTE.is_block, PTE.attrs]

theorem pteDefrag_absent (level : Nat) (s : MMState) :
    pteDefrag level PTE.absent s = (none, PTE.absent, s) := by
  cases level <;> simp [pteDefrag, PTE.is_block]

/-- The characterization of the defrag children reduce. -/
theorem reduceEq_eq_some_iff (xs : List (Option Attrs)) (A : Attrs) :
    reduceEq xs = some A ↔ xs ≠ [] ∧ ∀ x ∈ xs, x = some A := by
  have aux : ∀ (vs : List (Option Attrs)) (acc : Option Attrs),
      vs.foldl (fun l v => if l = v then l else none) acc = some A ↔
        acc = some A ∧ ∀ x ∈ vs, x = some A := by
    intro vs
    induction vs with
    | nil => intro acc; simp
    | cons w vs ih =>
      intro acc
      rw [List.foldl_cons, ih]
      by_cases h : acc = w
      · subst h
        rw [if_pos rfl]
        constructor
        · rintro ⟨h1, h2⟩
          refine ⟨h1, ?_⟩
          intro x hx
          rcases List.mem_cons.mp hx with hx | hx
          · rw [hx]; exact h1
          · exact h2 x hx
        · rintro ⟨h1, h2⟩
          exact ⟨h1, fun x hx => h2 x (List.mem_cons_of_mem _ hx)⟩
      · rw [if_neg h]
        constructor
        · rintro ⟨h1, _⟩
          exact absurd h1 (by simp)
        · rintro ⟨h1, h2⟩
          exact absurd (h1.trans (h2 w (List.mem_cons_self w vs)).symm) h
  cases xs with
  | nil => simp [reduceEq]
  | cons v vs =>
    rw [reduceEq, aux]
    simp

/-- The specification one defrag step satisfies: the pointwise leaf attrs are
unchanged, well-formedness and block presence are kept, and a some result is a
present attrs that the slot now reads uniformly. -/
def defragSpecHolds (level : Nat) (p : PTE) (r : Option Attrs) (p1 : PTE) : Prop :=
  (∀ V, entryAttrsAt level p1 V = entryAttrsAt level p V) ∧
  entryWF level p1 = true ∧ entryBlocksPresent level p1 = true ∧
  (∀ a, r = some a → a.present = true ∧ (∀ V, entryAttrsAt level p1 V = a))

theorem defragSpecHolds_absent (level : Nat) :
    defragSpecHolds level PTE.absent none PTE.absent :=
  ⟨fun _ => rfl, entryWF_absent level, entryBlocksPresent_absent level,
    fun _ h => Option.noConfusion h⟩

/-- Lifting of a per-entry defrag spec over the children loop. -/
theorem defragChildren_spec (level : Nat) (f : PTE → MMState → Option Attrs × PTE × MMState)
    (hf : ∀ p s, entryWF level p = true → entryBlocksPresent level p = true →
      defragSpecHolds level p ((f p s).1) ((f p s).2.1)) :
    ∀ (c : List PTE) (s : MMState),
      (∀ p ∈ c, entryWF level p = true) → (∀ p ∈ c, entryBlocksPresent level p = true) →
      (defragChildren f c s).1.length = c.length ∧
      (defragChildren f c s).2.1.length = c.length ∧
      (∀ i, defragSpecHolds level (c.getD i PTE.absent)
        ((defragChildren f c s).1.getD i none)
        ((defragChildren f c s).2.1.getD i PTE.absent)) := by
  intro c
  induction c with
  | nil =>
    intro s _ _
    refine ⟨rfl, rfl, ?_⟩
    intro i
    show defragSpecHolds level PTE.absent none PTE.absent
    exact defragSpecHolds_absent level
  | cons p ps ih =>
    intro s hWF hpres
    have hhead := hf p s (hWF p (List.mem_cons_self p ps)) (hpres p (List.mem_cons_self p ps))
    obtain ⟨hl1, hl2, hspec⟩ := ih (f p s).2.2 (fun q hq => hWF q (List.mem_cons_of_mem p hq))
      (fun q hq => hpres q (List.mem_cons_of_mem p hq))
    have hstep : defragChildren f (p :: ps) s =
        ((f p s).1 :: (defragChildren f ps (f p s).2.2).1,
          (f p s).2.1 :: (defragChildren f ps (f p s).2.2).2.1,
          (defragChildren f ps (f p s).2.2).2.2) := by
      rw [defragChildren]
    rw [hstep]
    refine ⟨by simp [hl1], by simp [hl2], ?_⟩
    intro i
    cases i with
    | zero => exact hhead
    | succ i => exact hspec i

/-- Equation lemma for defrag of a table descriptor. -/
theorem pteDefrag_table (level : Nat) (c : List PTE) (s : MMState) :
    pteDefrag (level + 1) (PTE.table c) s =
      (match reduceEq (defragChildren (pteDefrag level) c s).1 with
      | none => ((none : Option Attrs),
          PTE.table (defragChildren (pteDefrag level) c s).2.1,
          (defragChildren (pteDefrag level) c s).2.2)
      | some ca =>
        if !ca.present then
          (some absentAttrs, PTE.absent, (defragChildren (pteDefrag level) c s).2.2.freePage)
        else if !blockAllowed (level + 1) then
          (none, PTE.table (defragChildren (pteDefrag level) c s).2.1,
            (defragChildren (pteDefrag level) c s).2.2)
        else
          (some (combineTableEntryAttrs (PTE.table c).attrs ca),
            PTE.block (((defragChildren (pteDefrag level) c s).2.1.headD PTE.absent)).block_addr
              (combineTableEntryAttrs (PTE.table c).attrs ca),
            (defragChildren (pteDefrag level) c s).2.2.freePage)) := by
  rw [pteDefrag]
  rfl

theorem pteDefrag_table_none (level : Nat) (c : List PTE) (s : MMState)
    (h : reduceEq (defragChildren (pteDefrag level) c s).1 = none) :
    pteDefrag (level + 1) (PTE.table c) s =
      (none, PTE.table (defragChildren (pteDefrag level) c s).2.1,
        (defragChildren (pteDefrag level) c s).2.2) := by
  rw [pteDefrag_table, h]

theorem pteDefrag_table_merge (level : Nat) (c : List PTE) (s : MMState) (ca : Attrs)
    (h : reduceEq (defragChildren (pteDefrag level) c s).1 = some ca)
    (hpres : ca.present = true) (hba : blockAllowed (level + 1) = true) :
    pteDefrag (level + 1) (PTE.table c) s =
      (some ca,
        PTE.block (((defragChildren (pteDefrag level) c s).2.1.headD PTE.absent)).block_addr ca,
        (defragChildren (pteDefrag level) c s).2.2.freePage) := by
  rw [pteDefrag_table, h]
  simp [hpres, hba, combineTableEntryAttrs]

theorem pteDefrag_table_bail (level : Nat) (c : List PTE) (s : MMState) (ca : Attrs)
    (h : reduceEq (defragChildren (pteDefrag level) c s).1 = some ca)
    (hpres : ca.present = true) (hba : blockAllowed (level + 1) = false) :
    pteDefrag (level + 1) (PTE.table c) s =
      (none, PTE.table (defragChildren (pteDefrag level) c s).2.1,
        (defragChildren (pteDefrag level) c s).2.2) := by
  rw [pteDefrag_table, h]
  simp [hpres, hba]

/-- Defrag of a well-formed, all-present entry keeps the pointwise leaf attrs,
well-formedness, and presence, and reports only uniform present attrs. -/
theorem pteDefrag_spec : ∀ (level : Nat) (p : PTE) (s : MMState),
    entryWF level p = true → entryBlocksPresent level p = true →
    defragSpecHolds level p ((pteDefrag level p s).1) ((pteDefrag level p s).2.1) := by
  intro level
  induction level with
  | zero =>
    intro p s hWF hpres
    cases p with
    | absent => rw [pteDefrag_absent]; exact defragSpecHolds_absent 0
    | block oa a =>
      rw [pteDefrag_block]
      rw [entryBlocksPresent_block] at hpres
      exact ⟨fun _ => rfl, hWF, by rw [entryBlocksPresent_block]; exact hpres,
        fun x hx => ⟨by rw [← Option.some_inj.mp hx]; exact hpres,
          fun V => by rw [entryAttrsAt_block_const, ← Option.some_inj.mp hx]⟩⟩
    | table c =>
      show defragSpecHolds 0 (PTE.table c) (none, PTE.table c, s).1 (none, PTE.table c, s).2.1
      exact ⟨fun _ => rfl, hWF, hpres, fun _ h => Option.noConfusion h⟩
  | succ level ih =>
    intro p s hWF hpres
    cases p with
    | absent => rw [pteDefrag_absent]; exact defragSpecHolds_absent (level + 1)
    | block oa a =>
      rw [pteDefrag_block]
      rw [entryBlocksPresent_block] at hpres
      exact ⟨fun _ => rfl, hWF, by rw [entryBlocksPresent_block]; exact hpres,
        fun x hx => ⟨by rw [← Option.some_inj.mp hx]; exact hpres,
          fun V => by rw [entryAttrsAt_block_const, ← Option.some_inj.mp hx]⟩⟩
    | table c =>
      have hWFc : c.length = PTE_PER_PAGE ∧ ∀ q ∈ c, entryWF level q = true := by
        rw [entryWF] at hWF
        simp only [Bool.and_eq_true, decide_eq_true_eq, List.all_eq_true] at hWF
        exact hWF
      have hpresc : ∀ q ∈ c, entryBlocksPresent level q = true := by
        rw [entryBlocksPresent] at hpres
        exact List.all_eq_true.mp hpres
      obtain ⟨hl1, hl2, hspec⟩ :=
        defragChildren_spec level (pteDefrag level) (fun q s2 h1 h2 => ih q s2 h1 h2)
          c s hWFc.2 hpresc
      have hptw : ∀ V, entryAttrsAt (level + 1)
          (PTE.table (defragChildren (pteDefrag level) c s).2.1) V =
          entryAttrsAt (level + 1) (PTE.table c) V := by
        intro V
        show entryAttrsAt level
            ((defragChildren (pteDefrag level) c s).2.1.getD (addr.index V level) PTE.absent) V =
          entryAttrsAt level (c.getD (addr.index V level) PTE.absent) V
        exact (hspec (addr.index V level)).1 V
      have hWF1 : entryWF (level + 1)
          (PTE.table (defragChildren (pteDefrag level) c s).2.1) = true := by
        rw [entryWF, Bool.and_eq_true]
        refine ⟨decide_eq_true (by rw [hl2]; exact hWFc.1), ?_⟩
        rw [List.all_eq_true]
        intro q hq
        obtain ⟨i, hi, rfl⟩ := List.getElem_of_mem hq
        have h2 := (hspec i).2.1
        rwa [List.getD_eq_getElem?_getD, List.getElem?_eq_getElem hi, Option.getD_some] at h2
      have hpres1 : entryBlocksPresent (level + 1)
          (PTE.table (defragChildren (pteDefrag level) c s).2.1) = true := by
        rw [entryBlocksPresent, List.all_eq_true]
        intro q hq
        obtain ⟨i, hi, rfl⟩ := List.getElem_of_mem hq
        have h2 := (hspec i).2.2.1
        rwa [List.getD_eq_getElem?_getD, List.getElem?_eq_getElem hi, Option.getD_some] at h2
      cases hred : reduceEq (defragChildren (pteDefrag level) c s).1 with
      | none =>
        rw [pteDefrag_table_none level c s hred]
        exact ⟨hptw, hWF1, hpres1, fun _ h => Option.noConfusion h⟩
      | some ca =>
        have hall := (reduceEq_eq_some_iff _ ca).mp hred
        have hlen0 : 0 < (defragChildren (pteDefrag level) c s).1.length := by
          rw [hl1, hWFc.1]
          decide
        have hca : ca.present = true := by
          have h0 : (defragChildren (pteDefrag level) c s).1.getD 0 none = some ca := by
            rw [List.getD_eq_getElem?_getD, List.getElem?_eq_getElem hlen0, Option.getD_some]
            exact hall.2 _ (List.getElem_mem hlen0)
          exact ((hspec 0).2.2.2 ca h0).1
        by_cases hba : blockAllowed (level + 1) = true
        · rw [pteDefrag_table_merge level c s ca hred hca hba]
          have hblkptw : ∀ V, entryAttrsAt (level + 1)
              (PTE.block (((defragChildren (pteDefrag level) c s).2.1.headD
                PTE.absent)).block_addr ca) V =
              entryAttrsAt (level + 1) (PTE.table c) V := by
            intro V
            rw [entryAttrsAt_block_const]
            have hiv : addr.index V level < (defragChildren (pteDefrag level) c s).1.length := by
              rw [hl1, hWFc.1]
              exact index_lt_pte V level
            have hsome : (defragChildren (pteDefrag level) c s).1.getD
                (addr.index V level) none = some ca := by
              rw [List.getD_eq_getElem?_getD, List.getElem?_eq_getElem hiv, Option.getD_some]
              exact hall.2 _ (List.getElem_mem hiv)
            have h3 := ((hspec (addr.index V level)).2.2.2 ca hsome).2 V
            rw [← hptw V]
            exact h3.symm
          exact ⟨hblkptw,
            entryWF_block _ _ _,
            by rw [entryBlocksPresent_block]; exact hca,
            fun x hx => ⟨by rw [← Option.some_inj.mp hx]; exact hca,
              fun V => by rw [entryAttrsAt_block_const, ← Option.some_inj.mp hx]⟩⟩
        · have hba2 : blockAllowed (level + 1) = false := by
            cases hh : blockAllowed (level + 1)
            · rfl
            · exact absurd hh hba
          rw [pteDefrag_table_bail level c s ca hred hca hba2]
          exact ⟨hptw, hWF1, hpres1, fun _ h => Option.noConfusion h⟩

/-- Two optional attrs that agree on every some value are equal. -/
theorem optionAttrs_ext (x y : Option Attrs)
    (h : ∀ A, x = some A ↔ y = some A) : x = y := by
  cases x with
  | none =>
    cases y with
    | none => rfl
    | some a => exact ((h a).mpr rfl).symm ▸ rfl
  | some a => rw [(h a).mp rfl]

/-!
## Claim C9: defrag neutrality
-/

theorem tableDefrag_singleton (t : List PTE) (s : MMState) :
    tableDefrag [t] s = ([(defragChildren (pteDefrag stage2MaxLevel) t s).2.1],
      (defragChildren (pteDefrag stage2MaxLevel) t s).2.2) := rfl

def c9state0 : MMState := { pool := 10, trace := [] }

def c9step1 : Bool × PTable × MMState :=
  identityMap 0 2097152 (Mode.R ||| Mode.INVALID ||| Mode.UNOWNED ||| Mode.SHARED)
    freshTable c9state0

def c9step2 : Bool × PTable × MMState :=
  identityMap 0 4096 Mode.R c9step1.2.1 c9step1.2.2

def c9step3 : Bool × PTable × MMState :=
  identityMap 0 4096 (Mode.R ||| Mode.INVALID ||| Mode.UNOWNED ||| Mode.SHARED)
    c9step2.2.1 c9step2.2.2

def c9pt : PTable := c9step3.2.1

def c9state : MMState := c9step3.2.2

/-- C9 counterexample: a page table reached by three identity_map calls holds a
level-0 table of 512 equal non-present block descriptors (the attrs of mode
R|INVALID|UNOWNED|SHARED).  Defrag frees that table and writes an absent entry,
so get_mode over the first page changes from R|INVALID|UNOWNED|SHARED to
INVALID|UNOWNED|SHARED: defrag is observable through get_mode. -/
theorem defrag_changes_get_mode :
    getMode c9pt 0 4096 =
      some (Mode.R ||| Mode.INVALID ||| Mode.UNOWNED ||| Mode.SHARED) ∧
    getMode (tableDefrag c9pt c9state).1 0 4096 =
      some (Mode.INVALID ||| Mode.UNOWNED ||| Mode.SHARED) ∧
    getMode (tableDefrag c9pt c9state).1 0 4096 ≠ getMode c9pt 0 4096 :=
  ⟨by decide, by decide, by decide⟩

/-- C9 (amended): for every well-formed stage-2 table all of whose block
descriptors are present (every state produced by mapping with valid or owned
modes), get_mode is invariant under defrag: a non-present uniform table is the
one shape defrag erases, and it cannot occur under this hypothesis. -/
theorem defrag_get_mode_invariant (pt : PTable) (s : MMState) (b e : Nat)
    (hpt : pt.length = stage2RootCount)
    (hWF : ∀ t ∈ pt, tableWF stage2MaxLevel t = true)
    (hpres : ptableBlocksPresent pt = true)
    (he : e + PAGE_SIZE ≤ USIZE) :
    getMode (tableDefrag pt s).1 b e = getMode pt b e := by
  obtain ⟨t, rfl⟩ : ∃ t, pt = [t] := by
    cases pt with
    | nil => cases hpt
    | cons t ts =>
      cases ts with
      | nil => exact ⟨t, rfl⟩
      | cons _ _ => cases hpt
  obtain ⟨hT, hallWF⟩ : t.length = PTE_PER_PAGE ∧ ∀ p ∈ t, entryWF stage2MaxLevel p = true := by
    have := hWF t (List.mem_cons_self t [])
    unfold tableWF at this
    simp only [Bool.and_eq_true, decide_eq_true_eq, List.all_eq_true] at this
    exact this
  have hallpres : ∀ p ∈ t, entryBlocksPresent stage2MaxLevel p = true := by
    unfold ptableBlocksPresent at hpres
    simp only [List.all_eq_true] at hpres
    exact hpres t (List.mem_cons_self t [])
  obtain ⟨hl1, hl2, hspec⟩ := defragChildren_spec stage2MaxLevel (pteDefrag stage2MaxLevel)
    (fun p s2 h1 h2 => pteDefrag_spec stage2MaxLevel p s2 h1 h2) t s hallWF hallpres
  rw [tableDefrag_singleton]
  have hptw : ∀ V, ptableAttrsAt [(defragChildren (pteDefrag stage2MaxLevel) t s).2.1] V =
      ptableAttrsAt [t] V := by
    intro V
    unfold ptableAttrsAt
    cases hiv : addr.index V (stage2MaxLevel + 1) with
    | zero =>
      show leafAttrsAt stage2MaxLevel (defragChildren (pteDefrag stage2MaxLevel) t s).2.1 V =
        leafAttrsAt stage2MaxLevel t V
      unfold leafAttrsAt
      exact (hspec (addr.index V stage2MaxLevel)).1 V
    | succ i =>
      show leafAttrsAt stage2MaxLevel ([].getD i []) V = leafAttrsAt stage2MaxLevel ([].getD i []) V
      rfl
  have hWF1 : tableWF stage2MaxLevel (defragChildren (pteDefrag stage2MaxLevel) t s).2.1 = true := by
    unfold tableWF
    rw [Bool.and_eq_true]
    refine ⟨decide_eq_true (by rw [hl2]; exact hT), ?_⟩
    rw [List.all_eq_true]
    intro q hq
    obtain ⟨i, hi, rfl⟩ := List.getElem_of_mem hq
    have h2 := (hspec i).2.1
    rwa [List.getD_eq_getElem?_getD, List.getElem?_eq_getElem hi, Option.getD_some] at h2
  have hga : getAttrs stage2MaxLevel stage2RootCount
      [(defragChildren (pteDefrag stage2MaxLevel) t s).2.1] b e =
      getAttrs stage2MaxLevel stage2RootCount [t] b e := by
    apply optionAttrs_ext
    intro A
    have hchar1 := getAttrs_char [(defragChildren (pteDefrag stage2MaxLevel) t s).2.1] b e A rfl
      (by
        intro q hq
        rcases List.mem_cons.mp hq with hq | hq
        · rw [hq]; exact hWF1
        · cases hq) he
    have hchar2 := getAttrs_char [t] b e A rfl hWF he
    rw [hchar1, hchar2]
    constructor
    · rintro ⟨h1, h2, h3, h4⟩
      exact ⟨h1, h2, h3, fun V hv1 hv2 => by rw [← hptw V]; exact h4 V hv1 hv2⟩
    · rintro ⟨h1, h2, h3, h4⟩
      exact ⟨h1, h2, h3, fun V hv1 hv2 => by rw [hptw V]; exact h4 V hv1 hv2⟩
  unfold getMode
  rw [hga]

/-- Witness for C9 on a mapped-then-defragmented table with present blocks. -/
theorem defrag_get_mode_invariant_witness :
    getMode (tableDefrag (identityMap 0 4096 Mode.R freshTable c9state0).2.1
        (identityMap 0 4096 Mode.R freshTable c9state0).2.2).1 0 4096 =
      getMode (identityMap 0 4096 Mode.R freshTable c9state0).2.1 0 4096 :=
  defrag_get_mode_invariant (identityMap 0 4096 Mode.R freshTable c9state0).2.1
    (identityMap 0 4096 Mode.R freshTable c9state0).2.2 0 4096
    (by decide) (by decide) (by decide) (by decide)

/-!
## Master decomposition of map_level

Every remaining claim is an induction over the map walk; these lemmas expose
one chunk of that walk as an entryStep on the indexed entry followed by the
same walk from the next block start.
-/

/-- The descend function used by map_level at each level: recursion into the
populated subtable, or failure at level 0, where the source's u8 level-1
underflows. -/
def levelDescend (commit unmap : Bool) (attrs : Attrs) (e : Nat) :
    Nat → Nat → PTE → MMState → Bool × PTE × MMState
  | 0 => fun _ p s => (false, p, s)
  | level + 1 => descendStep commit unmap (level + 1)
      (fun b2 c s2 => mapLevel commit unmap attrs level b2 e c s2)

theorem mapLevel_eq (c u : Bool) (a : Attrs) (l b e : Nat) (t : List PTE) (s : MMState) :
    mapLevel c u a l b e t s =
      ((mapEntries c u a e l (levelDescend c u a e l) (t.drop (addr.index b l))
          (blockIterList b (min e (addr.level_end b l)) (addr.entry_size l)) s).1,
        t.take (addr.index b l) ++
          (mapEntries c u a e l (levelDescend c u a e l) (t.drop (addr.index b l))
            (blockIterList b (min e (addr.level_end b l)) (addr.entry_size l)) s).2.1,
        (mapEntries c u a e l (levelDescend c u a e l) (t.drop (addr.index b l))
          (blockIterList b (min e (addr.level_end b l)) (addr.entry_size l)) s).2.2) := by
  cases l <;> rfl

/-- A walk whose range is empty touches nothing and succeeds. -/
theorem mapLevel_of_ge (c u : Bool) (a : Attrs) (l b e : Nat) (t : List PTE) (s : MMState)
    (h : e ≤ b) : mapLevel c u a l b e t s = (true, t, s) := by
  rw [mapLevel_eq, blockIterList_nil _ _ _ (le_trans (min_le_left _ _) h)]
  rw [show ∀ ptes s2, mapEntries c u a e l (levelDescend c u a e l) ptes [] s2 =
    (true, ptes, s2) from fun ptes s2 => by rw [mapEntries]]
  simp [List.take_append_drop]

/-- One chunk of the map walk: process the indexed entry, then continue from
the next block start on the updated table. -/
theorem mapLevel_step (c u : Bool) (a : Attrs) (l b e : Nat) (t : List PTE) (s : MMState)
    (hl : PAGE_BITS + (l + 1) * PAGE_LEVEL_BITS ≤ 62)
    (hT : t.length = PTE_PER_PAGE)
    (he : e ≤ 2 ^ 62)
    (hb : b < e) :
    mapLevel c u a l b e t s =
      (let r := entryStep c u a e l (levelDescend c u a e l)
          (t.getD (addr.index b l) PTE.absent) b s
       let t1 := t.set (addr.index b l) r.2.1
       if r.1 then
         if (b / addr.entry_size l + 1) * addr.entry_size l < min e (addr.level_end b l) then
           mapLevel c u a l ((b / addr.entry_size l + 1) * addr.entry_size l) e t1 r.2.2
         else (true, t1, r.2.2)
       else (false, t1, r.2.2)) := by
  have hE := entry_size_pos l
  have hmono : l * PAGE_LEVEL_BITS ≤ (l + 1) * PAGE_LEVEL_BITS :=
    Nat.mul_le_mul_right _ (Nat.le_succ l)
  have hlvl64 : PAGE_BITS + (l + 1) * PAGE_LEVEL_BITS ≤ 64 := by omega
  have hlvl64' : PAGE_BITS + l * PAGE_LEVEL_BITS ≤ 64 := by omega
  have hEsmall : addr.entry_size l ≤ 2 ^ 62 := by
    rw [entry_size_eq]
    refine Nat.pow_le_pow_right (by decide) ?_
    omega
  have hPsmall : addr.entry_size (l + 1) ≤ 2 ^ 62 := by
    rw [entry_size_eq]
    exact Nat.pow_le_pow_right (by decide) hl
  have hbw : b + addr.entry_size (l + 1) < USIZE := by
    show b + addr.entry_size (l + 1) < 2 ^ 64
    have h2 : (2 : Nat) ^ 62 + 2 ^ 62 < 2 ^ 64 := by decide
    omega
  have hlt_le : b < addr.level_end b l := lt_level_end b l hlvl64 hbw
  have hbcap : b < min e (addr.level_end b l) := lt_min hb hlt_le
  have hcaple : min e (addr.level_end b l) ≤ e := min_le_left _ _
  have hcapw : min e (addr.level_end b l) + addr.entry_size l < USIZE := by
    show min e (addr.level_end b l) + addr.entry_size l < 2 ^ 64
    have h2 : (2 : Nat) ^ 62 + 2 ^ 62 < 2 ^ 64 := by decide
    omega
  have hidx : addr.index b l < PTE_PER_PAGE := index_lt_pte b l
  have hidxlen : addr.index b l < t.length := by omega
  have hgetD : t.getD (addr.index b l) PTE.absent = t[addr.index b l] := by
    rw [List.getD_eq_getElem?_getD, List.getElem?_eq_getElem hidxlen]
    rfl
  have hbb' : b < (b / addr.entry_size l + 1) * addr.entry_size l := lt_next_block b l
  have hb'le : (b / addr.entry_size l + 1) * addr.entry_size l ≤ addr.level_end b l :=
    next_block_le_level_end b l hlvl64 hbw
  rw [mapLevel_eq, blockIterList_cons b _ l hlvl64' hcapw hbcap,
    List.drop_eq_getElem_cons hidxlen]
  rw [show ∀ pte ptes b2 bs s2,
      mapEntries c u a e l (levelDescend c u a e l) (pte :: ptes) (b2 :: bs) s2 =
        (let r := entryStep c u a e l (levelDescend c u a e l) pte b2 s2
         if r.1 then
           let r2 := mapEntries c u a e l (levelDescend c u a e l) ptes bs r.2.2
           (r2.1, r.2.1 :: r2.2.1, r2.2.2)
         else (false, r.2.1 :: ptes, r.2.2))
      from fun pte ptes b2 bs s2 => by rw [mapEntries]]
  rw [hgetD]
  set r := entryStep c u a e l (levelDescend c u a e l) t[addr.index b l] b s with hr
  have hset : t.set (addr.index b l) r.2.1 =
      t.take (addr.index b l) ++ r.2.1 :: t.drop (addr.index b l + 1) := by
    rw [List.set_eq_take_append_cons_drop, if_pos hidxlen]
  cases hok : r.1 with
  | false =>
    simp only [hok, Bool.false_eq_true, if_false]
    rw [hset]
  | true =>
    simp only [hok, if_true]
    by_cases hsplit : (b / addr.entry_size l + 1) * addr.entry_size l <
        min e (addr.level_end b l)
    · rw [if_pos hsplit]
      have hb'w : (b / addr.entry_size l + 1) * addr.entry_size l +
          addr.entry_size (l + 1) < USIZE := by
        show _ + addr.entry_size (l + 1) < 2 ^ 64
        have h2 : (2 : Nat) ^ 62 + 2 ^ 62 + 2 ^ 62 < 2 ^ 64 := by decide
        omega
      obtain ⟨hidx', hle'⟩ := index_next_block b l hlvl64 hbw hb'w (by omega)
      rw [mapLevel_eq, hidx', hle']
      have hdrop : (t.set (addr.index b l) r.2.1).drop (addr.index b l + 1) =
          t.drop (addr.index b l + 1) :=
        List.drop_set_of_lt _ _ (Nat.lt_succ_self _)
      have htake : (t.set (addr.index b l) r.2.1).take (addr.index b l + 1) =
          t.take (addr.index b l) ++ [r.2.1] := by
        rw [hset, List.take_append_eq_append_take,
          List.take_all_of_le (by rw [List.length_take]; omega),
          List.length_take, Nat.min_eq_left (by omega),
          show addr.index b l + 1 - addr.index b l = 1 from by omega]
        rfl
      rw [hdrop, htake, List.append_assoc]
      rfl
    · rw [if_neg hsplit]
      have hcap' : min e (addr.level_end b l) ≤
          (b / addr.entry_size l + 1) * addr.entry_size l := by omega
      rw [blockIterList_nil _ _ _ hcap']
      rw [show ∀ ptes s2, mapEntries c u a e l (levelDescend c u a e l) ptes [] s2 =
        (true, ptes, s2) from fun ptes s2 => by rw [mapEntries]]
      rw [hset]


/-!
## Preservation and unmap postcondition of the map walk
-/

/-- The slot value after a replace is the new descriptor. -/
theorem pteReplace_fst (old np : PTE) (b l : Nat) (s : MMState) :
    (pteReplace old np b l s).1 = np := rfl

/-- All attrs of an absent entry's view are the absent sentinel. -/
theorem entryAttrsAt_absent (l V : Nat) : entryAttrsAt l PTE.absent V = absentAttrs := by
  cases l <;> rfl

/-- entryWF at a successor level of a table unpacks to the length and the
children's well-formedness. -/
theorem entryWF_table_iff (lv : Nat) (c : List PTE) :
    entryWF (lv + 1) (PTE.table c) = true ↔
      c.length = PTE_PER_PAGE ∧ ∀ q ∈ c, entryWF lv q = true := by
  simp [entryWF, List.all_eq_true]

theorem entryBlocksPresent_table_iff (lv : Nat) (c : List PTE) :
    entryBlocksPresent (lv + 1) (PTE.table c) = true ↔
      ∀ q ∈ c, entryBlocksPresent lv q = true := by
  simp [entryBlocksPresent, List.all_eq_true]

/-- The full case analysis of one entryStep: the entry is left unchanged (skip,
or an uncommitted whole-entry hit), or a committed whole-entry write replaces it
with the target descriptor, or the walk descends. -/
theorem entryStep_cases (c u : Bool) (a : Attrs) (e l : Nat)
    (d : Nat → PTE → MMState → Bool × PTE × MMState) (p : PTE) (b : Nat) (s : MMState) :
    (entryStep c u a e l d p b s = (true, p, s) ∧
      ((u && !p.is_present) = true ∨ (!u && p.is_block && decide (p.attrs = a)) = true ∨
        (c = false ∧ addr.entry_size l ≤ e - b ∧ (u || blockAllowed l) = true ∧
          b &&& (addr.entry_size l - 1) = 0))) ∨
    (c = true ∧ (u && !p.is_present) = false ∧
      (!u && p.is_block && decide (p.attrs = a)) = false ∧
      addr.entry_size l ≤ e - b ∧ (u || blockAllowed l) = true ∧
      b &&& (addr.entry_size l - 1) = 0 ∧
      entryStep c u a e l d p b s =
        (true, if u = true then PTE.absent else PTE.block b a,
          (pteReplace p (if u = true then PTE.absent else PTE.block b a) b l s).2)) ∨
    ((u && !p.is_present) = false ∧ (!u && p.is_block && decide (p.attrs = a)) = false ∧
      ¬(addr.entry_size l ≤ e - b ∧ (u || blockAllowed l) = true ∧
        b &&& (addr.entry_size l - 1) = 0) ∧
      entryStep c u a e l d p b s = d b p s) := by
  by_cases h1 : (u && !p.is_present) = true
  · exact Or.inl ⟨by simp [entryStep, h1], Or.inl h1⟩
  · rw [Bool.not_eq_true] at h1
    by_cases h2 : (!u && p.is_block && decide (p.attrs = a)) = true
    · exact Or.inl ⟨by simp only [entryStep, h1, h2]; rfl, Or.inr (Or.inl h2)⟩
    · rw [Bool.not_eq_true] at h2
      by_cases h3 : addr.entry_size l ≤ e - b ∧ (u || blockAllowed l) = true ∧
          b &&& (addr.entry_size l - 1) = 0
      · obtain ⟨h3a, h3b, h3c⟩ := h3
        cases hc : c with
        | false =>
          refine Or.inl ⟨?_, Or.inr (Or.inr ⟨rfl, h3a, h3b, h3c⟩)⟩
          simp only [entryStep, h1, h2, Bool.false_eq_true, if_false]
          rw [if_pos (by simp [h3a, h3b, h3c] : (decide (e - b ≥ addr.entry_size l) &&
            (u || blockAllowed l) && decide (b &&& (addr.entry_size l - 1) = 0)) = true)]
        | true =>
          refine Or.inr (Or.inl ⟨rfl, h1, h2, h3a, h3b, h3c, ?_⟩)
          simp only [entryStep, h1, h2, Bool.false_eq_true, if_false]
          rw [if_pos (by simp [h3a, h3b, h3c] : (decide (e - b ≥ addr.entry_size l) &&
            (u || blockAllowed l) && decide (b &&& (addr.entry_size l - 1) = 0)) = true)]
          rw [if_pos trivial, pteReplace_fst]
      · refine Or.inr (Or.inr ⟨h1, h2, h3, ?_⟩)
        simp only [entryStep, h1, h2, Bool.false_eq_true, if_false]
        rw [if_neg (by
          intro hcc
          simp only [Bool.and_eq_true, decide_eq_true_eq] at hcc
          exact h3 ⟨hcc.1.1, hcc.1.2, hcc.2⟩)]


/-- The child list a populate builds when the slot is not already a table: the
split of a block into blocks of the level below, or a page of absent entries. -/
def populateChildren (p : PTE) (level : Nat) : List PTE :=
  if p.is_block then
    (List.range PTE_PER_PAGE).map
      (fun i => PTE.block (p.block_addr + i * addr.entry_size (level - 1)) p.attrs)
  else
    List.replicate PTE_PER_PAGE PTE.absent

/-- populateTable written out by its three outcomes. -/
theorem populateTable_eq (p : PTE) (bg level : Nat) (s : MMState) :
    populateTable p bg level s =
      if p.is_table level = true then (true, p, s)
      else
        match s.alloc with
        | none => (false, p, s)
        | some s1 =>
          (true, PTE.table (populateChildren p level),
            (pteReplace p (.table (populateChildren p level)) bg level s1).2) := by
  by_cases ht : p.is_table level = true
  · simp [populateTable, ht]
  · simp only [populateTable, populateChildren, ht, Bool.false_eq_true, if_false]
    cases s.alloc with
    | none => rfl
    | some s1 => rfl

theorem populateChildren_length (p : PTE) (level : Nat) :
    (populateChildren p level).length = PTE_PER_PAGE := by
  unfold populateChildren
  by_cases h : p.is_block = true <;> simp [h]

theorem populateChildren_mem_block (p : PTE) (level : Nat) (q : PTE)
    (hp : p.is_block = true) (hq : q ∈ populateChildren p level) :
    ∃ oa, q = PTE.block oa p.attrs := by
  unfold populateChildren at hq
  rw [if_pos hp] at hq
  obtain ⟨i, _, rfl⟩ := List.mem_map.mp hq
  exact ⟨_, rfl⟩

theorem populateChildren_mem_not_block (p : PTE) (level : Nat) (q : PTE)
    (hp : p.is_block = false) (hq : q ∈ populateChildren p level) :
    q = PTE.absent := by
  unfold populateChildren at hq
  rw [hp] at hq
  simp only [Bool.false_eq_true, if_false] at hq
  exact List.eq_of_mem_replicate hq

/-- A failed populate changes nothing: the pool was empty. -/
theorem populateTable_fail (p : PTE) (bg level : Nat) (s : MMState)
    (h : (populateTable p bg level s).1 = false) :
    populateTable p bg level s = (false, p, s) := by
  rw [populateTable_eq] at h ⊢
  by_cases ht : p.is_table level = true
  · rw [if_pos ht] at h; cases h
  · rw [if_neg ht] at h ⊢
    cases halloc : s.alloc with
    | none => rfl
    | some s1 => rw [halloc] at h; cases h

/-- A successful populate leaves a table in the slot: the original table, or a
freshly built child list. -/
theorem populateTable_ok (p : PTE) (bg level : Nat) (s : MMState)
    (h : (populateTable p bg level s).1 = true) :
    ∃ ch, (populateTable p bg level s).2.1 = PTE.table ch ∧
      (p = PTE.table ch ∨
        (p.is_table level = false ∧ ch = populateChildren p level)) := by
  rw [populateTable_eq] at h ⊢
  by_cases ht : p.is_table level = true
  · rw [if_pos ht] at h ⊢
    cases p with
    | absent => cases ht
    | block oa a => cases ht
    | table c => exact ⟨c, rfl, Or.inl rfl⟩
  · rw [if_neg ht] at h ⊢
    cases halloc : s.alloc with
    | none => rw [halloc] at h; cases h
    | some s1 =>
      exact ⟨_, rfl, Or.inr ⟨by rw [Bool.not_eq_true] at ht; exact ht, rfl⟩⟩

/-- A successful populate at a positive level yields a well-formed child list
whose blocks are present, given a well-formed slot with present blocks. -/
theorem populateTable_ok_props (lv : Nat) (p : PTE) (bg : Nat) (s : MMState)
    (hWF : entryWF (lv + 1) p = true)
    (hPres : entryBlocksPresent (lv + 1) p = true)
    (h : (populateTable p bg (lv + 1) s).1 = true) :
    ∃ ch, (populateTable p bg (lv + 1) s).2.1 = PTE.table ch ∧
      ch.length = PTE_PER_PAGE ∧
      (∀ q ∈ ch, entryWF lv q = true) ∧
      (∀ q ∈ ch, entryBlocksPresent lv q = true) := by
  obtain ⟨ch, hch, hcase⟩ := populateTable_ok p bg (lv + 1) s h
  refine ⟨ch, hch, ?_⟩
  rcases hcase with rfl | ⟨hnt, rfl⟩
  · obtain ⟨hlen, hwf⟩ := (entryWF_table_iff lv ch).mp hWF
    exact ⟨hlen, hwf, (entryBlocksPresent_table_iff lv ch).mp hPres⟩
  · refine ⟨populateChildren_length p (lv + 1), ?_, ?_⟩
    · intro q hq
      by_cases hb : p.is_block = true
      · obtain ⟨oa, rfl⟩ := populateChildren_mem_block p (lv + 1) q hb hq
        exact entryWF_block lv oa p.attrs
      · rw [populateChildren_mem_not_block p (lv + 1) q (by simp [hb]) hq]
        exact entryWF_absent lv
    · intro q hq
      by_cases hb : p.is_block = true
      · obtain ⟨oa, rfl⟩ := populateChildren_mem_block p (lv + 1) q hb hq
        rw [entryBlocksPresent_block]
        cases p with
        | absent => cases hb
        | table c => cases hb
        | block oa2 a2 =>
          show a2.present = true
          exact hPres
      · rw [populateChildren_mem_not_block p (lv + 1) q (by simp [hb]) hq]
        exact entryBlocksPresent_absent lv


/-- Setting one slot to a value with a property preserves any pointwise
property of the table. -/
theorem all_set_of {P : PTE → Prop} (t : List PTE) (i : Nat) (x : PTE)
    (hx : P x) (ht : ∀ p ∈ t, P p) : ∀ p ∈ t.set i x, P p := fun p hp =>
  (List.mem_or_eq_of_mem_set hp).elim (ht p) (fun h => h ▸ hx)

/-- The descend branch of map_level preserves shape well-formedness and block
presence of the slot, given that the recursion one level below does. -/
theorem descendStep_pres (c u : Bool) (a : Attrs) (lv : Nat) (e : Nat)
    (hrec : ∀ b ch s, ch.length = PTE_PER_PAGE →
      (∀ q ∈ ch, entryWF lv q = true) → (∀ q ∈ ch, entryBlocksPresent lv q = true) →
      (mapLevel c u a lv b e ch s).2.1.length = PTE_PER_PAGE ∧
      (∀ q ∈ (mapLevel c u a lv b e ch s).2.1, entryWF lv q = true) ∧
      (∀ q ∈ (mapLevel c u a lv b e ch s).2.1, entryBlocksPresent lv q = true))
    (b2 : Nat) (p : PTE) (s2 : MMState)
    (hWF : entryWF (lv + 1) p = true) (hPres : entryBlocksPresent (lv + 1) p = true) :
    entryWF (lv + 1) (levelDescend c u a e (lv + 1) b2 p s2).2.1 = true ∧
    entryBlocksPresent (lv + 1) (levelDescend c u a e (lv + 1) b2 p s2).2.1 = true := by
  show entryWF (lv + 1) (descendStep c u (lv + 1)
      (fun b2 ch s2 => mapLevel c u a lv b2 e ch s2) b2 p s2).2.1 = true ∧
    entryBlocksPresent (lv + 1) (descendStep c u (lv + 1)
      (fun b2 ch s2 => mapLevel c u a lv b2 e ch s2) b2 p s2).2.1 = true
  by_cases hok : (populateTable p b2 (lv + 1) s2).1 = true
  · obtain ⟨ch, hch, hlen, hwf, hpres⟩ :=
      populateTable_ok_props lv p b2 s2 hWF hPres hok
    simp only [descendStep, hok, hch, Bool.not_true, Bool.false_eq_true, if_false]
    obtain ⟨hRlen, hRwf, hRpres⟩ := hrec b2 ch (populateTable p b2 (lv + 1) s2).2.2 hlen hwf hpres
    set R := mapLevel c u a lv b2 e ch (populateTable p b2 (lv + 1) s2).2.2 with hR
    by_cases hR1 : R.1 = true
    · simp only [hR1, Bool.not_true, Bool.false_eq_true, if_false]
      by_cases hcoll : (c && u && tableEmpty R.2.1) = true
      · rw [if_pos hcoll]
        rw [pteReplace_fst]
        exact ⟨entryWF_absent (lv + 1), entryBlocksPresent_absent (lv + 1)⟩
      · rw [if_neg hcoll]
        exact ⟨(entryWF_table_iff lv R.2.1).mpr ⟨hRlen, hRwf⟩,
          (entryBlocksPresent_table_iff lv R.2.1).mpr hRpres⟩
    · rw [Bool.not_eq_true] at hR1
      simp only [hR1, Bool.not_false, if_true]
      exact ⟨(entryWF_table_iff lv R.2.1).mpr ⟨hRlen, hRwf⟩,
        (entryBlocksPresent_table_iff lv R.2.1).mpr hRpres⟩
  · rw [Bool.not_eq_true] at hok
    have hfail := populateTable_fail p b2 (lv + 1) s2 hok
    simp only [descendStep, hfail, Bool.not_false, if_true]
    exact ⟨hWF, hPres⟩

/-- One level of the map walk preserves shape well-formedness and block
presence, given a descend branch that does. -/
theorem mapLevel_pres_aux (c u : Bool) (a : Attrs) (l : Nat)
    (hp : u = true ∨ a.present = true)
    (hl : PAGE_BITS + (l + 1) * PAGE_LEVEL_BITS ≤ 62)
    (hdesc : ∀ e b2 p s2, e ≤ 2 ^ 62 →
      entryWF l p = true → entryBlocksPresent l p = true →
      entryWF l (levelDescend c u a e l b2 p s2).2.1 = true ∧
      entryBlocksPresent l (levelDescend c u a e l b2 p s2).2.1 = true) :
    ∀ n b e t s, min e (addr.level_end b l) - b ≤ n →
      t.length = PTE_PER_PAGE → e ≤ 2 ^ 62 →
      (∀ p ∈ t, entryWF l p = true) →
      (∀ p ∈ t, entryBlocksPresent l p = true) →
      (mapLevel c u a l b e t s).2.1.length = PTE_PER_PAGE ∧
      (∀ p ∈ (mapLevel c u a l b e t s).2.1, entryWF l p = true) ∧
      (∀ p ∈ (mapLevel c u a l b e t s).2.1, entryBlocksPresent l p = true) := by
  intro n
  induction n with
  | zero =>
    intro b e t s hn hT he hWF hPres
    by_cases hbe : e ≤ b
    · rw [mapLevel_of_ge c u a l b e t s hbe]
      exact ⟨hT, hWF, hPres⟩
    · exfalso
      have hb : b < e := Nat.lt_of_not_le hbe
      have hmono : l * PAGE_LEVEL_BITS ≤ (l + 1) * PAGE_LEVEL_BITS :=
        Nat.mul_le_mul_right _ (Nat.le_succ l)
      have hlvl64 : PAGE_BITS + (l + 1) * PAGE_LEVEL_BITS ≤ 64 := by omega
      have hPsmall : addr.entry_size (l + 1) ≤ 2 ^ 62 := by
        rw [entry_size_eq]
        exact Nat.pow_le_pow_right (by decide) hl
      have hbw : b + addr.entry_size (l + 1) < USIZE := by
        show b + addr.entry_size (l + 1) < 2 ^ 64
        have h2 : (2 : Nat) ^ 62 + 2 ^ 62 < 2 ^ 64 := by decide
        omega
      have hlt : b < addr.level_end b l := lt_level_end b l hlvl64 hbw
      have hcap : b < min e (addr.level_end b l) := lt_min hb hlt
      omega
  | succ n ihn =>
    intro b e t s hn hT he hWF hPres
    by_cases hbe : e ≤ b
    · rw [mapLevel_of_ge c u a l b e t s hbe]
      exact ⟨hT, hWF, hPres⟩
    have hb : b < e := Nat.lt_of_not_le hbe
    have hmono : l * PAGE_LEVEL_BITS ≤ (l + 1) * PAGE_LEVEL_BITS :=
      Nat.mul_le_mul_right _ (Nat.le_succ l)
    have hlvl64 : PAGE_BITS + (l + 1) * PAGE_LEVEL_BITS ≤ 64 := by omega
    have hPsmall : addr.entry_size (l + 1) ≤ 2 ^ 62 := by
      rw [entry_size_eq]
      exact Nat.pow_le_pow_right (by decide) hl
    have hbw : b + addr.entry_size (l + 1) < USIZE := by
      show b + addr.entry_size (l + 1) < 2 ^ 64
      have h2 : (2 : Nat) ^ 62 + 2 ^ 62 < 2 ^ 64 := by decide
      omega
    have hstep := mapLevel_step c u a l b e t s hl hT he hb
    simp only [] at hstep
    have hidxlt : addr.index b l < t.length := by rw [hT]; exact index_lt_pte b l
    have hmem : t.getD (addr.index b l) PTE.absent ∈ t := by
      rw [List.getD_eq_getElem?_getD, List.getElem?_eq_getElem hidxlt]
      exact List.getElem_mem hidxlt
    have hWFp := hWF _ hmem
    have hPresp := hPres _ hmem
    set r := entryStep c u a e l (levelDescend c u a e l)
      (t.getD (addr.index b l) PTE.absent) b s with hr
    have hrprops : entryWF l r.2.1 = true ∧ entryBlocksPresent l r.2.1 = true := by
      rcases entryStep_cases c u a e l (levelDescend c u a e l)
          (t.getD (addr.index b l) PTE.absent) b s with
        ⟨heq, _⟩ | ⟨_, _, _, _, _, _, heq⟩ | ⟨_, _, _, heq⟩
      · rw [hr, heq]
        exact ⟨hWFp, hPresp⟩
      · rw [hr, heq]
        cases hu : u with
        | true =>
          simp only [if_pos rfl]
          exact ⟨entryWF_absent l, entryBlocksPresent_absent l⟩
        | false =>
          simp only [Bool.false_eq_true, if_false]
          refine ⟨entryWF_block l b a, ?_⟩
          rw [entryBlocksPresent_block]
          rcases hp with hp | hp
          · rw [hu] at hp; cases hp
          · exact hp
      · rw [hr, heq]
        exact hdesc e b _ s he hWFp hPresp
    set t1 := t.set (addr.index b l) r.2.1 with ht1
    have ht1len : t1.length = PTE_PER_PAGE := by rw [ht1, List.length_set, hT]
    have ht1wf : ∀ p ∈ t1, entryWF l p = true :=
      all_set_of t _ _ hrprops.1 hWF
    have ht1pres : ∀ p ∈ t1, entryBlocksPresent l p = true :=
      all_set_of t _ _ hrprops.2 hPres
    rw [hstep]
    by_cases hr1 : r.1 = true
    · rw [if_pos hr1]
      by_cases hsplit : (b / addr.entry_size l + 1) * addr.entry_size l <
          min e (addr.level_end b l)
      · rw [if_pos hsplit]
        have hb'w : (b / addr.entry_size l + 1) * addr.entry_size l +
            addr.entry_size (l + 1) < USIZE := by
          show _ + addr.entry_size (l + 1) < 2 ^ 64
          have h2 : (2 : Nat) ^ 62 + 2 ^ 62 + 2 ^ 62 < 2 ^ 64 := by decide
          have hsp := hsplit
          have : min e (addr.level_end b l) ≤ e := min_le_left _ _
          omega
        obtain ⟨hidx', hle'⟩ := index_next_block b l hlvl64 hbw hb'w (by omega)
        apply ihn _ e t1 r.2.2 _ ht1len he ht1wf ht1pres
        rw [hle']
        have := lt_next_block b l
        omega
      · rw [if_neg hsplit]
        exact ⟨ht1len, ht1wf, ht1pres⟩
    · rw [if_neg hr1]
      exact ⟨ht1len, ht1wf, ht1pres⟩

/-- The map walk at any level preserves the table shape (every table has
PTE_PER_PAGE entries) and, when mapping with present attrs or unmapping, the
presence of every block descriptor. -/
theorem mapLevel_pres (c u : Bool) (a : Attrs) (hp : u = true ∨ a.present = true) :
    ∀ l, PAGE_BITS + (l + 1) * PAGE_LEVEL_BITS ≤ 62 →
      ∀ b e t s, t.length = PTE_PER_PAGE → e ≤ 2 ^ 62 →
        (∀ p ∈ t, entryWF l p = true) →
        (∀ p ∈ t, entryBlocksPresent l p = true) →
        (mapLevel c u a l b e t s).2.1.length = PTE_PER_PAGE ∧
        (∀ p ∈ (mapLevel c u a l b e t s).2.1, entryWF l p = true) ∧
        (∀ p ∈ (mapLevel c u a l b e t s).2.1, entryBlocksPresent l p = true) := by
  intro l
  induction l with
  | zero =>
    intro hl b e t s hT he hWF hPres
    exact mapLevel_pres_aux c u a 0 hp hl
      (fun e b2 p s2 hes hw hpr => by
        show entryWF 0 ((false, p, s2) : Bool × PTE × MMState).2.1 = true ∧ _
        exact ⟨hw, hpr⟩)
      (min e (addr.level_end b 0) - b) b e t s (le_refl _) hT he hWF hPres
  | succ lv ihl =>
    intro hl b e t s hT he hWF hPres
    have hl' : PAGE_BITS + (lv + 1) * PAGE_LEVEL_BITS ≤ 62 := by
      have hmono : (lv + 1) * PAGE_LEVEL_BITS ≤ (lv + 1 + 1) * PAGE_LEVEL_BITS :=
        Nat.mul_le_mul_right _ (Nat.le_succ _)
      omega
    exact mapLevel_pres_aux c u a (lv + 1) hp hl
      (fun e b2 p s2 hes hw hpr =>
        descendStep_pres c u a lv e
          (fun b3 ch s3 hlen hwf hpres =>
            ihl hl' b3 e ch s3 hlen hes hwf hpres)
          b2 p s2 hw hpr)
      (min e (addr.level_end b (lv + 1)) - b) b e t s (le_refl _) hT he hWF hPres


/-- The walk never touches entries below the index of its begin address. -/
theorem mapLevel_getD_lt (c u : Bool) (a : Attrs) (l b e : Nat) (t : List PTE) (s : MMState)
    (j : Nat) (hj : j < addr.index b l) (hjt : j < t.length) :
    (mapLevel c u a l b e t s).2.1.getD j PTE.absent = t.getD j PTE.absent := by
  simp only [mapLevel_eq]
  rw [List.getD_eq_getElem?_getD, List.getD_eq_getElem?_getD,
    List.getElem?_append_left (show j < (t.take (addr.index b l)).length by
      rw [List.length_take]; omega),
    List.getElem?_take, if_pos hj]

theorem getD_set_self (t : List PTE) (i : Nat) (x : PTE) (h : i < t.length) :
    (t.set i x).getD i PTE.absent = x := by
  rw [List.getD_eq_getElem?_getD, List.getElem?_set_self (by omega)]
  rfl

/-- In a table whose blocks are present, a non-present entry is absent. -/
theorem nonpresent_eq_absent (l : Nat) (p : PTE)
    (hPres : entryBlocksPresent l p = true) (h : p.is_present = false) :
    p = PTE.absent := by
  cases p with
  | absent => rfl
  | block oa a =>
    rw [entryBlocksPresent_block] at hPres
    rw [show (PTE.block oa a).is_present = a.present from rfl, hPres] at h
    cases h
  | table c => cases h

/-- After a successful committed-unmap descend, every address of the entry's
window reads the absent attrs, given the recursion one level below does so. -/
theorem descendStep_post (a : Attrs) (lv e : Nat)
    (hl : PAGE_BITS + (lv + 1 + 1) * PAGE_LEVEL_BITS ≤ 62)
    (he : e ≤ 2 ^ 62)
    (hrecB : ∀ b ch s, ch.length = PTE_PER_PAGE →
      (∀ q ∈ ch, entryWF lv q = true) → (∀ q ∈ ch, entryBlocksPresent lv q = true) →
      (mapLevel true true a lv b e ch s).1 = true →
      ∀ V, b ≤ V → V < min e (addr.level_end b lv) →
        entryAttrsAt lv
          ((mapLevel true true a lv b e ch s).2.1.getD (addr.index V lv) PTE.absent) V
          = absentAttrs)
    (b2 : Nat) (p : PTE) (s2 : MMState) (hb2 : b2 < e)
    (hWF : entryWF (lv + 1) p = true) (hPres : entryBlocksPresent (lv + 1) p = true)
    (hok : (levelDescend true true a e (lv + 1) b2 p s2).1 = true) :
    ∀ V, b2 ≤ V →
      V < min e ((b2 / addr.entry_size (lv + 1) + 1) * addr.entry_size (lv + 1)) →
      entryAttrsAt (lv + 1) (levelDescend true true a e (lv + 1) b2 p s2).2.1 V
        = absentAttrs := by
  have hld : levelDescend true true a e (lv + 1) b2 p s2 =
      descendStep true true (lv + 1)
        (fun b3 ch s3 => mapLevel true true a lv b3 e ch s3) b2 p s2 := rfl
  rw [hld] at hok ⊢
  by_cases hpop : (populateTable p b2 (lv + 1) s2).1 = true
  · obtain ⟨ch, hch, hlen, hwf, hpres⟩ :=
      populateTable_ok_props lv p b2 s2 hWF hPres hpop
    simp only [descendStep, hpop, hch, Bool.not_true, Bool.false_eq_true, if_false] at hok ⊢
    set R := mapLevel true true a lv b2 e ch (populateTable p b2 (lv + 1) s2).2.2 with hR
    by_cases hR1 : R.1 = true
    · simp only [hR1, Bool.not_true, Bool.false_eq_true, if_false] at hok ⊢
      have hwin : addr.level_end b2 lv =
          (b2 / addr.entry_size (lv + 1) + 1) * addr.entry_size (lv + 1) := by
        have hmono : (lv + 1) * PAGE_LEVEL_BITS ≤ (lv + 1 + 1) * PAGE_LEVEL_BITS :=
          Nat.mul_le_mul_right _ (Nat.le_succ _)
        have hlvl64 : PAGE_BITS + (lv + 1) * PAGE_LEVEL_BITS ≤ 64 := by omega
        have hPsmall : addr.entry_size (lv + 1) ≤ 2 ^ 62 := by
          rw [entry_size_eq]
          refine Nat.pow_le_pow_right (by decide) (by omega)
        have hbw : b2 + addr.entry_size (lv + 1) < USIZE := by
          show b2 + addr.entry_size (lv + 1) < 2 ^ 64
          have h2 : (2 : Nat) ^ 62 + 2 ^ 62 < 2 ^ 64 := by decide
          omega
        rw [level_end_eq b2 lv hlvl64 hbw]
      by_cases hcoll : (true && true && tableEmpty R.2.1) = true
      · rw [if_pos hcoll]
        intro V h1 h2
        rw [pteReplace_fst, entryAttrsAt_absent]
      · rw [if_neg hcoll] at hok ⊢
        intro V h1 h2
        rw [entryAttrsAt_succ_table]
        have h2' : V < min e (addr.level_end b2 lv) := by
          rw [hwin]
          exact h2
        exact hrecB b2 ch _ hlen hwf hpres hR1 V h1 h2'
    · rw [Bool.not_eq_true] at hR1
      simp only [hR1, Bool.not_false, if_true] at hok
      cases hok
  · rw [Bool.not_eq_true] at hpop
    have hfail := populateTable_fail p b2 (lv + 1) s2 hpop
    simp only [descendStep, hfail, Bool.not_false, if_true] at hok
    cases hok

/-- One level of a successful committed unmap leaves every covered address with
the absent attrs, given descend branches that preserve shape and achieve the
same. -/
theorem mapLevel_post_aux (a : Attrs) (l : Nat)
    (hl : PAGE_BITS + (l + 1) * PAGE_LEVEL_BITS ≤ 62)
    (hdescA : ∀ e b2 p s2, e ≤ 2 ^ 62 →
      entryWF l p = true → entryBlocksPresent l p = true →
      entryWF l (levelDescend true true a e l b2 p s2).2.1 = true ∧
      entryBlocksPresent l (levelDescend true true a e l b2 p s2).2.1 = true)
    (hdescB : ∀ e b2 p s2, e ≤ 2 ^ 62 → b2 < e →
      entryWF l p = true → entryBlocksPresent l p = true →
      (levelDescend true true a e l b2 p s2).1 = true →
      ∀ V, b2 ≤ V → V < min e ((b2 / addr.entry_size l + 1) * addr.entry_size l) →
        entryAttrsAt l (levelDescend true true a e l b2 p s2).2.1 V = absentAttrs) :
    ∀ n b e t s, min e (addr.level_end b l) - b ≤ n →
      t.length = PTE_PER_PAGE → e ≤ 2 ^ 62 →
      (∀ p ∈ t, entryWF l p = true) →
      (∀ p ∈ t, entryBlocksPresent l p = true) →
      (mapLevel true true a l b e t s).1 = true →
      ∀ V, b ≤ V → V < min e (addr.level_end b l) →
        entryAttrsAt l
          ((mapLevel true true a l b e t s).2.1.getD (addr.index V l) PTE.absent) V
          = absentAttrs := by
  intro n
  induction n with
  | zero =>
    intro b e t s hn hT he hWF hPres hok V h1 h2
    omega
  | succ n ihn =>
    intro b e t s hn hT he hWF hPres hok V h1 h2
    have hb : b < e := by
      rcases Nat.lt_or_ge b e with h | h
      · exact h
      · exfalso; omega
    have hmono : l * PAGE_LEVEL_BITS ≤ (l + 1) * PAGE_LEVEL_BITS :=
      Nat.mul_le_mul_right _ (Nat.le_succ l)
    have hlvl64 : PAGE_BITS + (l + 1) * PAGE_LEVEL_BITS ≤ 64 := by omega
    have hPsmall : addr.entry_size (l + 1) ≤ 2 ^ 62 := by
      rw [entry_size_eq]
      exact Nat.pow_le_pow_right (by decide) hl
    have hbw : b + addr.entry_size (l + 1) < USIZE := by
      show b + addr.entry_size (l + 1) < 2 ^ 64
      have hh : (2 : Nat) ^ 62 + 2 ^ 62 < 2 ^ 64 := by decide
      omega
    have hstep := mapLevel_step true true a l b e t s hl hT he hb
    simp only [] at hstep
    have hidxlt : addr.index b l < t.length := by rw [hT]; exact index_lt_pte b l
    have hmem : t.getD (addr.index b l) PTE.absent ∈ t := by
      rw [List.getD_eq_getElem?_getD, List.getElem?_eq_getElem hidxlt]
      exact List.getElem_mem hidxlt
    have hWFp := hWF _ hmem
    have hPresp := hPres _ hmem
    set r := entryStep true true a e l (levelDescend true true a e l)
      (t.getD (addr.index b l) PTE.absent) b s with hr
    have hr1 : r.1 = true := by
      by_contra hr1
      rw [Bool.not_eq_true] at hr1
      rw [hstep, if_neg (by rw [hr1]; exact Bool.false_ne_true)] at hok
      cases hok
    -- The chunk entry after the step: its attrs over the chunk window, and its
    -- shape properties.
    have hq : (entryWF l r.2.1 = true ∧ entryBlocksPresent l r.2.1 = true) ∧
        ∀ W, b ≤ W → W < min e ((b / addr.entry_size l + 1) * addr.entry_size l) →
          entryAttrsAt l r.2.1 W = absentAttrs := by
      rcases entryStep_cases true true a e l (levelDescend true true a e l)
          (t.getD (addr.index b l) PTE.absent) b s with
        ⟨heq, hcond⟩ | ⟨_, _, _, _, _, _, heq⟩ | ⟨_, _, _, heq⟩
      · rw [hr, heq]
        have habs : t.getD (addr.index b l) PTE.absent = PTE.absent := by
          rcases hcond with hcond | hcond | hcond
          · apply nonpresent_eq_absent l _ hPresp
            cases hm : (t.getD (addr.index b l) PTE.absent).is_present
            · rfl
            · rw [hm] at hcond; cases hcond
          · rw [Bool.not_true] at hcond
            cases hcond
          · cases hcond.1
        rw [habs]
        exact ⟨⟨entryWF_absent l, entryBlocksPresent_absent l⟩,
          fun W _ _ => entryAttrsAt_absent l W⟩
      · rw [hr, heq]
        simp only [if_pos rfl]
        exact ⟨⟨entryWF_absent l, entryBlocksPresent_absent l⟩,
          fun W _ _ => entryAttrsAt_absent l W⟩
      · rw [hr, heq]
        have hokd : (levelDescend true true a e l b
            (t.getD (addr.index b l) PTE.absent) s).1 = true := by
          rw [hr, heq] at hr1
          exact hr1
        exact ⟨hdescA e b _ s he hWFp hPresp,
          hdescB e b _ s he hb hWFp hPresp hokd⟩
    set t1 := t.set (addr.index b l) r.2.1 with ht1
    have ht1len : t1.length = PTE_PER_PAGE := by rw [ht1, List.length_set, hT]
    have ht1wf : ∀ p ∈ t1, entryWF l p = true := all_set_of t _ _ hq.1.1 hWF
    have ht1pres : ∀ p ∈ t1, entryBlocksPresent l p = true := all_set_of t _ _ hq.1.2 hPres
    have hchunk : ∀ W, b ≤ W → W < (b / addr.entry_size l + 1) * addr.entry_size l →
        W < min e (addr.level_end b l) →
        entryAttrsAt l (t1.getD (addr.index W l) PTE.absent) W = absentAttrs := by
      intro W hW1 hW2 hW3
      rw [index_eq_of_chunk W b l hW1 hW2]
      rw [ht1, getD_set_self t _ _ hidxlt]
      exact hq.2 W hW1 (lt_min (lt_of_lt_of_le hW3 (min_le_left _ _)) hW2)
    rw [hstep, if_pos hr1] at hok ⊢
    by_cases hsplit : (b / addr.entry_size l + 1) * addr.entry_size l <
        min e (addr.level_end b l)
    · rw [if_pos hsplit] at hok ⊢
      have hb'w : (b / addr.entry_size l + 1) * addr.entry_size l +
          addr.entry_size (l + 1) < USIZE := by
        show _ + addr.entry_size (l + 1) < 2 ^ 64
        have hh : (2 : Nat) ^ 62 + 2 ^ 62 + 2 ^ 62 < 2 ^ 64 := by decide
        have : min e (addr.level_end b l) ≤ e := min_le_left _ _
        omega
      obtain ⟨hidx', hle'⟩ := index_next_block b l hlvl64 hbw hb'w (by omega)
      by_cases hVc : V < (b / addr.entry_size l + 1) * addr.entry_size l
      · have hidxV : addr.index V l = addr.index b l := index_eq_of_chunk V b l h1 hVc
        rw [hidxV]
        rw [mapLevel_getD_lt true true a l _ e t1 r.2.2 (addr.index b l)
          (by rw [hidx']; omega) (by rw [ht1len]; exact index_lt_pte b l)]
        rw [← hidxV]
        exact hchunk V h1 hVc h2
      · apply ihn _ e t1 r.2.2 _ ht1len he ht1wf ht1pres hok V (by omega)
        · rw [hle']
          exact h2
        · rw [hle']
          have := lt_next_block b l
          omega
    · rw [if_neg hsplit] at hok ⊢
      exact hchunk V h1 (by omega) h2

/-- A successful committed unmap leaves every address of the requested window
with the absent attrs, at every level. -/
theorem mapLevel_unmap_absent (a : Attrs) :
    ∀ l, PAGE_BITS + (l + 1) * PAGE_LEVEL_BITS ≤ 62 →
      ∀ b e t s, t.length = PTE_PER_PAGE → e ≤ 2 ^ 62 →
        (∀ p ∈ t, entryWF l p = true) →
        (∀ p ∈ t, entryBlocksPresent l p = true) →
        (mapLevel true true a l b e t s).1 = true →
        ∀ V, b ≤ V → V < min e (addr.level_end b l) →
          entryAttrsAt l
            ((mapLevel true true a l b e t s).2.1.getD (addr.index V l) PTE.absent) V
            = absentAttrs := by
  intro l
  induction l with
  | zero =>
    intro hl b e t s hT he hWF hPres hok
    refine mapLevel_post_aux a 0 hl
      (fun e b2 p s2 hes hw hpr => ⟨hw, hpr⟩)
      (fun e b2 p s2 hes hb2 hw hpr hokd => by
        cases hokd)
      (min e (addr.level_end b 0) - b) b e t s (le_refl _) hT he hWF hPres hok
  | succ lv ihl =>
    intro hl b e t s hT he hWF hPres hok
    have hl' : PAGE_BITS + (lv + 1) * PAGE_LEVEL_BITS ≤ 62 := by
      have hmono : (lv + 1) * PAGE_LEVEL_BITS ≤ (lv + 1 + 1) * PAGE_LEVEL_BITS :=
        Nat.mul_le_mul_right _ (Nat.le_succ _)
      omega
    refine mapLevel_post_aux a (lv + 1) hl
      (fun e b2 p s2 hes hw hpr =>
        descendStep_pres true true a lv e
          (fun b3 ch s3 hlen hwf hpres =>
            mapLevel_pres true true a (Or.inl rfl) lv hl' b3 e ch s3 hlen hes hwf hpres)
          b2 p s2 hw hpr)
      (fun e b2 p s2 hes hb2 hw hpr hokd =>
        descendStep_post a lv e hl hes
          (fun b3 ch s3 hlen hwf hpres hok3 =>
            ihl hl' b3 e ch s3 hlen hes hwf hpres hok3)
          b2 p s2 hb2 hw hpr hokd)
      (min e (addr.level_end b (lv + 1)) - b) b e t s (le_refl _) hT he hWF hPres hok


/-- On the single-root stage-2 table a root walk over an in-coverage range is
exactly one map_level run at the top level. -/
theorem mapRoot_single (c u : Bool) (a : Attrs) (b e : Nat) (t : List PTE) (s : MMState)
    (hb : b < e) (he : e ≤ 2 ^ 48) :
    mapRoot c u a b e 4 [t] s =
      ((mapLevel c u a 3 b e t s).1,
       [(mapLevel c u a 3 b e t s).2.1],
       (mapLevel c u a 3 b e t s).2.2) := by
  unfold mapRoot
  have hesz4 : addr.entry_size 4 = 2 ^ 48 := by decide
  have hb48 : b < 2 ^ 48 := by omega
  have hidx0 : addr.index b 4 = 0 := by
    rw [index_def2, hesz4, Nat.div_eq_of_lt hb48]
    rfl
  have hnext : (b / addr.entry_size 4 + 1) * addr.entry_size 4 = 2 ^ 48 := by
    rw [hesz4, Nat.div_eq_of_lt hb48]
    omega
  have hew : e + addr.entry_size 4 < USIZE := by
    show e + addr.entry_size 4 < 2 ^ 64
    have hh : (2 : Nat) ^ 48 + 2 ^ 48 < 2 ^ 64 := by decide
    omega
  rw [hidx0, blockIterList_cons b e 4 (by decide) hew hb, hnext,
    blockIterList_nil _ _ _ (by omega)]
  rcases hml : mapLevel c u a 3 b e t s with ⟨ok, t1, s1⟩
  cases ok <;> simp [mapRootGo, hml]

/-- C7 (amended): on a well-formed table whose block descriptors are all
present, a successful unmap(b, e) of a range whose page-rounded image is
non-empty and within the root coverage leaves get_mode(b, e) =
Some(UNOWNED | INVALID | SHARED). -/
theorem unmap_then_get_mode (b e : Nat) (pt : PTable) (s : MMState)
    (hpt : pt.length = stage2RootCount)
    (hWF : ∀ t ∈ pt, tableWF stage2MaxLevel t = true)
    (hPres : ptableBlocksPresent pt = true)
    (hcov : addr.round_up_to_page e ≤ stage2RootCount * addr.entry_size (stage2MaxLevel + 1))
    (hne : addr.round_down_to_page b < addr.round_up_to_page e)
    (hew : e + PAGE_SIZE ≤ USIZE)
    (hok : (tableUnmap b e pt s).1 = true) :
    getMode (tableUnmap b e pt s).2.1 b e =
      some (Mode.UNOWNED ||| Mode.INVALID ||| Mode.SHARED) := by
  obtain ⟨t, rfl⟩ : ∃ t, pt = [t] := by
    cases pt with
    | nil => cases hpt
    | cons t ts =>
      cases ts with
      | nil => exact ⟨t, rfl⟩
      | cons _ _ => cases hpt
  have hcov48 : stage2RootCount * addr.entry_size (stage2MaxLevel + 1) = 2 ^ 48 := by decide
  rw [hcov48] at hcov
  set a112 := modeToAttrs (Mode.UNOWNED ||| Mode.INVALID ||| Mode.SHARED) with ha112
  have huu : tableUnmap b e [t] s =
      identityUpdate stage2MaxLevel stage2RootCount true a112 b e [t] s := rfl
  rw [huu] at hok ⊢
  simp only [identityUpdate] at hok ⊢
  have he1 : min (addr.round_up_to_page e) (stage2RootCount *
      addr.entry_size (stage2MaxLevel + 1)) = addr.round_up_to_page e := by
    rw [hcov48]
    exact Nat.min_eq_left hcov
  rw [he1] at hok ⊢
  set b1 := clearPa b with hb1
  set e1 := addr.round_up_to_page e with he1d
  have hb1rd : b1 = addr.round_down_to_page b := rfl
  have hb1e1 : b1 < e1 := by rw [hb1rd]; exact hne
  have he148 : e1 ≤ 2 ^ 48 := hcov
  have hroot4 : stage2MaxLevel + 1 = 4 := rfl
  rw [hroot4, mapRoot_single false true a112 b1 e1 t s hb1e1 he148] at hok ⊢
  dsimp only at hok ⊢
  -- table facts
  have hWFt := hWF t (by simp)
  rw [tableWF, Bool.and_eq_true, decide_eq_true_eq] at hWFt
  obtain ⟨hTlen, hTwf⟩ := hWFt
  rw [List.all_eq_true] at hTwf
  have hTpres : ∀ q ∈ t, entryBlocksPresent 3 q = true := by
    have := hPres
    rw [ptableBlocksPresent, List.all_eq_true] at this
    have h2 := this t (by simp)
    rw [List.all_eq_true] at h2
    exact h2
  have he162 : e1 ≤ 2 ^ 62 := by
    have hh : (2 : Nat) ^ 48 ≤ 2 ^ 62 := by decide
    omega
  have hl3 : PAGE_BITS + (3 + 1) * PAGE_LEVEL_BITS ≤ 62 := by decide
  -- pass 1
  set R1 := mapLevel false true a112 3 b1 e1 t s with hR1
  have hok1 : R1.1 = true := by
    by_contra hok1
    rw [Bool.not_eq_true] at hok1
    rw [hok1] at hok
    simp at hok
  rw [if_neg (by rw [hok1]; simp)] at hok ⊢
  obtain ⟨ht1len, ht1wf, ht1pres⟩ :=
    mapLevel_pres false true a112 (Or.inl rfl) 3 hl3 b1 e1 t s hTlen he162 hTwf hTpres
  rw [← hR1] at ht1len ht1wf ht1pres
  -- pass 2
  rw [mapRoot_single true true a112 b1 e1 R1.2.1 R1.2.2 hb1e1 he148] at hok ⊢
  dsimp only at hok ⊢
  set R2 := mapLevel true true a112 3 b1 e1 R1.2.1 R1.2.2 with hR2
  have hok2 : R2.1 = true := by
    by_contra hok2
    rw [Bool.not_eq_true] at hok2
    rw [hok2] at hok
    simp at hok
  rw [if_neg (by rw [hok2]; simp)]
  obtain ⟨ht2len, ht2wf, ht2pres⟩ :=
    mapLevel_pres true true a112 (Or.inl rfl) 3 hl3 b1 e1 R1.2.1 R1.2.2
      ht1len he162 ht1wf ht1pres
  rw [← hR2] at ht2len ht2wf ht2pres
  have hpost := mapLevel_unmap_absent a112 3 hl3 b1 e1 R1.2.1 R1.2.2
    ht1len he162 ht1wf ht1pres hok2
  rw [← hR2] at hpost
  -- the level end of the single root chunk
  have hb148 : b1 < 2 ^ 48 := by omega
  have hesz4 : addr.entry_size 4 = 2 ^ 48 := by decide
  have hle3 : addr.level_end b1 3 = 2 ^ 48 := by
    have hb1w : b1 + addr.entry_size 4 < USIZE := by
      show b1 + addr.entry_size 4 < 2 ^ 64
      have hh : (2 : Nat) ^ 48 + 2 ^ 48 < 2 ^ 64 := by decide
      omega
    rw [level_end_eq b1 3 (by decide) hb1w, hesz4, Nat.div_eq_of_lt hb148]
    omega
  have hmin : min e1 (addr.level_end b1 3) = e1 := by
    rw [hle3]
    omega
  rw [hmin] at hpost
  -- assemble get_mode via the query characterization
  show getMode [R2.2.1] b e = some (Mode.UNOWNED ||| Mode.INVALID ||| Mode.SHARED)
  have hWF2 : ∀ t2 ∈ [R2.2.1], tableWF stage2MaxLevel t2 = true := by
    intro t2 ht2
    rw [List.mem_singleton] at ht2
    subst ht2
    rw [tableWF, Bool.and_eq_true, decide_eq_true_eq, List.all_eq_true]
    exact ⟨ht2len, ht2wf⟩
  have hchar := getAttrs_char [R2.2.1] b e absentAttrs rfl hWF2 hew
  have hga : getAttrs stage2MaxLevel stage2RootCount [R2.2.1] b e = some absentAttrs := by
    rw [hchar]
    refine ⟨le_of_lt hne, by rw [hcov48]; exact hcov, hne, ?_⟩
    intro V h1 h2
    have hV48 : V < 2 ^ 48 := by omega
    have hidxV4 : addr.index V (stage2MaxLevel + 1) = 0 := by
      rw [index_def2, hroot4, hesz4, Nat.div_eq_of_lt hV48]
      rfl
    show ptableAttrsAt [R2.2.1] V = absentAttrs
    rw [ptableAttrsAt, hidxV4]
    show leafAttrsAt stage2MaxLevel R2.2.1 V = absentAttrs
    rw [leafAttrsAt]
    exact hpost V (by rw [hb1rd]; exact h1) (by rw [← he1d] at h2; exact h2)
  rw [getMode, hga]
  rfl


def c7s0 : MMState := { pool := 10, trace := [] }

def c7step1 : Bool × PTable × MMState :=
  identityMap 0 0x2000 Mode.R freshTable c7s0

def c7step2 : Bool × PTable × MMState :=
  identityMap 0 0x1000 (Mode.R ||| Mode.INVALID ||| Mode.UNOWNED ||| Mode.SHARED)
    c7step1.2.1 c7step1.2.2

def c7step3 : Bool × PTable × MMState :=
  tableUnmap 0 0x1000 c7step2.2.1 c7step2.2.2

/-- C7 counterexample: map [0, 0x2000) readable, remap [0, 0x1000) with the
non-present mode R|INVALID|UNOWNED|SHARED, then unmap [0, 0x1000).  The unmap
succeeds, but because the committed-unmap walk skips non-present entries, the
non-present block survives and get_mode(0, 0x1000) still reports
R|INVALID|UNOWNED|SHARED instead of the claimed UNOWNED|INVALID|SHARED. -/
theorem unmap_get_mode_counterexample :
    c7step1.1 = true ∧ c7step2.1 = true ∧ c7step3.1 = true ∧
    getMode c7step3.2.1 0 0x1000 ≠
      some (Mode.UNOWNED ||| Mode.INVALID ||| Mode.SHARED) ∧
    getMode c7step3.2.1 0 0x1000 =
      some (Mode.R ||| Mode.INVALID ||| Mode.UNOWNED ||| Mode.SHARED) :=
  ⟨by decide, by decide, by decide, by decide, by decide⟩

/-- Witness for the amended C7 theorem: unmapping one page of the fresh table
succeeds even with an empty pool and leaves get_mode = UNOWNED|INVALID|SHARED. -/
theorem unmap_then_get_mode_witness :
    (tableUnmap 0 4096 freshTable { pool := 0, trace := [] }).1 = true ∧
    getMode (tableUnmap 0 4096 freshTable { pool := 0, trace := [] }).2.1 0 4096 =
      some (Mode.UNOWNED ||| Mode.INVALID ||| Mode.SHARED) :=
  ⟨by decide,
    unmap_then_get_mode 0 4096 freshTable { pool := 0, trace := [] }
      (by decide) (by decide) (by decide) (by decide) (by decide) (by decide) (by decide)⟩




/-!
## Shape-only preservation and idempotence of the map walk
-/

/-- A successful populate at a positive level yields a well-formed child list,
given a well-formed slot (shape only; no presence needed). -/
theorem populateTable_ok_wf (lv : Nat) (p : PTE) (bg : Nat) (s : MMState)
    (hWF : entryWF (lv + 1) p = true)
    (h : (populateTable p bg (lv + 1) s).1 = true) :
    ∃ ch, (populateTable p bg (lv + 1) s).2.1 = PTE.table ch ∧
      ch.length = PTE_PER_PAGE ∧
      (∀ q ∈ ch, entryWF lv q = true) := by
  obtain ⟨ch, hch, hcase⟩ := populateTable_ok p bg (lv + 1) s h
  refine ⟨ch, hch, ?_⟩
  rcases hcase with rfl | ⟨hnt, rfl⟩
  · exact (entryWF_table_iff lv ch).mp hWF
  · refine ⟨populateChildren_length p (lv + 1), ?_⟩
    intro q hq
    by_cases hb : p.is_block = true
    · obtain ⟨oa, rfl⟩ := populateChildren_mem_block p (lv + 1) q hb hq
      exact entryWF_block lv oa p.attrs
    · rw [populateChildren_mem_not_block p (lv + 1) q (by simp [hb]) hq]
      exact entryWF_absent lv

/-- The descend branch of map_level preserves shape well-formedness of the
slot, given that the recursion one level below does (no presence needed). -/
theorem descendStep_presWF (c u : Bool) (a : Attrs) (lv : Nat) (e : Nat)
    (hrec : ∀ b ch s, ch.length = PTE_PER_PAGE →
      (∀ q ∈ ch, entryWF lv q = true) →
      (mapLevel c u a lv b e ch s).2.1.length = PTE_PER_PAGE ∧
      (∀ q ∈ (mapLevel c u a lv b e ch s).2.1, entryWF lv q = true))
    (b2 : Nat) (p : PTE) (s2 : MMState)
    (hWF : entryWF (lv + 1) p = true) :
    entryWF (lv + 1) (levelDescend c u a e (lv + 1) b2 p s2).2.1 = true := by
  show entryWF (lv + 1) (descendStep c u (lv + 1)
      (fun b2 ch s2 => mapLevel c u a lv b2 e ch s2) b2 p s2).2.1 = true
  by_cases hok : (populateTable p b2 (lv + 1) s2).1 = true
  · obtain ⟨ch, hch, hlen, hwf⟩ := populateTable_ok_wf lv p b2 s2 hWF hok
    simp only [descendStep, hok, hch, Bool.not_true, Bool.false_eq_true, if_false]
    obtain ⟨hRlen, hRwf⟩ := hrec b2 ch (populateTable p b2 (lv + 1) s2).2.2 hlen hwf
    set R := mapLevel c u a lv b2 e ch (populateTable p b2 (lv + 1) s2).2.2 with hR
    by_cases hR1 : R.1 = true
    · simp only [hR1, Bool.not_true, Bool.false_eq_true, if_false]
      by_cases hcoll : (c && u && tableEmpty R.2.1) = true
      · rw [if_pos hcoll, pteReplace_fst]
        exact entryWF_absent (lv + 1)
      · rw [if_neg hcoll]
        exact (entryWF_table_iff lv R.2.1).mpr ⟨hRlen, hRwf⟩
    · rw [Bool.not_eq_true] at hR1
      simp only [hR1, Bool.not_false, if_true]
      exact (entryWF_table_iff lv R.2.1).mpr ⟨hRlen, hRwf⟩
  · rw [Bool.not_eq_true] at hok
    have hfail := populateTable_fail p b2 (lv + 1) s2 hok
    simp only [descendStep, hfail, Bool.not_false, if_true]
    exact hWF

/-- One level of the map walk preserves shape well-formedness, given a descend
branch that does (no presence needed). -/
theorem mapLevel_presWF_aux (c u : Bool) (a : Attrs) (l : Nat)
    (hl : PAGE_BITS + (l + 1) * PAGE_LEVEL_BITS ≤ 62)
    (hdesc : ∀ e b2 p s2, e ≤ 2 ^ 62 → entryWF l p = true →
      entryWF l (levelDescend c u a e l b2 p s2).2.1 = true) :
    ∀ n b e t s, min e (addr.level_end b l) - b ≤ n →
      t.length = PTE_PER_PAGE → e ≤ 2 ^ 62 →
      (∀ p ∈ t, entryWF l p = true) →
      (mapLevel c u a l b e t s).2.1.length = PTE_PER_PAGE ∧
      (∀ p ∈ (mapLevel c u a l b e t s).2.1, entryWF l p = true) := by
  intro n
  induction n with
  | zero =>
    intro b e t s hn hT he hWF
    by_cases hbe : e ≤ b
    · rw [mapLevel_of_ge c u a l b e t s hbe]
      exact ⟨hT, hWF⟩
    · exfalso
      have hb : b < e := Nat.lt_of_not_le hbe
      have hmono : l * PAGE_LEVEL_BITS ≤ (l + 1) * PAGE_LEVEL_BITS :=
        Nat.mul_le_mul_right _ (Nat.le_succ l)
      have hlvl64 : PAGE_BITS + (l + 1) * PAGE_LEVEL_BITS ≤ 64 := by omega
      have hPsmall : addr.entry_size (l + 1) ≤ 2 ^ 62 := by
        rw [entry_size_eq]
        exact Nat.pow_le_pow_right (by decide) hl
      have hbw : b + addr.entry_size (l + 1) < USIZE := by
        show b + addr.entry_size (l + 1) < 2 ^ 64
        have h2 : (2 : Nat) ^ 62 + 2 ^ 62 < 2 ^ 64 := by decide
        omega
      have hlt : b < addr.level_end b l := lt_level_end b l hlvl64 hbw
      have hcap : b < min e (addr.level_end b l) := lt_min hb hlt
      omega
  | succ n ihn =>
    intro b e t s hn hT he hWF
    by_cases hbe : e ≤ b
    · rw [mapLevel_of_ge c u a l b e t s hbe]
      exact ⟨hT, hWF⟩
    have hb : b < e := Nat.lt_of_not_le hbe
    have hmono : l * PAGE_LEVEL_BITS ≤ (l + 1) * PAGE_LEVEL_BITS :=
      Nat.mul_le_mul_right _ (Nat.le_succ l)
    have hlvl64 : PAGE_BITS + (l + 1) * PAGE_LEVEL_BITS ≤ 64 := by omega
    have hPsmall : addr.entry_size (l + 1) ≤ 2 ^ 62 := by
      rw [entry_size_eq]
      exact Nat.pow_le_pow_right (by decide) hl
    have hbw : b + addr.entry_size (l + 1) < USIZE := by
      show b + addr.entry_size (l + 1) < 2 ^ 64
      have h2 : (2 : Nat) ^ 62 + 2 ^ 62 < 2 ^ 64 := by decide
      omega
    have hstep := mapLevel_step c u a l b e t s hl hT he hb
    simp only [] at hstep
    have hidxlt : addr.index b l < t.length := by rw [hT]; exact index_lt_pte b l
    have hmem : t.getD (addr.index b l) PTE.absent ∈ t := by
      rw [List.getD_eq_getElem?_getD, List.getElem?_eq_getElem hidxlt]
      exact List.getElem_mem hidxlt
    have hWFp := hWF _ hmem
    set r := entryStep c u a e l (levelDescend c u a e l)
      (t.getD (addr.index b l) PTE.absent) b s with hr
    have hrprops : entryWF l r.2.1 = true := by
      rcases entryStep_cases c u a e l (levelDescend c u a e l)
          (t.getD (addr.index b l) PTE.absent) b s with
        ⟨heq, _⟩ | ⟨_, _, _, _, _, _, heq⟩ | ⟨_, _, _, heq⟩
      · rw [hr, heq]
        exact hWFp
      · rw [hr, heq]
        cases hu : u with
        | true =>
          simp only [if_pos rfl]
          exact entryWF_absent l
        | false =>
          simp only [Bool.false_eq_true, if_false]
          exact entryWF_block l b a
      · rw [hr, heq]
        exact hdesc e b _ s he hWFp
    set t1 := t.set (addr.index b l) r.2.1 with ht1
    have ht1len : t1.length = PTE_PER_PAGE := by rw [ht1, List.length_set, hT]
    have ht1wf : ∀ p ∈ t1, entryWF l p = true := all_set_of t _ _ hrprops hWF
    rw [hstep]
    by_cases hr1 : r.1 = true
    · rw [if_pos hr1]
      by_cases hsplit : (b / addr.entry_size l + 1) * addr.entry_size l <
          min e (addr.level_end b l)
      · rw [if_pos hsplit]
        have hb'w : (b / addr.entry_size l + 1) * addr.entry_size l +
            addr.entry_size (l + 1) < USIZE := by
          show _ + addr.entry_size (l + 1) < 2 ^ 64
          have h2 : (2 : Nat) ^ 62 + 2 ^ 62 + 2 ^ 62 < 2 ^ 64 := by decide
          have : min e (addr.level_end b l) ≤ e := min_le_left _ _
          omega
        obtain ⟨hidx', hle'⟩ := index_next_block b l hlvl64 hbw hb'w (by omega)
        apply ihn _ e t1 r.2.2 _ ht1len he ht1wf
        rw [hle']
        have := lt_next_block b l
        omega
      · rw [if_neg hsplit]
        exact ⟨ht1len, ht1wf⟩
    · rw [if_neg hr1]
      exact ⟨ht1len, ht1wf⟩

/-- The map walk preserves the table shape at every level, with no hypothesis
on the attrs being written. -/
theorem mapLevel_presWF (c u : Bool) (a : Attrs) :
    ∀ l, PAGE_BITS + (l + 1) * PAGE_LEVEL_BITS ≤ 62 →
      ∀ b e t s, t.length = PTE_PER_PAGE → e ≤ 2 ^ 62 →
        (∀ p ∈ t, entryWF l p = true) →
        (mapLevel c u a l b e t s).2.1.length = PTE_PER_PAGE ∧
        (∀ p ∈ (mapLevel c u a l b e t s).2.1, entryWF l p = true) := by
  intro l
  induction l with
  | zero =>
    intro hl b e t s hT he hWF
    exact mapLevel_presWF_aux c u a 0 hl
      (fun e b2 p s2 hes hw => hw)
      (min e (addr.level_end b 0) - b) b e t s (le_refl _) hT he hWF
  | succ lv ihl =>
    intro hl b e t s hT he hWF
    have hl' : PAGE_BITS + (lv + 1) * PAGE_LEVEL_BITS ≤ 62 := by
      have hmono : (lv + 1) * PAGE_LEVEL_BITS ≤ (lv + 1 + 1) * PAGE_LEVEL_BITS :=
        Nat.mul_le_mul_right _ (Nat.le_succ _)
      omega
    exact mapLevel_presWF_aux c u a (lv + 1) hl
      (fun e b2 p s2 hes hw =>
        descendStep_presWF c u a lv e
          (fun b3 ch s3 hlen hwf =>
            ihl hl' b3 e ch s3 hlen hes hwf)
          b2 p s2 hw)
      (min e (addr.level_end b (lv + 1)) - b) b e t s (le_refl _) hT he hWF


theorem set_getD_self (t : List PTE) (i : Nat) (h : i < t.length) :
    t.set i (t.getD i PTE.absent) = t := by
  apply List.ext_getElem?
  intro j
  by_cases hj : i = j
  · subst hj
    rw [List.getElem?_set_self h, List.getD_eq_getElem?_getD,
      List.getElem?_eq_getElem h]
    rfl
  · rw [List.getElem?_set_ne hj]

theorem getD_set_eq (t : List PTE) (i : Nat) (x : PTE) (h : i < t.length) :
    (t.set i x).getD i PTE.absent = x := by
  rw [List.getD_eq_getElem?_getD, List.getElem?_set_self (by omega)]
  rfl

/-- A second descend over the result of a successful committed-map descend
changes nothing: that result is the populated subtable (never a block), taken
as is by the second run, whose recursion below is the identity. -/
theorem descendStep_idem (a : Attrs) (lv : Nat) (e : Nat)
    (hrecIdem : ∀ b ch s, ch.length = PTE_PER_PAGE →
      (∀ q ∈ ch, entryWF lv q = true) →
      (mapLevel true false a lv b e ch s).1 = true →
      ∀ c s3, mapLevel c false a lv b e (mapLevel true false a lv b e ch s).2.1 s3 =
        (true, (mapLevel true false a lv b e ch s).2.1, s3))
    (b2 : Nat) (p : PTE) (s2 : MMState)
    (hWF : entryWF (lv + 1) p = true)
    (hok : (levelDescend true false a e (lv + 1) b2 p s2).1 = true) :
    (levelDescend true false a e (lv + 1) b2 p s2).2.1.is_block = false ∧
    ∀ c s3, levelDescend c false a e (lv + 1) b2
        (levelDescend true false a e (lv + 1) b2 p s2).2.1 s3 =
      (true, (levelDescend true false a e (lv + 1) b2 p s2).2.1, s3) := by
  have hld : ∀ (c2 : Bool) (p2 : PTE) (s4 : MMState),
      levelDescend c2 false a e (lv + 1) b2 p2 s4 =
        descendStep c2 false (lv + 1)
          (fun b3 ch s5 => mapLevel c2 false a lv b3 e ch s5) b2 p2 s4 :=
    fun _ _ _ => rfl
  rw [hld] at hok
  simp only [hld]
  by_cases hpop : (populateTable p b2 (lv + 1) s2).1 = true
  · obtain ⟨ch, hch, hlen, hwf⟩ := populateTable_ok_wf lv p b2 s2 hWF hpop
    simp only [descendStep, hpop, hch, Bool.not_true, Bool.false_eq_true, if_false] at hok ⊢
    set R := mapLevel true false a lv b2 e ch (populateTable p b2 (lv + 1) s2).2.2 with hR
    have hR1 : R.1 = true := by
      by_contra hR1
      rw [Bool.not_eq_true] at hR1
      simp only [hR1, Bool.not_false, if_true] at hok
      cases hok
    simp only [hR1, Bool.not_true, Bool.false_eq_true, if_false,
      Bool.and_false, Bool.false_and, if_true]
    constructor
    · rfl
    · intro c s3
      have hpop2 : populateTable (PTE.table R.2.1) b2 (lv + 1) s3 =
          (true, PTE.table R.2.1, s3) := by
        rw [populateTable_eq, if_pos (by rw [PTE.is_table]; simp)]
      simp only [descendStep, hpop2, Bool.not_true, Bool.false_eq_true, if_false]
      rw [hR] at hR1
      have h5 := hrecIdem b2 ch (populateTable p b2 (lv + 1) s2).2.2 hlen hwf hR1 c s3
      rw [← hR] at h5
      rw [h5]
      simp
  · rw [Bool.not_eq_true] at hpop
    have hfail := populateTable_fail p b2 (lv + 1) s2 hpop
    simp only [descendStep, hfail, Bool.not_false, if_true] at hok
    cases hok

/-- One level of a second map run over the result of a successful committed map
of the same range with the same attrs is the identity on the table and the
state, for either commit flag; the descend identity is a hypothesis. -/
theorem mapLevel_idem_aux (a : Attrs) (l : Nat)
    (hl : PAGE_BITS + (l + 1) * PAGE_LEVEL_BITS ≤ 62)
    (hdescWF : ∀ e b2 p s2, e ≤ 2 ^ 62 → entryWF l p = true →
      entryWF l (levelDescend true false a e l b2 p s2).2.1 = true)
    (hdescIdem : ∀ e b2 p s2, e ≤ 2 ^ 62 →
      entryWF l p = true →
      (levelDescend true false a e l b2 p s2).1 = true →
      (levelDescend true false a e l b2 p s2).2.1.is_block = false ∧
      ∀ c s3, levelDescend c false a e l b2
          (levelDescend true false a e l b2 p s2).2.1 s3 =
        (true, (levelDescend true false a e l b2 p s2).2.1, s3)) :
    ∀ n b e t s, min e (addr.level_end b l) - b ≤ n →
      t.length = PTE_PER_PAGE → e ≤ 2 ^ 62 →
      (∀ p ∈ t, entryWF l p = true) →
      (mapLevel true false a l b e t s).1 = true →
      ∀ c s2, mapLevel c false a l b e (mapLevel true false a l b e t s).2.1 s2 =
        (true, (mapLevel true false a l b e t s).2.1, s2) := by
  intro n
  induction n with
  | zero =>
    intro b e t s hn hT he hWF hok c s2
    by_cases hbe : e ≤ b
    · rw [mapLevel_of_ge true false a l b e t s hbe]
      exact mapLevel_of_ge c false a l b e t s2 hbe
    · exfalso
      have hb : b < e := Nat.lt_of_not_le hbe
      have hmono : l * PAGE_LEVEL_BITS ≤ (l + 1) * PAGE_LEVEL_BITS :=
        Nat.mul_le_mul_right _ (Nat.le_succ l)
      have hlvl64 : PAGE_BITS + (l + 1) * PAGE_LEVEL_BITS ≤ 64 := by omega
      have hPsmall : addr.entry_size (l + 1) ≤ 2 ^ 62 := by
        rw [entry_size_eq]
        exact Nat.pow_le_pow_right (by decide) hl
      have hbw : b + addr.entry_size (l + 1) < USIZE := by
        show b + addr.entry_size (l + 1) < 2 ^ 64
        have h2 : (2 : Nat) ^ 62 + 2 ^ 62 < 2 ^ 64 := by decide
        omega
      have hlt : b < addr.level_end b l := lt_level_end b l hlvl64 hbw
      have hcap : b < min e (addr.level_end b l) := lt_min hb hlt
      omega
  | succ n ihn =>
    intro b e t s hn hT he hWF hok c s2
    by_cases hbe : e ≤ b
    · rw [mapLevel_of_ge true false a l b e t s hbe]
      exact mapLevel_of_ge c false a l b e t s2 hbe
    have hb : b < e := Nat.lt_of_not_le hbe
    have hmono : l * PAGE_LEVEL_BITS ≤ (l + 1) * PAGE_LEVEL_BITS :=
      Nat.mul_le_mul_right _ (Nat.le_succ l)
    have hlvl64 : PAGE_BITS + (l + 1) * PAGE_LEVEL_BITS ≤ 64 := by omega
    have hPsmall : addr.entry_size (l + 1) ≤ 2 ^ 62 := by
      rw [entry_size_eq]
      exact Nat.pow_le_pow_right (by decide) hl
    have hbw : b + addr.entry_size (l + 1) < USIZE := by
      show b + addr.entry_size (l + 1) < 2 ^ 64
      have h2 : (2 : Nat) ^ 62 + 2 ^ 62 < 2 ^ 64 := by decide
      omega
    have hstep := mapLevel_step true false a l b e t s hl hT he hb
    simp only [] at hstep
    have hidxlt : addr.index b l < t.length := by rw [hT]; exact index_lt_pte b l
    have hmem : t.getD (addr.index b l) PTE.absent ∈ t := by
      rw [List.getD_eq_getElem?_getD, List.getElem?_eq_getElem hidxlt]
      exact List.getElem_mem hidxlt
    have hWFp := hWF _ hmem
    set r := entryStep true false a e l (levelDescend true false a e l)
      (t.getD (addr.index b l) PTE.absent) b s with hr
    have hr1 : r.1 = true := by
      by_contra hr1
      rw [Bool.not_eq_true] at hr1
      rw [hstep, if_neg (by rw [hr1]; exact Bool.false_ne_true)] at hok
      cases hok
    -- the chunk result: a block carrying the target attrs, or a non-block
    -- entry below the whole-entry threshold whose second descend is trivial
    have hq : entryWF l r.2.1 = true ∧
        (((r.2.1).is_block && decide ((r.2.1).attrs = a)) = true ∨
          ((¬(addr.entry_size l ≤ e - b ∧ (false || blockAllowed l) = true ∧
              b &&& (addr.entry_size l - 1) = 0)) ∧ (r.2.1).is_block = false ∧
            ∀ c2 s3, levelDescend c2 false a e l b r.2.1 s3 = (true, r.2.1, s3))) := by
      rcases entryStep_cases true false a e l (levelDescend true false a e l)
          (t.getD (addr.index b l) PTE.absent) b s with
        ⟨heq, hcond⟩ | ⟨_, _, _, h3a, h3b, h3c, heq⟩ | ⟨_, h2, h3, heq⟩
      · rcases hcond with hcond | hcond | hcond
        · rw [Bool.false_and] at hcond
          cases hcond
        · rw [hr, heq]
          rw [Bool.not_false, Bool.true_and] at hcond
          exact ⟨hWFp, Or.inl hcond⟩
        · cases hcond.1
      · rw [hr, heq]
        simp only [Bool.false_eq_true, if_false]
        refine ⟨entryWF_block l b a, Or.inl ?_⟩
        rw [PTE.is_block, PTE.attrs]
        simp
      · rw [hr, heq]
        have hokd : (levelDescend true false a e l b
            (t.getD (addr.index b l) PTE.absent) s).1 = true := by
          rw [hr, heq] at hr1
          exact hr1
        obtain ⟨hnotblk, hidem⟩ := hdescIdem e b _ s he hWFp hokd
        exact ⟨hdescWF e b _ s he hWFp, Or.inr ⟨h3, hnotblk, hidem⟩⟩
    -- a second entryStep on the chunk result changes nothing
    have hstep2 : ∀ s4, entryStep c false a e l (levelDescend c false a e l)
        r.2.1 b s4 = (true, r.2.1, s4) := by
      intro s4
      rcases hq.2 with hblk | ⟨hnw, hnb, hidem⟩
      · rcases entryStep_cases c false a e l (levelDescend c false a e l)
            r.2.1 b s4 with
          ⟨heq2, _⟩ | ⟨_, _, hc2, _, _, _, heq2⟩ | ⟨_, hc2, _, heq2⟩
        · exact heq2
        · rw [Bool.not_false, Bool.true_and, hblk] at hc2
          cases hc2
        · rw [Bool.not_false, Bool.true_and, hblk] at hc2
          cases hc2
      · rcases entryStep_cases c false a e l (levelDescend c false a e l)
            r.2.1 b s4 with
          ⟨heq2, _⟩ | ⟨_, _, _, h3a, h3b, h3c, heq2⟩ | ⟨_, _, _, heq2⟩
        · exact heq2
        · exact absurd ⟨h3a, h3b, h3c⟩ hnw
        · rw [heq2]
          exact hidem c s4
    set t1 := t.set (addr.index b l) r.2.1 with ht1
    have ht1len : t1.length = PTE_PER_PAGE := by rw [ht1, List.length_set, hT]
    have ht1wf : ∀ p ∈ t1, entryWF l p = true := all_set_of t _ _ hq.1 hWF
    have ht1get : t1.getD (addr.index b l) PTE.absent = r.2.1 :=
      getD_set_eq t _ _ hidxlt
    have hidxlt1 : addr.index b l < t1.length := by
      rw [ht1len]
      exact index_lt_pte b l
    by_cases hsplit : (b / addr.entry_size l + 1) * addr.entry_size l <
        min e (addr.level_end b l)
    · -- the first run continued into the rest of the window
      have hb'w : (b / addr.entry_size l + 1) * addr.entry_size l +
          addr.entry_size (l + 1) < USIZE := by
        show _ + addr.entry_size (l + 1) < 2 ^ 64
        have h2 : (2 : Nat) ^ 62 + 2 ^ 62 + 2 ^ 62 < 2 ^ 64 := by decide
        have : min e (addr.level_end b l) ≤ e := min_le_left _ _
        omega
      obtain ⟨hidx', hle'⟩ := index_next_block b l hlvl64 hbw hb'w (by omega)
      have hT' : (mapLevel true false a l b e t s).2.1 =
          (mapLevel true false a l
            ((b / addr.entry_size l + 1) * addr.entry_size l) e t1 r.2.2).2.1 := by
        rw [hstep, if_pos hr1, if_pos hsplit]
      have hok' : (mapLevel true false a l
          ((b / addr.entry_size l + 1) * addr.entry_size l) e t1 r.2.2).1 = true := by
        rw [hstep, if_pos hr1, if_pos hsplit] at hok
        exact hok
      obtain ⟨hT'len, hT'wf⟩ := mapLevel_presWF true false a l hl
        ((b / addr.entry_size l + 1) * addr.entry_size l) e t1 r.2.2 ht1len he ht1wf
      have hT'get : (mapLevel true false a l
          ((b / addr.entry_size l + 1) * addr.entry_size l) e t1 r.2.2).2.1.getD
          (addr.index b l) PTE.absent = r.2.1 := by
        rw [mapLevel_getD_lt true false a l _ e t1 r.2.2 (addr.index b l)
          (by rw [hidx']; omega) hidxlt1]
        exact ht1get
      rw [hT']
      rw [mapLevel_step c false a l b e _ s2 hl hT'len he hb]
      simp only []
      rw [hT'get, hstep2 s2]
      have hsetsame : (mapLevel true false a l
          ((b / addr.entry_size l + 1) * addr.entry_size l) e t1 r.2.2).2.1.set
          (addr.index b l) r.2.1 =
          (mapLevel true false a l
            ((b / addr.entry_size l + 1) * addr.entry_size l) e t1 r.2.2).2.1 := by
        rw [← hT'get, set_getD_self _ _ (by rw [hT'len]; exact index_lt_pte b l)]
      rw [if_pos rfl, if_pos hsplit, hsetsame]
      exact ihn _ e t1 r.2.2 (by rw [hle']; have := lt_next_block b l; omega)
        ht1len he ht1wf hok' c s2
    · -- the chunk was the last one of the window
      have hT' : (mapLevel true false a l b e t s).2.1 = t1 := by
        rw [hstep, if_pos hr1, if_neg hsplit]
      rw [hT']
      rw [mapLevel_step c false a l b e t1 s2 hl ht1len he hb]
      simp only []
      rw [ht1get, hstep2 s2]
      have hsetsame : t1.set (addr.index b l) r.2.1 = t1 := by
        rw [← ht1get, set_getD_self t1 _ hidxlt1]
      rw [if_pos rfl, if_neg hsplit, hsetsame]

/-- A second map run over the result of a successful committed map of the same
range with the same attrs is the identity, at every level and for either
commit flag. -/
theorem mapLevel_idem (a : Attrs) :
    ∀ l, PAGE_BITS + (l + 1) * PAGE_LEVEL_BITS ≤ 62 →
      ∀ b e t s, t.length = PTE_PER_PAGE → e ≤ 2 ^ 62 →
        (∀ p ∈ t, entryWF l p = true) →
        (mapLevel true false a l b e t s).1 = true →
        ∀ c s2, mapLevel c false a l b e (mapLevel true false a l b e t s).2.1 s2 =
          (true, (mapLevel true false a l b e t s).2.1, s2) := by
  intro l
  induction l with
  | zero =>
    intro hl b e t s hT he hWF hok
    refine mapLevel_idem_aux a 0 hl
      (fun e b2 p s2 hes hw => hw)
      (fun e b2 p s2 hes hw hokd => by cases hokd)
      (min e (addr.level_end b 0) - b) b e t s (le_refl _) hT he hWF hok
  | succ lv ihl =>
    intro hl b e t s hT he hWF hok
    have hl' : PAGE_BITS + (lv + 1) * PAGE_LEVEL_BITS ≤ 62 := by
      have hmono : (lv + 1) * PAGE_LEVEL_BITS ≤ (lv + 1 + 1) * PAGE_LEVEL_BITS :=
        Nat.mul_le_mul_right _ (Nat.le_succ _)
      omega
    refine mapLevel_idem_aux a (lv + 1) hl
      (fun e b2 p s2 hes hw =>
        descendStep_presWF true false a lv e
          (fun b3 ch s3 hlen hwf =>
            mapLevel_presWF true false a lv hl' b3 e ch s3 hlen hes hwf)
          b2 p s2 hw)
      (fun e b2 p s2 hes hw hokd =>
        descendStep_idem a lv e
          (fun b3 ch s3 hlen hwf hok3 c s3b =>
            ihl hl' b3 e ch s3 hlen hes hwf hok3 c s3b)
          b2 p s2 hw hokd)
      (min e (addr.level_end b (lv + 1)) - b) b e t s (le_refl _) hT he hWF hok


/-- C6 (amended): a second identity_map of the same range with the same mode
over the result of a successful one is the identity on the table and on the
pool, for any ambient state: it succeeds, modifies no descriptor and allocates
nothing, but — contrary to the claim — it still performs one TLB invalidation,
because identity_update invalidates the rounded range unconditionally after
every successful commit pass; its trace grows by exactly that event. -/
theorem identity_map_idempotent (b e m : Nat) (pt : PTable) (s s2 : MMState)
    (hpt : pt.length = stage2RootCount)
    (hWF : ∀ t ∈ pt, tableWF stage2MaxLevel t = true)
    (hne : clearPa b < min (addr.round_up_to_page e)
      (stage2RootCount * addr.entry_size (stage2MaxLevel + 1)))
    (hok : (identityMap b e m pt s).1 = true) :
    identityMap b e m (identityMap b e m pt s).2.1 s2 =
      (true, (identityMap b e m pt s).2.1,
        s2.emit (.tlb (clearPa b) (min (addr.round_up_to_page e)
          (stage2RootCount * addr.entry_size (stage2MaxLevel + 1))))) := by
  obtain ⟨t, rfl⟩ : ∃ t, pt = [t] := by
    cases pt with
    | nil => cases hpt
    | cons t ts =>
      cases ts with
      | nil => exact ⟨t, rfl⟩
      | cons _ _ => cases hpt
  set a := modeToAttrs m with ha
  have hmu : ∀ (pt2 : PTable) (s3 : MMState), identityMap b e m pt2 s3 =
      identityUpdate stage2MaxLevel stage2RootCount false a b e pt2 s3 :=
    fun _ _ => rfl
  rw [hmu] at hok
  rw [hmu, hmu]
  simp only [identityUpdate] at hok
  set e1 := min (addr.round_up_to_page e)
    (stage2RootCount * addr.entry_size (stage2MaxLevel + 1)) with he1
  set b1 := clearPa b with hb1
  have hb1e1 : b1 < e1 := hne
  have he148 : e1 ≤ 2 ^ 48 := by
    rw [he1]
    have hh : stage2RootCount * addr.entry_size (stage2MaxLevel + 1) = 2 ^ 48 := by decide
    rw [hh]
    exact min_le_right _ _
  have he162 : e1 ≤ 2 ^ 62 := by
    have hh : (2 : Nat) ^ 48 ≤ 2 ^ 62 := by decide
    omega
  have hroot4 : stage2MaxLevel + 1 = 4 := rfl
  have hl3 : PAGE_BITS + (3 + 1) * PAGE_LEVEL_BITS ≤ 62 := by decide
  -- decompose the first call, working on hok alone
  rw [hroot4, mapRoot_single false false a b1 e1 t s hb1e1 he148] at hok
  dsimp only at hok
  have hWFt := hWF t (by simp)
  rw [tableWF, Bool.and_eq_true, decide_eq_true_eq] at hWFt
  obtain ⟨hTlen, hTwf⟩ := hWFt
  rw [List.all_eq_true] at hTwf
  set R1 := mapLevel false false a 3 b1 e1 t s with hR1
  have hok1 : R1.1 = true := by
    by_contra hok1
    rw [Bool.not_eq_true] at hok1
    rw [hok1] at hok
    simp at hok
  rw [if_neg (by rw [hok1]; simp)] at hok
  rw [mapRoot_single true false a b1 e1 R1.2.1 R1.2.2 hb1e1 he148] at hok
  dsimp only at hok
  set R2 := mapLevel true false a 3 b1 e1 R1.2.1 R1.2.2 with hR2
  have hok2 : R2.1 = true := by
    by_contra hok2
    rw [Bool.not_eq_true] at hok2
    rw [hok2] at hok
    simp at hok
  obtain ⟨ht1len, ht1wf⟩ :=
    mapLevel_presWF false false a 3 hl3 b1 e1 t s hTlen he162 hTwf
  rw [← hR1] at ht1len ht1wf
  have hidem := mapLevel_idem a 3 hl3 b1 e1 R1.2.1 R1.2.2 ht1len he162 ht1wf
    (by rw [← hR2] at *; exact hok2)
  rw [← hR2] at hidem
  have hfirst : identityUpdate stage2MaxLevel stage2RootCount false a b e [t] s =
      (true, [R2.2.1], R2.2.2.emit (Event.tlb b1 e1)) := by
    simp only [identityUpdate]
    rw [← he1, ← hb1, hroot4, mapRoot_single false false a b1 e1 t s hb1e1 he148]
    dsimp only
    rw [if_neg (by rw [hok1]; simp)]
    rw [mapRoot_single true false a b1 e1 R1.2.1 R1.2.2 hb1e1 he148]
    dsimp only
    rw [if_neg (by rw [hok2]; simp)]
  rw [hfirst]
  dsimp only
  -- the second call walks the committed table and changes nothing
  simp only [identityUpdate]
  rw [← he1, ← hb1, hroot4, mapRoot_single false false a b1 e1 R2.2.1 s2 hb1e1 he148]
  dsimp only
  rw [hidem false s2]
  dsimp only
  rw [if_neg (by simp)]
  rw [mapRoot_single true false a b1 e1 R2.2.1 s2 hb1e1 he148]
  dsimp only
  rw [hidem true s2]
  dsimp only
  rw [if_neg (by simp)]

def c6first : Bool × PTable × MMState :=
  identityMap 0 4096 Mode.R freshTable { pool := 4, trace := [] }

def c6second : Bool × PTable × MMState :=
  identityMap 0 4096 Mode.R c6first.2.1 c6first.2.2

/-- C6 counterexample to the unqualified claim: mapping one page readable twice
from the fresh table leaves the table and the pool unchanged on the second
call, but the second call's trace grows by a TLB invalidation of the rounded
range, so the second call is not free of TLB invalidations. -/
theorem identity_map_second_tlb :
    c6first.1 = true ∧ c6second.1 = true ∧
    c6second.2.1 = c6first.2.1 ∧
    c6second.2.2.pool = c6first.2.2.pool ∧
    c6second.2.2.trace = c6first.2.2.trace ++ [Event.tlb 0 4096] ∧
    c6second.2.2.trace.length ≠ c6first.2.2.trace.length :=
  ⟨by decide, by decide, rfl, by decide, rfl, by decide⟩

/-- Witness for the amended C6 theorem at a concrete successful map. -/
theorem identity_map_idempotent_witness :
    (identityMap 0 4096 Mode.R freshTable { pool := 4, trace := [] }).1 = true ∧
    identityMap 0 4096 Mode.R
        (identityMap 0 4096 Mode.R freshTable { pool := 4, trace := [] }).2.1
        { pool := 0, trace := [] } =
      (true, (identityMap 0 4096 Mode.R freshTable { pool := 4, trace := [] }).2.1,
        MMState.emit { pool := 0, trace := [] }
          (.tlb (clearPa 0) (min (addr.round_up_to_page 4096)
            (stage2RootCount * addr.entry_size (stage2MaxLevel + 1))))) :=
  ⟨by decide,
    identity_map_idempotent 0 4096 Mode.R freshTable
      { pool := 4, trace := [] } { pool := 0, trace := [] }
      (by decide) (by decide) (by decide) (by decide)⟩




/-!
## Two-pass atomicity: views, pass-1 safety and pass-2 success
-/

theorem entryView_absent (l V : Nat) : entryView l PTE.absent V = none := by
  cases l <;> rfl

theorem entryView_succ_table (level : Nat) (c : List PTE) (V : Nat) :
    entryView (level + 1) (PTE.table c) V = leafView level c V := rfl

/-- The walk's success flag and state depend only on the entries from the index
of its begin address. -/
theorem mapLevel_fst_congr (c u : Bool) (a : Attrs) (l b e : Nat)
    (t t' : List PTE) (s : MMState)
    (h : t.drop (addr.index b l) = t'.drop (addr.index b l)) :
    (mapLevel c u a l b e t s).1 = (mapLevel c u a l b e t' s).1 := by
  rw [mapLevel_eq, mapLevel_eq, h]

/-- A successful populate does not change how the slot translates any address:
an existing table is kept, a block is split into an equivalent table of
finer blocks, and an absent entry becomes a table of absent entries. -/
theorem populateTable_view (lv : Nat) (p : PTE) (bg : Nat) (s : MMState)
    (hok : (populateTable p bg (lv + 1) s).1 = true) :
    ∀ V, entryView (lv + 1) (populateTable p bg (lv + 1) s).2.1 V =
      entryView (lv + 1) p V := by
  intro V
  obtain ⟨ch, hch, hcase⟩ := populateTable_ok p bg (lv + 1) s hok
  rw [hch]
  rcases hcase with rfl | ⟨hnt, rfl⟩
  · rfl
  · cases p with
    | table c =>
      rw [PTE.is_table] at hnt
      simp at hnt
    | absent =>
      rw [entryView_succ_table, entryView_absent, leafView]
      have habs : ∀ i, (populateChildren PTE.absent (lv + 1)).getD i PTE.absent =
          PTE.absent := by
        intro i
        unfold populateChildren
        rw [show (PTE.absent.is_block : Bool) = false from rfl]
        simp only [Bool.false_eq_true, if_false]
        rw [List.getD_eq_getElem?_getD, List.getElem?_replicate]
        by_cases hi : i < PTE_PER_PAGE <;> simp [hi]
      rw [habs, entryView_absent]
    | block oa aa =>
      rw [entryView_succ_table, leafView]
      have hidx : addr.index V lv < PTE_PER_PAGE := index_lt_pte V lv
      have hget : (populateChildren (PTE.block oa aa) (lv + 1)).getD
          (addr.index V lv) PTE.absent =
          PTE.block (oa + addr.index V lv * addr.entry_size lv) aa := by
        unfold populateChildren
        rw [show ((PTE.block oa aa).is_block : Bool) = true from rfl]
        simp only [if_true]
        rw [List.getD_eq_getElem?_getD, List.getElem?_map, List.getElem?_range hidx]
        rfl
      rw [hget, entryView_block, entryView_block]
      have := index_mul_add_mod V lv
      show some (oa + addr.index V lv * addr.entry_size lv + V % addr.entry_size lv, aa) =
        some (oa + V % addr.entry_size (lv + 1), aa)
      congr 2
      omega

/-- The descend branch of an uncommitted walk does not change how the slot
translates any address, given that the recursion one level below does not. -/
theorem descendStep_view (u : Bool) (a : Attrs) (lv : Nat) (e : Nat)
    (hrecView : ∀ b ch s, ch.length = PTE_PER_PAGE →
      (∀ q ∈ ch, entryWF lv q = true) →
      ∀ V, leafView lv (mapLevel false u a lv b e ch s).2.1 V = leafView lv ch V)
    (b2 : Nat) (p : PTE) (s2 : MMState)
    (hWF : entryWF (lv + 1) p = true) :
    ∀ V, entryView (lv + 1) (levelDescend false u a e (lv + 1) b2 p s2).2.1 V =
      entryView (lv + 1) p V := by
  intro V
  show entryView (lv + 1) (descendStep false u (lv + 1)
      (fun b3 ch s3 => mapLevel false u a lv b3 e ch s3) b2 p s2).2.1 V = _
  by_cases hpop : (populateTable p b2 (lv + 1) s2).1 = true
  · obtain ⟨ch, hch, hlen, hwf⟩ := populateTable_ok_wf lv p b2 s2 hWF hpop
    have hpview := populateTable_view lv p b2 s2 hpop
    rw [hch] at hpview
    simp only [descendStep, hpop, hch, Bool.not_true, Bool.false_eq_true, if_false,
      Bool.false_and, Bool.and_false]
    set R := mapLevel false u a lv b2 e ch (populateTable p b2 (lv + 1) s2).2.2 with hR
    have hview2 : entryView (lv + 1) (PTE.table R.2.1) V = entryView (lv + 1) p V := by
      rw [entryView_succ_table, ← hpview V, entryView_succ_table]
      exact hrecView b2 ch _ hlen hwf V
    by_cases hR1 : R.1 = true
    · simp only [hR1, Bool.not_true, Bool.false_eq_true, if_false]
      exact hview2
    · rw [Bool.not_eq_true] at hR1
      simp only [hR1, Bool.not_false, if_true]
      exact hview2
  · rw [Bool.not_eq_true] at hpop
    have hfail := populateTable_fail p b2 (lv + 1) s2 hpop
    simp only [descendStep, hfail, Bool.not_false, if_true]

/-- An uncommitted walk does not change how the table translates any address,
given descend branches that preserve shape and views. -/
theorem mapLevel_view_aux (u : Bool) (a : Attrs) (l : Nat)
    (hl : PAGE_BITS + (l + 1) * PAGE_LEVEL_BITS ≤ 62)
    (hdescWF : ∀ e b2 p s2, e ≤ 2 ^ 62 → entryWF l p = true →
      entryWF l (levelDescend false u a e l b2 p s2).2.1 = true)
    (hdescView : ∀ e b2 p s2, e ≤ 2 ^ 62 → entryWF l p = true →
      ∀ V, entryView l (levelDescend false u a e l b2 p s2).2.1 V =
        entryView l p V) :
    ∀ n b e t s, min e (addr.level_end b l) - b ≤ n →
      t.length = PTE_PER_PAGE → e ≤ 2 ^ 62 →
      (∀ p ∈ t, entryWF l p = true) →
      ∀ V, leafView l (mapLevel false u a l b e t s).2.1 V = leafView l t V := by
  intro n
  induction n with
  | zero =>
    intro b e t s hn hT he hWF V
    by_cases hbe : e ≤ b
    · rw [mapLevel_of_ge false u a l b e t s hbe]
    · exfalso
      have hb : b < e := Nat.lt_of_not_le hbe
      have hmono : l * PAGE_LEVEL_BITS ≤ (l + 1) * PAGE_LEVEL_BITS :=
        Nat.mul_le_mul_right _ (Nat.le_succ l)
      have hlvl64 : PAGE_BITS + (l + 1) * PAGE_LEVEL_BITS ≤ 64 := by omega
      have hPsmall : addr.entry_size (l + 1) ≤ 2 ^ 62 := by
        rw [entry_size_eq]
        exact Nat.pow_le_pow_right (by decide) hl
      have hbw : b + addr.entry_size (l + 1) < USIZE := by
        show b + addr.entry_size (l + 1) < 2 ^ 64
        have h2 : (2 : Nat) ^ 62 + 2 ^ 62 < 2 ^ 64 := by decide
        omega
      have hlt : b < addr.level_end b l := lt_level_end b l hlvl64 hbw
      have hcap : b < min e (addr.level_end b l) := lt_min hb hlt
      omega
  | succ n ihn =>
    intro b e t s hn hT he hWF V
    by_cases hbe : e ≤ b
    · rw [mapLevel_of_ge false u a l b e t s hbe]
    have hb : b < e := Nat.lt_of_not_le hbe
    have hmono : l * PAGE_LEVEL_BITS ≤ (l + 1) * PAGE_LEVEL_BITS :=
      Nat.mul_le_mul_right _ (Nat.le_succ l)
    have hlvl64 : PAGE_BITS + (l + 1) * PAGE_LEVEL_BITS ≤ 64 := by omega
    have hPsmall : addr.entry_size (l + 1) ≤ 2 ^ 62 := by
      rw [entry_size_eq]
      exact Nat.pow_le_pow_right (by decide) hl
    have hbw : b + addr.entry_size (l + 1) < USIZE := by
      show b + addr.entry_size (l + 1) < 2 ^ 64
      have h2 : (2 : Nat) ^ 62 + 2 ^ 62 < 2 ^ 64 := by decide
      omega
    have hstep := mapLevel_step false u a l b e t s hl hT he hb
    simp only [] at hstep
    have hidxlt : addr.index b l < t.length := by rw [hT]; exact index_lt_pte b l
    have hmem : t.getD (addr.index b l) PTE.absent ∈ t := by
      rw [List.getD_eq_getElem?_getD, List.getElem?_eq_getElem hidxlt]
      exact List.getElem_mem hidxlt
    have hWFp := hWF _ hmem
    set r := entryStep false u a e l (levelDescend false u a e l)
      (t.getD (addr.index b l) PTE.absent) b s with hr
    have hq : entryWF l r.2.1 = true ∧
        ∀ W, entryView l r.2.1 W = entryView l (t.getD (addr.index b l) PTE.absent) W := by
      rcases entryStep_cases false u a e l (levelDescend false u a e l)
          (t.getD (addr.index b l) PTE.absent) b s with
        ⟨heq, _⟩ | ⟨hc, _, _, _, _, _, heq⟩ | ⟨_, _, _, heq⟩
      · rw [hr, heq]
        exact ⟨hWFp, fun W => rfl⟩
      · cases hc
      · rw [hr, heq]
        exact ⟨hdescWF e b _ s he hWFp, hdescView e b _ s he hWFp⟩
    set t1 := t.set (addr.index b l) r.2.1 with ht1
    have ht1len : t1.length = PTE_PER_PAGE := by rw [ht1, List.length_set, hT]
    have ht1wf : ∀ p ∈ t1, entryWF l p = true := all_set_of t _ _ hq.1 hWF
    have ht1view : ∀ W, leafView l t1 W = leafView l t W := by
      intro W
      unfold leafView
      by_cases hidxW : addr.index W l = addr.index b l
      · rw [hidxW, ht1, getD_set_eq t _ _ hidxlt]
        exact hq.2 W
      · rw [ht1, List.getD_eq_getElem?_getD,
          List.getElem?_set_ne (fun hh => hidxW (hh.symm)),
          ← List.getD_eq_getElem?_getD]
    rw [hstep]
    by_cases hr1 : r.1 = true
    · rw [if_pos hr1]
      by_cases hsplit : (b / addr.entry_size l + 1) * addr.entry_size l <
          min e (addr.level_end b l)
      · rw [if_pos hsplit]
        have hb'w : (b / addr.entry_size l + 1) * addr.entry_size l +
            addr.entry_size (l + 1) < USIZE := by
          show _ + addr.entry_size (l + 1) < 2 ^ 64
          have h2 : (2 : Nat) ^ 62 + 2 ^ 62 + 2 ^ 62 < 2 ^ 64 := by decide
          have : min e (addr.level_end b l) ≤ e := min_le_left _ _
          omega
        obtain ⟨hidx', hle'⟩ := index_next_block b l hlvl64 hbw hb'w (by omega)
        rw [ihn _ e t1 r.2.2 (by rw [hle']; have := lt_next_block b l; omega)
          ht1len he ht1wf V]
        exact ht1view V
      · rw [if_neg hsplit]
        exact ht1view V
    · rw [if_neg hr1]
      exact ht1view V

/-- An uncommitted identity_update walk (pass 1) does not change how the table
translates any address, at every level. -/
theorem mapLevel_view (u : Bool) (a : Attrs) :
    ∀ l, PAGE_BITS + (l + 1) * PAGE_LEVEL_BITS ≤ 62 →
      ∀ b e t s, t.length = PTE_PER_PAGE → e ≤ 2 ^ 62 →
        (∀ p ∈ t, entryWF l p = true) →
        ∀ V, leafView l (mapLevel false u a l b e t s).2.1 V = leafView l t V := by
  intro l
  induction l with
  | zero =>
    intro hl b e t s hT he hWF
    exact mapLevel_view_aux u a 0 hl
      (fun e b2 p s2 hes hw => hw)
      (fun e b2 p s2 hes hw V => rfl)
      (min e (addr.level_end b 0) - b) b e t s (le_refl _) hT he hWF
  | succ lv ihl =>
    intro hl b e t s hT he hWF
    have hl' : PAGE_BITS + (lv + 1) * PAGE_LEVEL_BITS ≤ 62 := by
      have hmono : (lv + 1) * PAGE_LEVEL_BITS ≤ (lv + 1 + 1) * PAGE_LEVEL_BITS :=
        Nat.mul_le_mul_right _ (Nat.le_succ _)
      omega
    exact mapLevel_view_aux u a (lv + 1) hl
      (fun e b2 p s2 hes hw =>
        descendStep_presWF false u a lv e
          (fun b3 ch s3 hlen hwf =>
            mapLevel_presWF false u a lv hl' b3 e ch s3 hlen hes hwf)
          b2 p s2 hw)
      (fun e b2 p s2 hes hw =>
        descendStep_view u a lv e
          (fun b3 ch s3 hlen hwf =>
            ihl hl' b3 e ch s3 hlen hes hwf)
          b2 p s2 hw)
      (min e (addr.level_end b (lv + 1)) - b) b e t s (le_refl _) hT he hWF


/-- After a successful uncommitted descend, the committed descend on its result
succeeds from any state: the subtable is already populated, so no allocation is
needed, given that the recursion one level below has the same property. -/
theorem descendStep_commit_ok (u : Bool) (a : Attrs) (lv : Nat) (e : Nat)
    (hrecCO : ∀ b ch s, ch.length = PTE_PER_PAGE →
      (∀ q ∈ ch, entryWF lv q = true) →
      (mapLevel false u a lv b e ch s).1 = true →
      ∀ s3, (mapLevel true u a lv b e (mapLevel false u a lv b e ch s).2.1 s3).1 = true)
    (b2 : Nat) (p : PTE) (s2 : MMState)
    (hWF : entryWF (lv + 1) p = true)
    (hok : (levelDescend false u a e (lv + 1) b2 p s2).1 = true) :
    ∀ s3, (levelDescend true u a e (lv + 1) b2
      (levelDescend false u a e (lv + 1) b2 p s2).2.1 s3).1 = true := by
  intro s3
  show (descendStep true u (lv + 1)
      (fun b3 ch s5 => mapLevel true u a lv b3 e ch s5) b2
      (descendStep false u (lv + 1)
        (fun b3 ch s5 => mapLevel false u a lv b3 e ch s5) b2 p s2).2.1 s3).1 = true
  have hok' : (descendStep false u (lv + 1)
      (fun b3 ch s5 => mapLevel false u a lv b3 e ch s5) b2 p s2).1 = true := hok
  by_cases hpop : (populateTable p b2 (lv + 1) s2).1 = true
  · obtain ⟨ch, hch, hlen, hwf⟩ := populateTable_ok_wf lv p b2 s2 hWF hpop
    simp only [descendStep, hpop, hch, Bool.not_true, Bool.false_eq_true, if_false,
      Bool.false_and, Bool.and_false] at hok' ⊢
    set R := mapLevel false u a lv b2 e ch (populateTable p b2 (lv + 1) s2).2.2 with hR
    have hR1 : R.1 = true := by
      by_contra hR1
      rw [Bool.not_eq_true] at hR1
      simp only [hR1, Bool.not_false, if_true] at hok'
      cases hok'
    simp only [hR1, Bool.not_true, Bool.false_eq_true, if_false]
    -- the committed descend on the populated table
    have hpop2 : populateTable (PTE.table R.2.1) b2 (lv + 1) s3 =
        (true, PTE.table R.2.1, s3) := by
      rw [populateTable_eq, if_pos (by rw [PTE.is_table]; simp)]
    simp only [descendStep, hpop2, Bool.not_true, Bool.false_eq_true, if_false]
    rw [hR] at hR1
    have h5 := hrecCO b2 ch (populateTable p b2 (lv + 1) s2).2.2 hlen hwf hR1 s3
    rw [← hR] at h5
    by_cases hR2 : (mapLevel true u a lv b2 e R.2.1 s3).1 = true
    · simp only [hR2, Bool.not_true, Bool.false_eq_true, if_false]
      by_cases hcoll : (true && u &&
          tableEmpty (mapLevel true u a lv b2 e R.2.1 s3).2.1) = true
      · rw [if_pos hcoll]
      · rw [if_neg hcoll]
    · exact absurd h5 hR2
  · rw [Bool.not_eq_true] at hpop
    have hfail := populateTable_fail p b2 (lv + 1) s2 hpop
    simp only [descendStep, hfail, Bool.not_false, if_true] at hok'
    cases hok'

/-- After a successful uncommitted walk, the committed walk over its result
succeeds from any state, given a descend branch with the same property. -/
theorem mapLevel_commit_ok_aux (u : Bool) (a : Attrs) (l : Nat)
    (hl : PAGE_BITS + (l + 1) * PAGE_LEVEL_BITS ≤ 62)
    (hdescWF : ∀ e b2 p s2, e ≤ 2 ^ 62 → entryWF l p = true →
      entryWF l (levelDescend false u a e l b2 p s2).2.1 = true)
    (hdescCO : ∀ e b2 p s2, e ≤ 2 ^ 62 → entryWF l p = true →
      (levelDescend false u a e l b2 p s2).1 = true →
      ∀ s3, (levelDescend true u a e l b2
        (levelDescend false u a e l b2 p s2).2.1 s3).1 = true) :
    ∀ n b e t s, min e (addr.level_end b l) - b ≤ n →
      t.length = PTE_PER_PAGE → e ≤ 2 ^ 62 →
      (∀ p ∈ t, entryWF l p = true) →
      (mapLevel false u a l b e t s).1 = true →
      ∀ s', (mapLevel true u a l b e (mapLevel false u a l b e t s).2.1 s').1 = true := by
  intro n
  induction n with
  | zero =>
    intro b e t s hn hT he hWF hok s'
    by_cases hbe : e ≤ b
    · rw [mapLevel_of_ge false u a l b e t s hbe]
      rw [mapLevel_of_ge true u a l b e t s' hbe]
    · exfalso
      have hb : b < e := Nat.lt_of_not_le hbe
      have hmono : l * PAGE_LEVEL_BITS ≤ (l + 1) * PAGE_LEVEL_BITS :=
        Nat.mul_le_mul_right _ (Nat.le_succ l)
      have hlvl64 : PAGE_BITS + (l + 1) * PAGE_LEVEL_BITS ≤ 64 := by omega
      have hPsmall : addr.entry_size (l + 1) ≤ 2 ^ 62 := by
        rw [entry_size_eq]
        exact Nat.pow_le_pow_right (by decide) hl
      have hbw : b + addr.entry_size (l + 1) < USIZE := by
        show b + addr.entry_size (l + 1) < 2 ^ 64
        have h2 : (2 : Nat) ^ 62 + 2 ^ 62 < 2 ^ 64 := by decide
        omega
      have hlt : b < addr.level_end b l := lt_level_end b l hlvl64 hbw
      have hcap : b < min e (addr.level_end b l) := lt_min hb hlt
      omega
  | succ n ihn =>
    intro b e t s hn hT he hWF hok s'
    by_cases hbe : e ≤ b
    · rw [mapLevel_of_ge false u a l b e t s hbe]
      rw [mapLevel_of_ge true u a l b e t s' hbe]
    have hb : b < e := Nat.lt_of_not_le hbe
    have hmono : l * PAGE_LEVEL_BITS ≤ (l + 1) * PAGE_LEVEL_BITS :=
      Nat.mul_le_mul_right _ (Nat.le_succ l)
    have hlvl64 : PAGE_BITS + (l + 1) * PAGE_LEVEL_BITS ≤ 64 := by omega
    have hPsmall : addr.entry_size (l + 1) ≤ 2 ^ 62 := by
      rw [entry_size_eq]
      exact Nat.pow_le_pow_right (by decide) hl
    have hbw : b + addr.entry_size (l + 1) < USIZE := by
      show b + addr.entry_size (l + 1) < 2 ^ 64
      have h2 : (2 : Nat) ^ 62 + 2 ^ 62 < 2 ^ 64 := by decide
      omega
    have hstep := mapLevel_step false u a l b e t s hl hT he hb
    simp only [] at hstep
    have hidxlt : addr.index b l < t.length := by rw [hT]; exact index_lt_pte b l
    have hmem : t.getD (addr.index b l) PTE.absent ∈ t := by
      rw [List.getD_eq_getElem?_getD, List.getElem?_eq_getElem hidxlt]
      exact List.getElem_mem hidxlt
    have hWFp := hWF _ hmem
    set r := entryStep false u a e l (levelDescend false u a e l)
      (t.getD (addr.index b l) PTE.absent) b s with hr
    have hr1 : r.1 = true := by
      by_contra hr1
      rw [Bool.not_eq_true] at hr1
      rw [hstep, if_neg (by rw [hr1]; exact Bool.false_ne_true)] at hok
      cases hok
    -- the committed step on the chunk result succeeds
    have hq : entryWF l r.2.1 = true ∧
        ∀ s4, (entryStep true u a e l (levelDescend true u a e l) r.2.1 b s4).1 = true := by
      rcases entryStep_cases false u a e l (levelDescend false u a e l)
          (t.getD (addr.index b l) PTE.absent) b s with
        ⟨heq, hcond⟩ | ⟨hc, _, _, _, _, _, heq⟩ | ⟨_, _, _, heq⟩
      · rw [hr, heq]
        refine ⟨hWFp, ?_⟩
        intro s4
        rcases entryStep_cases true u a e l (levelDescend true u a e l)
            (t.getD (addr.index b l) PTE.absent) b s4 with
          ⟨heq2, _⟩ | ⟨_, _, _, _, _, _, heq2⟩ | ⟨hc1', hc2', hnw', heq2⟩
        · rw [heq2]
        · rw [heq2]
        · exfalso
          rcases hcond with hcond | hcond | hcond
          · rw [hcond] at hc1'
            cases hc1'
          · rw [hcond] at hc2'
            cases hc2'
          · exact hnw' ⟨hcond.2.1, hcond.2.2.1, hcond.2.2.2⟩
      · cases hc
      · have hokd : (levelDescend false u a e l b
            (t.getD (addr.index b l) PTE.absent) s).1 = true := by
          rw [hr, heq] at hr1
          exact hr1
        rw [hr, heq]
        refine ⟨hdescWF e b _ s he hWFp, ?_⟩
        intro s4
        rcases entryStep_cases true u a e l (levelDescend true u a e l)
            (levelDescend false u a e l b
              (t.getD (addr.index b l) PTE.absent) s).2.1 b s4 with
          ⟨heq2, _⟩ | ⟨_, _, _, _, _, _, heq2⟩ | ⟨_, _, _, heq2⟩
        · rw [heq2]
        · rw [heq2]
        · rw [heq2]
          exact hdescCO e b _ s he hWFp hokd s4
    set t1 := t.set (addr.index b l) r.2.1 with ht1
    have ht1len : t1.length = PTE_PER_PAGE := by rw [ht1, List.length_set, hT]
    have ht1wf : ∀ p ∈ t1, entryWF l p = true := all_set_of t _ _ hq.1 hWF
    by_cases hsplit : (b / addr.entry_size l + 1) * addr.entry_size l <
        min e (addr.level_end b l)
    · have hb'w : (b / addr.entry_size l + 1) * addr.entry_size l +
          addr.entry_size (l + 1) < USIZE := by
        show _ + addr.entry_size (l + 1) < 2 ^ 64
        have h2 : (2 : Nat) ^ 62 + 2 ^ 62 + 2 ^ 62 < 2 ^ 64 := by decide
        have : min e (addr.level_end b l) ≤ e := min_le_left _ _
        omega
      obtain ⟨hidx', hle'⟩ := index_next_block b l hlvl64 hbw hb'w (by omega)
      have hT1 : (mapLevel false u a l b e t s).2.1 =
          (mapLevel false u a l
            ((b / addr.entry_size l + 1) * addr.entry_size l) e t1 r.2.2).2.1 := by
        rw [hstep, if_pos hr1, if_pos hsplit]
      have hok' : (mapLevel false u a l
          ((b / addr.entry_size l + 1) * addr.entry_size l) e t1 r.2.2).1 = true := by
        rw [hstep, if_pos hr1, if_pos hsplit] at hok
        exact hok
      obtain ⟨hT1len, hT1wf⟩ := mapLevel_presWF false u a l hl
        ((b / addr.entry_size l + 1) * addr.entry_size l) e t1 r.2.2 ht1len he ht1wf
      have hT1get : (mapLevel false u a l
          ((b / addr.entry_size l + 1) * addr.entry_size l) e t1 r.2.2).2.1.getD
          (addr.index b l) PTE.absent = r.2.1 := by
        rw [mapLevel_getD_lt false u a l _ e t1 r.2.2 (addr.index b l)
          (by rw [hidx']; omega) (by rw [ht1len]; exact index_lt_pte b l)]
        exact getD_set_eq t _ _ hidxlt
      rw [hT1]
      rw [mapLevel_step true u a l b e _ s' hl hT1len he hb]
      simp only []
      rw [hT1get]
      rw [if_pos (hq.2 s'), if_pos hsplit]
      -- the committed continuation walks the same suffix as the committed run
      -- over the uncommitted result
      have hcg := mapLevel_fst_congr true u a l
        ((b / addr.entry_size l + 1) * addr.entry_size l) e
        ((mapLevel false u a l
          ((b / addr.entry_size l + 1) * addr.entry_size l) e t1 r.2.2).2.1.set
          (addr.index b l)
          (entryStep true u a e l (levelDescend true u a e l) r.2.1 b s').2.1)
        (mapLevel false u a l
          ((b / addr.entry_size l + 1) * addr.entry_size l) e t1 r.2.2).2.1
        (entryStep true u a e l (levelDescend true u a e l) r.2.1 b s').2.2
        (by
          rw [hidx']
          exact List.drop_set_of_lt _ _ (Nat.lt_succ_self _))
      rw [hcg]
      exact ihn _ e t1 r.2.2 (by rw [hle']; have := lt_next_block b l; omega)
        ht1len he ht1wf hok' _
    · have hT1 : (mapLevel false u a l b e t s).2.1 = t1 := by
        rw [hstep, if_pos hr1, if_neg hsplit]
      rw [hT1]
      rw [mapLevel_step true u a l b e t1 s' hl ht1len he hb]
      simp only []
      rw [getD_set_eq t _ _ hidxlt]
      rw [if_pos (hq.2 s'), if_neg hsplit]

/-- After a successful uncommitted walk the committed walk over its result
succeeds from any state, at every level: pass 1 preallocates everything pass 2
needs. -/
theorem mapLevel_commit_ok (u : Bool) (a : Attrs) :
    ∀ l, PAGE_BITS + (l + 1) * PAGE_LEVEL_BITS ≤ 62 →
      ∀ b e t s, t.length = PTE_PER_PAGE → e ≤ 2 ^ 62 →
        (∀ p ∈ t, entryWF l p = true) →
        (mapLevel false u a l b e t s).1 = true →
        ∀ s', (mapLevel true u a l b e (mapLevel false u a l b e t s).2.1 s').1 = true := by
  intro l
  induction l with
  | zero =>
    intro hl b e t s hT he hWF hok
    refine mapLevel_commit_ok_aux u a 0 hl
      (fun e b2 p s2 hes hw => hw)
      (fun e b2 p s2 hes hw hokd => by cases hokd)
      (min e (addr.level_end b 0) - b) b e t s (le_refl _) hT he hWF hok
  | succ lv ihl =>
    intro hl b e t s hT he hWF hok
    have hl' : PAGE_BITS + (lv + 1) * PAGE_LEVEL_BITS ≤ 62 := by
      have hmono : (lv + 1) * PAGE_LEVEL_BITS ≤ (lv + 1 + 1) * PAGE_LEVEL_BITS :=
        Nat.mul_le_mul_right _ (Nat.le_succ _)
      omega
    refine mapLevel_commit_ok_aux u a (lv + 1) hl
      (fun e b2 p s2 hes hw =>
        descendStep_presWF false u a lv e
          (fun b3 ch s3 hlen hwf =>
            mapLevel_presWF false u a lv hl' b3 e ch s3 hlen hes hwf)
          b2 p s2 hw)
      (fun e b2 p s2 hes hw hokd =>
        descendStep_commit_ok u a lv e
          (fun b3 ch s3 hlen hwf hok3 =>
            ihl hl' b3 e ch s3 hlen hes hwf hok3)
          b2 p s2 hw hokd)
      (min e (addr.level_end b (lv + 1)) - b) b e t s (le_refl _) hT he hWF hok


/-- C3: if an identity_update (map or unmap) fails — in this model failure
happens exactly when the pool's alloc fails, or at the unreachable level-0
descend — then the resulting table translates every address exactly as before
the call: pass 1 never commits, and a failure can only happen in pass 1
because pass 1 preallocates every table pass 2 needs.  The residue is at most
extra intermediate tables mapping the same ranges, which the translation view
does not see. -/
theorem identity_update_alloc_fail_view (u : Bool) (a : Attrs) (b e : Nat)
    (pt : PTable) (s : MMState)
    (hpt : pt.length = stage2RootCount)
    (hWF : ∀ t ∈ pt, tableWF stage2MaxLevel t = true)
    (hne : clearPa b < min (addr.round_up_to_page e)
      (stage2RootCount * addr.entry_size (stage2MaxLevel + 1)))
    (hfail : (identityUpdate stage2MaxLevel stage2RootCount u a b e pt s).1 = false) :
    ∀ V, ptableView
        (identityUpdate stage2MaxLevel stage2RootCount u a b e pt s).2.1 V =
      ptableView pt V := by
  obtain ⟨t, rfl⟩ : ∃ t, pt = [t] := by
    cases pt with
    | nil => cases hpt
    | cons t ts =>
      cases ts with
      | nil => exact ⟨t, rfl⟩
      | cons _ _ => cases hpt
  simp only [identityUpdate] at hfail
  set e1 := min (addr.round_up_to_page e)
    (stage2RootCount * addr.entry_size (stage2MaxLevel + 1)) with he1
  set b1 := clearPa b with hb1
  have hb1e1 : b1 < e1 := hne
  have he148 : e1 ≤ 2 ^ 48 := by
    rw [he1]
    have hh : stage2RootCount * addr.entry_size (stage2MaxLevel + 1) = 2 ^ 48 := by decide
    rw [hh]
    exact min_le_right _ _
  have he162 : e1 ≤ 2 ^ 62 := by
    have hh : (2 : Nat) ^ 48 ≤ 2 ^ 62 := by decide
    omega
  have hroot4 : stage2MaxLevel + 1 = 4 := rfl
  have hl3 : PAGE_BITS + (3 + 1) * PAGE_LEVEL_BITS ≤ 62 := by decide
  rw [hroot4, mapRoot_single false u a b1 e1 t s hb1e1 he148] at hfail
  dsimp only at hfail
  have hWFt := hWF t (by simp)
  rw [tableWF, Bool.and_eq_true, decide_eq_true_eq] at hWFt
  obtain ⟨hTlen, hTwf⟩ := hWFt
  rw [List.all_eq_true] at hTwf
  set R1 := mapLevel false u a 3 b1 e1 t s with hR1
  by_cases hok1 : R1.1 = true
  · -- pass 1 succeeded, so pass 2 must succeed too: contradiction
    exfalso
    rw [if_neg (by rw [hok1]; simp)] at hfail
    rw [mapRoot_single true u a b1 e1 R1.2.1 R1.2.2 hb1e1 he148] at hfail
    dsimp only at hfail
    rw [hR1] at hok1
    have hok2 := mapLevel_commit_ok u a 3 hl3 b1 e1 t s hTlen he162 hTwf hok1 R1.2.2
    rw [← hR1] at hok2
    rw [if_neg (by rw [hok2]; simp)] at hfail
    cases hfail
  · rw [Bool.not_eq_true] at hok1
    have hupd : identityUpdate stage2MaxLevel stage2RootCount u a b e [t] s =
        (false, [R1.2.1], R1.2.2) := by
      simp only [identityUpdate]
      rw [← he1, ← hb1, hroot4, mapRoot_single false u a b1 e1 t s hb1e1 he148]
      dsimp only
      rw [if_pos (by rw [hok1]; simp)]
    rw [hupd]
    intro V
    show ptableView [R1.2.1] V = ptableView [t] V
    unfold ptableView
    by_cases hiv : addr.index V (stage2MaxLevel + 1) = 0
    · rw [hiv]
      show leafView stage2MaxLevel R1.2.1 V = leafView stage2MaxLevel t V
      have hv := mapLevel_view u a 3 hl3 b1 e1 t s hTlen he162 hTwf V
      rw [← hR1] at hv
      exact hv
    · have h1 : ∀ x : List PTE, [x].getD (addr.index V (stage2MaxLevel + 1)) [] =
          ([] : List PTE) := by
        intro x
        rw [List.getD_eq_getElem?_getD, List.getElem?_eq_none
          (by simp only [List.length_singleton]; omega)]
        rfl
      rw [h1, h1]

/-- Witness for C3: mapping one page from the fresh table with an empty pool
fails in pass 1 and leaves the translation of address 0 unchanged. -/
theorem identity_update_alloc_fail_view_witness :
    (identityUpdate stage2MaxLevel stage2RootCount false (modeToAttrs Mode.R) 0 4096
      freshTable { pool := 0, trace := [] }).1 = false ∧
    ptableView (identityUpdate stage2MaxLevel stage2RootCount false (modeToAttrs Mode.R)
      0 4096 freshTable { pool := 0, trace := [] }).2.1 0 = ptableView freshTable 0 :=
  ⟨by decide,
    identity_update_alloc_fail_view false (modeToAttrs Mode.R) 0 4096 freshTable
      { pool := 0, trace := [] } (by decide) (by decide) (by decide) (by decide) 0⟩




/-!
## The identity-mapping invariant of reachable tables
-/

/-- Position-indexed conjunction over the children of a table: child i is
checked at window base + i * esz. -/
def childrenIdent (f : Nat → PTE → Bool) (esz : Nat) : Nat → List PTE → Bool
  | _, [] => true
  | base, p :: ps => f base p && childrenIdent f esz (base + esz) ps

/-- The identity-mapping invariant of one descriptor at the given level,
covering the window starting at base: every block in its subtree outputs the
start of the window it covers. -/
def entryIdent : Nat → Nat → PTE → Bool
  | 0 => fun base p =>
    match p with
    | .block oa _ => decide (oa = base)
    | _ => true
  | l + 1 => fun base p =>
    match p with
    | .block oa _ => decide (oa = base)
    | .table c => childrenIdent (entryIdent l) (addr.entry_size l) base c
    | .absent => true

/-- The descriptor the translation walk stops at for an input address,
together with its level. -/
def leafAt : Nat → PTE → Nat → Nat × PTE
  | 0 => fun p _ => (0, p)
  | l + 1 => fun p V =>
    match p with
    | .table c => leafAt l (c.getD (addr.index V l) .absent) V
    | p => (l + 1, p)

/-- The covering leaf of a whole page table for an input address. -/
def ptableLeafAt (pt : PTable) (V : Nat) : Nat × PTE :=
  leafAt stage2MaxLevel
    ((pt.getD (addr.index V (stage2MaxLevel + 1)) []).getD
      (addr.index V stage2MaxLevel) .absent) V

/-- The tables reachable from a fresh table by the mm operations. -/
inductive Reachable : PTable → Prop where
  | fresh : Reachable freshTable
  | map (b e m : Nat) (s : MMState) {pt : PTable} :
      Reachable pt → Reachable (identityMap b e m pt s).2.1
  | unmap (b e : Nat) (s : MMState) {pt : PTable} :
      Reachable pt → Reachable (tableUnmap b e pt s).2.1
  | defrag (s : MMState) {pt : PTable} :
      Reachable pt → Reachable (tableDefrag pt s).1

theorem entryIdent_block (l base oa : Nat) (a : Attrs) :
    entryIdent l base (PTE.block oa a) = decide (oa = base) := by
  cases l <;> rfl

theorem entryIdent_absent (l base : Nat) :
    entryIdent l base PTE.absent = true := by
  cases l <;> rfl

theorem entryIdent_table (l base : Nat) (c : List PTE) :
    entryIdent (l + 1) base (PTE.table c) =
      childrenIdent (entryIdent l) (addr.entry_size l) base c := rfl

theorem childrenIdent_getD (f : Nat → PTE → Bool) (esz : Nat) :
    ∀ (c : List PTE) (base i : Nat),
      childrenIdent f esz base c = true → i < c.length →
      f (base + i * esz) (c.getD i PTE.absent) = true := by
  intro c
  induction c with
  | nil =>
    intro base i _ hi
    cases hi
  | cons p ps ih =>
    intro base i hci hi
    rw [childrenIdent, Bool.and_eq_true] at hci
    cases i with
    | zero =>
      simp only [Nat.zero_mul, Nat.add_zero, List.getD_cons_zero]
      exact hci.1
    | succ i =>
      rw [List.getD_cons_succ,
        show base + (i + 1) * esz = base + esz + i * esz from by ring]
      exact ih (base + esz) i hci.2 (by simp at hi; omega)

theorem childrenIdent_set (f : Nat → PTE → Bool) (esz : Nat) :
    ∀ (c : List PTE) (base i : Nat) (q : PTE),
      childrenIdent f esz base c = true → f (base + i * esz) q = true →
      childrenIdent f esz base (c.set i q) = true := by
  intro c
  induction c with
  | nil =>
    intro base i q hci _
    exact hci
  | cons p ps ih =>
    intro base i q hci hq
    rw [childrenIdent, Bool.and_eq_true] at hci
    cases i with
    | zero =>
      rw [Nat.zero_mul, Nat.add_zero] at hq
      show childrenIdent f esz base (q :: ps) = true
      rw [childrenIdent, Bool.and_eq_true]
      exact ⟨hq, hci.2⟩
    | succ i =>
      show childrenIdent f esz base (p :: ps.set i q) = true
      rw [childrenIdent, Bool.and_eq_true]
      refine ⟨hci.1, ih (base + esz) i q hci.2 ?_⟩
      rw [show base + esz + i * esz = base + (i + 1) * esz from by ring]
      exact hq

theorem childrenIdent_all (f : Nat → PTE → Bool) (esz : Nat)
    (c : List PTE) (h : ∀ base q, q ∈ c → f base q = true) :
    ∀ base, childrenIdent f esz base c = true := by
  induction c with
  | nil => intro base; rfl
  | cons p ps ih =>
    intro base
    rw [childrenIdent, Bool.and_eq_true]
    exact ⟨h base p (List.mem_cons_self p ps),
      ih (fun b q hq => h b q (List.mem_cons_of_mem p hq)) (base + esz)⟩

theorem childrenIdent_range (lv : Nat) (a : Attrs) (oa : Nat) :
    ∀ (n i0 base : Nat), base = oa + i0 * addr.entry_size lv →
      childrenIdent (entryIdent lv) (addr.entry_size lv) base
        ((List.range' i0 n).map
          (fun i => PTE.block (oa + i * addr.entry_size lv) a)) = true := by
  intro n
  induction n with
  | zero => intro i0 base _; rfl
  | succ n ih =>
    intro i0 base hbase
    rw [List.range'_succ, List.map_cons, childrenIdent, Bool.and_eq_true]
    refine ⟨?_, ?_⟩
    · rw [entryIdent_block, hbase]
      simp
    · refine ih (i0 + 1) _ ?_
      rw [hbase]
      ring

/-- A successful populate of a slot satisfying the identity invariant yields a
child list satisfying it over the same window. -/
theorem populateTable_ident (lv : Nat) (p : PTE) (bg base : Nat) (s : MMState)
    (hWF : entryWF (lv + 1) p = true)
    (hid : entryIdent (lv + 1) base p = true)
    (hok : (populateTable p bg (lv + 1) s).1 = true) :
    ∃ ch, (populateTable p bg (lv + 1) s).2.1 = PTE.table ch ∧
      childrenIdent (entryIdent lv) (addr.entry_size lv) base ch = true := by
  obtain ⟨ch, hch, hcase⟩ := populateTable_ok p bg (lv + 1) s hok
  refine ⟨ch, hch, ?_⟩
  rcases hcase with rfl | ⟨hnt, rfl⟩
  · rw [entryIdent_table] at hid
    exact hid
  · cases p with
    | table c =>
      rw [PTE.is_table] at hnt
      simp at hnt
    | absent =>
      refine childrenIdent_all _ _ _ ?_ base
      intro b2 q hq
      rw [populateChildren_mem_not_block PTE.absent (lv + 1) q rfl hq]
      exact entryIdent_absent lv b2
    | block oa aa =>
      rw [entryIdent_block, decide_eq_true_eq] at hid
      subst hid
      unfold populateChildren
      rw [show ((PTE.block oa aa).is_block : Bool) = true from rfl]
      simp only [if_true]
      show childrenIdent (entryIdent lv) (addr.entry_size lv) oa
        ((List.range PTE_PER_PAGE).map
          (fun i => PTE.block ((PTE.block oa aa).block_addr + i * addr.entry_size (lv + 1 - 1))
            (PTE.block oa aa).attrs)) = true
      rw [show (PTE.block oa aa).block_addr = oa from rfl,
        show (PTE.block oa aa).attrs = aa from rfl,
        show lv + 1 - 1 = lv from rfl, List.range_eq_range']
      exact childrenIdent_range lv aa oa PTE_PER_PAGE 0 oa (by ring)

/-- The window start of the current entry inside its parent window. -/
theorem base_index_eq (b l : Nat) :
    (b / addr.entry_size (l + 1)) * addr.entry_size (l + 1) +
      addr.index b l * addr.entry_size l = (b / addr.entry_size l) * addr.entry_size l := by
  rw [div_esz_succ, entry_size_succ, index_def2]
  have h := Nat.div_add_mod (b / addr.entry_size l) PTE_PER_PAGE
  calc b / addr.entry_size l / PTE_PER_PAGE * (addr.entry_size l * PTE_PER_PAGE) +
        b / addr.entry_size l % PTE_PER_PAGE * addr.entry_size l
      = (PTE_PER_PAGE * (b / addr.entry_size l / PTE_PER_PAGE) +
          b / addr.entry_size l % PTE_PER_PAGE) * addr.entry_size l := by ring
    _ = (b / addr.entry_size l) * addr.entry_size l := by rw [h]

/-- An aligned address is the start of its own window. -/
theorem aligned_eq_div_mul (b l : Nat) (h : b &&& (addr.entry_size l - 1) = 0) :
    b = (b / addr.entry_size l) * addr.entry_size l := by
  rw [entry_size_eq] at h ⊢
  rw [Nat.and_pow_two_sub_one_eq_mod] at h
  have h1 := Nat.div_add_mod b (2 ^ (PAGE_BITS + l * PAGE_LEVEL_BITS))
  have h2 : 2 ^ (PAGE_BITS + l * PAGE_LEVEL_BITS) *
      (b / 2 ^ (PAGE_BITS + l * PAGE_LEVEL_BITS)) =
      b / 2 ^ (PAGE_BITS + l * PAGE_LEVEL_BITS) *
        2 ^ (PAGE_BITS + l * PAGE_LEVEL_BITS) := Nat.mul_comm _ _
  omega


/-- The descend branch of the map walk preserves the identity invariant of the
slot over its window, given that the recursion one level below does. -/
theorem descendStep_ident (c u : Bool) (a : Attrs) (lv : Nat) (e : Nat)
    (hrec : ∀ b ch s, ch.length = PTE_PER_PAGE →
      (∀ q ∈ ch, entryWF lv q = true) →
      childrenIdent (entryIdent lv) (addr.entry_size lv)
        ((b / addr.entry_size (lv + 1)) * addr.entry_size (lv + 1)) ch = true →
      childrenIdent (entryIdent lv) (addr.entry_size lv)
        ((b / addr.entry_size (lv + 1)) * addr.entry_size (lv + 1))
        (mapLevel c u a lv b e ch s).2.1 = true)
    (b2 : Nat) (p : PTE) (s2 : MMState)
    (hWF : entryWF (lv + 1) p = true)
    (hid : entryIdent (lv + 1)
      ((b2 / addr.entry_size (lv + 1)) * addr.entry_size (lv + 1)) p = true) :
    entryIdent (lv + 1) ((b2 / addr.entry_size (lv + 1)) * addr.entry_size (lv + 1))
      (levelDescend c u a e (lv + 1) b2 p s2).2.1 = true := by
  show entryIdent (lv + 1) _ (descendStep c u (lv + 1)
      (fun b3 ch s3 => mapLevel c u a lv b3 e ch s3) b2 p s2).2.1 = true
  by_cases hpop : (populateTable p b2 (lv + 1) s2).1 = true
  · obtain ⟨ch, hch, hlen, hwf⟩ := populateTable_ok_wf lv p b2 s2 hWF hpop
    obtain ⟨ch2, hch2, hid2⟩ := populateTable_ident lv p b2
      ((b2 / addr.entry_size (lv + 1)) * addr.entry_size (lv + 1)) s2 hWF hid hpop
    rw [hch] at hch2
    injection hch2 with hch2
    subst hch2
    simp only [descendStep, hpop, hch, Bool.not_true, Bool.false_eq_true, if_false]
    set R := mapLevel c u a lv b2 e ch (populateTable p b2 (lv + 1) s2).2.2 with hR
    have hRid := hrec b2 ch (populateTable p b2 (lv + 1) s2).2.2 hlen hwf hid2
    rw [← hR] at hRid
    by_cases hR1 : R.1 = true
    · simp only [hR1, Bool.not_true, Bool.false_eq_true, if_false]
      by_cases hcoll : (c && u && tableEmpty R.2.1) = true
      · rw [if_pos hcoll, pteReplace_fst]
        exact entryIdent_absent (lv + 1) _
      · rw [if_neg hcoll]
        rw [entryIdent_table]
        exact hRid
    · rw [Bool.not_eq_true] at hR1
      simp only [hR1, Bool.not_false, if_true]
      rw [entryIdent_table]
      exact hRid
  · rw [Bool.not_eq_true] at hpop
    have hfail := populateTable_fail p b2 (lv + 1) s2 hpop
    simp only [descendStep, hfail, Bool.not_false, if_true]
    exact hid

/-- One level of the map walk preserves the identity invariant of the table
over the window of its begin address. -/
theorem mapLevel_ident_aux (c u : Bool) (a : Attrs) (l : Nat)
    (hl : PAGE_BITS + (l + 1) * PAGE_LEVEL_BITS ≤ 62)
    (hdescWF : ∀ e b2 p s2, e ≤ 2 ^ 62 → entryWF l p = true →
      entryWF l (levelDescend c u a e l b2 p s2).2.1 = true)
    (hdescIdent : ∀ e b2 p s2, e ≤ 2 ^ 62 → entryWF l p = true →
      entryIdent l ((b2 / addr.entry_size l) * addr.entry_size l) p = true →
      entryIdent l ((b2 / addr.entry_size l) * addr.entry_size l)
        (levelDescend c u a e l b2 p s2).2.1 = true) :
    ∀ n b e t s, min e (addr.level_end b l) - b ≤ n →
      t.length = PTE_PER_PAGE → e ≤ 2 ^ 62 →
      (∀ p ∈ t, entryWF l p = true) →
      childrenIdent (entryIdent l) (addr.entry_size l)
        ((b / addr.entry_size (l + 1)) * addr.entry_size (l + 1)) t = true →
      childrenIdent (entryIdent l) (addr.entry_size l)
        ((b / addr.entry_size (l + 1)) * addr.entry_size (l + 1))
        (mapLevel c u a l b e t s).2.1 = true := by
  intro n
  induction n with
  | zero =>
    intro b e t s hn hT he hWF hid
    by_cases hbe : e ≤ b
    · rw [mapLevel_of_ge c u a l b e t s hbe]
      exact hid
    · exfalso
      have hb : b < e := Nat.lt_of_not_le hbe
      have hmono : l * PAGE_LEVEL_BITS ≤ (l + 1) * PAGE_LEVEL_BITS :=
        Nat.mul_le_mul_right _ (Nat.le_succ l)
      have hlvl64 : PAGE_BITS + (l + 1) * PAGE_LEVEL_BITS ≤ 64 := by omega
      have hPsmall : addr.entry_size (l + 1) ≤ 2 ^ 62 := by
        rw [entry_size_eq]
        exact Nat.pow_le_pow_right (by decide) hl
      have hbw : b + addr.entry_size (l + 1) < USIZE := by
        show b + addr.entry_size (l + 1) < 2 ^ 64
        have h2 : (2 : Nat) ^ 62 + 2 ^ 62 < 2 ^ 64 := by decide
        omega
      have hlt : b < addr.level_end b l := lt_level_end b l hlvl64 hbw
      have hcap : b < min e (addr.level_end b l) := lt_min hb hlt
      omega
  | succ n ihn =>
    intro b e t s hn hT he hWF hid
    by_cases hbe : e ≤ b
    · rw [mapLevel_of_ge c u a l b e t s hbe]
      exact hid
    have hb : b < e := Nat.lt_of_not_le hbe
    have hmono : l * PAGE_LEVEL_BITS ≤ (l + 1) * PAGE_LEVEL_BITS :=
      Nat.mul_le_mul_right _ (Nat.le_succ l)
    have hlvl64 : PAGE_BITS + (l + 1) * PAGE_LEVEL_BITS ≤ 64 := by omega
    have hPsmall : addr.entry_size (l + 1) ≤ 2 ^ 62 := by
      rw [entry_size_eq]
      exact Nat.pow_le_pow_right (by decide) hl
    have hbw : b + addr.entry_size (l + 1) < USIZE := by
      show b + addr.entry_size (l + 1) < 2 ^ 64
      have h2 : (2 : Nat) ^ 62 + 2 ^ 62 < 2 ^ 64 := by decide
      omega
    have hstep := mapLevel_step c u a l b e t s hl hT he hb
    simp only [] at hstep
    have hidxlt : addr.index b l < t.length := by rw [hT]; exact index_lt_pte b l
    have hmem : t.getD (addr.index b l) PTE.absent ∈ t := by
      rw [List.getD_eq_getElem?_getD, List.getElem?_eq_getElem hidxlt]
      exact List.getElem_mem hidxlt
    have hWFp := hWF _ hmem
    have hidp : entryIdent l ((b / addr.entry_size (l + 1)) * addr.entry_size (l + 1) +
        addr.index b l * addr.entry_size l) (t.getD (addr.index b l) PTE.absent) = true :=
      childrenIdent_getD (entryIdent l) (addr.entry_size l) t _ _ hid hidxlt
    rw [base_index_eq] at hidp
    set r := entryStep c u a e l (levelDescend c u a e l)
      (t.getD (addr.index b l) PTE.absent) b s with hr
    have hq : entryWF l r.2.1 = true ∧
        entryIdent l ((b / addr.entry_size l) * addr.entry_size l) r.2.1 = true := by
      rcases entryStep_cases c u a e l (levelDescend c u a e l)
          (t.getD (addr.index b l) PTE.absent) b s with
        ⟨heq, _⟩ | ⟨_, _, _, _, _, h3c, heq⟩ | ⟨_, _, _, heq⟩
      · rw [hr, heq]
        exact ⟨hWFp, hidp⟩
      · rw [hr, heq]
        cases hu : u with
        | true =>
          simp only [if_pos rfl]
          exact ⟨entryWF_absent l, entryIdent_absent l _⟩
        | false =>
          simp only [Bool.false_eq_true, if_false]
          refine ⟨entryWF_block l b a, ?_⟩
          rw [entryIdent_block, decide_eq_true_eq]
          exact aligned_eq_div_mul b l h3c
      · rw [hr, heq]
        exact ⟨hdescWF e b _ s he hWFp, hdescIdent e b _ s he hWFp hidp⟩
    set t1 := t.set (addr.index b l) r.2.1 with ht1
    have ht1len : t1.length = PTE_PER_PAGE := by rw [ht1, List.length_set, hT]
    have ht1wf : ∀ p ∈ t1, entryWF l p = true := all_set_of t _ _ hq.1 hWF
    have ht1id : childrenIdent (entryIdent l) (addr.entry_size l)
        ((b / addr.entry_size (l + 1)) * addr.entry_size (l + 1)) t1 = true := by
      refine childrenIdent_set (entryIdent l) (addr.entry_size l) t _ _ _ hid ?_
      rw [base_index_eq]
      exact hq.2
    rw [hstep]
    by_cases hr1 : r.1 = true
    · rw [if_pos hr1]
      by_cases hsplit : (b / addr.entry_size l + 1) * addr.entry_size l <
          min e (addr.level_end b l)
      · rw [if_pos hsplit]
        have hb'w : (b / addr.entry_size l + 1) * addr.entry_size l +
            addr.entry_size (l + 1) < USIZE := by
          show _ + addr.entry_size (l + 1) < 2 ^ 64
          have h2 : (2 : Nat) ^ 62 + 2 ^ 62 + 2 ^ 62 < 2 ^ 64 := by decide
          have : min e (addr.level_end b l) ≤ e := min_le_left _ _
          omega
        obtain ⟨hidx', hle'⟩ := index_next_block b l hlvl64 hbw hb'w (by omega)
        have hnbdiv : ((b / addr.entry_size l + 1) * addr.entry_size l) /
            addr.entry_size (l + 1) = b / addr.entry_size (l + 1) := by
          refine div_eq_of_chunk _ b _ (entry_size_pos (l + 1))
            (le_of_lt (lt_next_block b l)) ?_
          have hlend := level_end_eq b l hlvl64 hbw
          omega
        have := ihn _ e t1 r.2.2 (by rw [hle']; have := lt_next_block b l; omega)
          ht1len he ht1wf (by rw [hnbdiv]; exact ht1id)
        rw [hnbdiv] at this
        exact this
      · rw [if_neg hsplit]
        exact ht1id
    · rw [if_neg hr1]
      exact ht1id

/-- The map walk preserves the identity invariant at every level. -/
theorem mapLevel_ident (c u : Bool) (a : Attrs) :
    ∀ l, PAGE_BITS + (l + 1) * PAGE_LEVEL_BITS ≤ 62 →
      ∀ b e t s, t.length = PTE_PER_PAGE → e ≤ 2 ^ 62 →
        (∀ p ∈ t, entryWF l p = true) →
        childrenIdent (entryIdent l) (addr.entry_size l)
          ((b / addr.entry_size (l + 1)) * addr.entry_size (l + 1)) t = true →
        childrenIdent (entryIdent l) (addr.entry_size l)
          ((b / addr.entry_size (l + 1)) * addr.entry_size (l + 1))
          (mapLevel c u a l b e t s).2.1 = true := by
  intro l
  induction l with
  | zero =>
    intro hl b e t s hT he hWF hid
    exact mapLevel_ident_aux c u a 0 hl
      (fun e b2 p s2 hes hw => hw)
      (fun e b2 p s2 hes hw hip => hip)
      (min e (addr.level_end b 0) - b) b e t s (le_refl _) hT he hWF hid
  | succ lv ihl =>
    intro hl b e t s hT he hWF hid
    have hl' : PAGE_BITS + (lv + 1) * PAGE_LEVEL_BITS ≤ 62 := by
      have hmono : (lv + 1) * PAGE_LEVEL_BITS ≤ (lv + 1 + 1) * PAGE_LEVEL_BITS :=
        Nat.mul_le_mul_right _ (Nat.le_succ _)
      omega
    exact mapLevel_ident_aux c u a (lv + 1) hl
      (fun e b2 p s2 hes hw =>
        descendStep_presWF c u a lv e
          (fun b3 ch s3 hlen hwf =>
            mapLevel_presWF c u a lv hl' b3 e ch s3 hlen hes hwf)
          b2 p s2 hw)
      (fun e b2 p s2 hes hw hip =>
        descendStep_ident c u a lv e
          (fun b3 ch s3 hlen hwf hid3 =>
            ihl hl' b3 e ch s3 hlen hes hwf hid3)
          b2 p s2 hw hip)
      (min e (addr.level_end b (lv + 1)) - b) b e t s (le_refl _) hT he hWF hid


/-- The defrag children loop keeps length, shape well-formedness and the
identity invariant, given a per-entry defrag with those properties. -/
theorem defragChildren_identWF (lv : Nat)
    (hf : ∀ base p s, entryWF lv p = true → entryIdent lv base p = true →
      entryWF lv (pteDefrag lv p s).2.1 = true ∧
      entryIdent lv base (pteDefrag lv p s).2.1 = true ∧
      (∀ ca, (pteDefrag lv p s).1 = some ca → ca.present = true →
        (pteDefrag lv p s).2.1.is_block = true)) :
    ∀ (c : List PTE) (base : Nat) (s : MMState),
      (∀ q ∈ c, entryWF lv q = true) →
      childrenIdent (entryIdent lv) (addr.entry_size lv) base c = true →
      (defragChildren (pteDefrag lv) c s).2.1.length = c.length ∧
      (∀ q ∈ (defragChildren (pteDefrag lv) c s).2.1, entryWF lv q = true) ∧
      childrenIdent (entryIdent lv) (addr.entry_size lv) base
        (defragChildren (pteDefrag lv) c s).2.1 = true := by
  intro c
  induction c with
  | nil =>
    intro base s _ _
    exact ⟨rfl, fun q hq => absurd hq (List.not_mem_nil q), rfl⟩
  | cons p ps ih =>
    intro base s hWF hid
    rw [childrenIdent, Bool.and_eq_true] at hid
    have hhead := hf base p s (hWF p (List.mem_cons_self p ps)) hid.1
    obtain ⟨hl1, hwf1, hid1⟩ := ih (base + addr.entry_size lv) (pteDefrag lv p s).2.2
      (fun q hq => hWF q (List.mem_cons_of_mem p hq)) hid.2
    have hstep : defragChildren (pteDefrag lv) (p :: ps) s =
        ((pteDefrag lv p s).1 ::
            (defragChildren (pteDefrag lv) ps (pteDefrag lv p s).2.2).1,
          (pteDefrag lv p s).2.1 ::
            (defragChildren (pteDefrag lv) ps (pteDefrag lv p s).2.2).2.1,
          (defragChildren (pteDefrag lv) ps (pteDefrag lv p s).2.2).2.2) := by
      rw [defragChildren]
    rw [hstep]
    refine ⟨by simp [hl1], ?_, ?_⟩
    · intro q hq
      rcases List.mem_cons.mp hq with rfl | hq
      · exact hhead.1
      · exact hwf1 q hq
    · rw [childrenIdent, Bool.and_eq_true]
      exact ⟨hhead.2.1, hid1⟩

/-- One defrag step keeps shape well-formedness and the identity invariant,
and a merged present summary always leaves a block in the slot. -/
theorem pteDefrag_identWF : ∀ (lv : Nat) (base : Nat) (p : PTE) (s : MMState),
    entryWF lv p = true → entryIdent lv base p = true →
    entryWF lv (pteDefrag lv p s).2.1 = true ∧
    entryIdent lv base (pteDefrag lv p s).2.1 = true ∧
    (∀ ca, (pteDefrag lv p s).1 = some ca → ca.present = true →
      (pteDefrag lv p s).2.1.is_block = true) := by
  intro lv
  induction lv with
  | zero =>
    intro base p s hWF hid
    cases p with
    | absent =>
      rw [pteDefrag_absent]
      exact ⟨hWF, hid, fun ca h _ => Option.noConfusion h⟩
    | block oa a =>
      rw [pteDefrag_block]
      exact ⟨hWF, hid, fun ca _ _ => rfl⟩
    | table c =>
      show entryWF 0 ((none, PTE.table c, s) : Option Attrs × PTE × MMState).2.1 = true ∧ _
      exact ⟨hWF, hid, fun ca h _ => Option.noConfusion h⟩
  | succ lv ih =>
    intro base p s hWF hid
    cases p with
    | absent =>
      rw [pteDefrag_absent]
      exact ⟨hWF, hid, fun ca h _ => Option.noConfusion h⟩
    | block oa a =>
      rw [pteDefrag_block]
      exact ⟨hWF, hid, fun ca _ _ => rfl⟩
    | table c =>
      obtain ⟨hlen, hcwf⟩ := (entryWF_table_iff lv c).mp hWF
      rw [entryIdent_table] at hid
      obtain ⟨hl1, hwf1, hid1⟩ := defragChildren_identWF lv (ih) c base s hcwf hid
      cases hred : reduceEq (defragChildren (pteDefrag lv) c s).1 with
      | none =>
        rw [pteDefrag_table_none lv c s hred]
        refine ⟨(entryWF_table_iff lv _).mpr ⟨by rw [hl1, hlen], hwf1⟩, ?_,
          fun ca h _ => Option.noConfusion h⟩
        rw [entryIdent_table]
        exact hid1
      | some ca =>
        by_cases hcp : ca.present = true
        · by_cases hba : blockAllowed (lv + 1) = true
          · rw [pteDefrag_table_merge lv c s ca hred hcp hba]
            -- the head of the defragged children is a block at the window start
            cases c with
            | nil => exact absurd hlen (by decide)
            | cons p0 ps =>
              rw [childrenIdent, Bool.and_eq_true] at hid
              have hstep : defragChildren (pteDefrag lv) (p0 :: ps) s =
                  ((pteDefrag lv p0 s).1 ::
                      (defragChildren (pteDefrag lv) ps (pteDefrag lv p0 s).2.2).1,
                    (pteDefrag lv p0 s).2.1 ::
                      (defragChildren (pteDefrag lv) ps (pteDefrag lv p0 s).2.2).2.1,
                    (defragChildren (pteDefrag lv) ps (pteDefrag lv p0 s).2.2).2.2) := by
                rw [defragChildren]
              have hr0 : (pteDefrag lv p0 s).1 = some ca := by
                rw [hstep] at hred
                exact (reduceEq_eq_some_iff _ ca).mp hred |>.2 _
                  (List.mem_cons_self _ _)
              have hp0 := ih base p0 s (hcwf p0 (List.mem_cons_self p0 ps)) hid.1
              have hblk := hp0.2.2 ca hr0 hcp
              have hhead : (defragChildren (pteDefrag lv) (p0 :: ps) s).2.1.headD
                  PTE.absent = (pteDefrag lv p0 s).2.1 := by
                rw [hstep]
                rfl
              rw [hhead]
              cases hp0' : (pteDefrag lv p0 s).2.1 with
              | absent => rw [hp0'] at hblk; cases hblk
              | table c2 => rw [hp0'] at hblk; cases hblk
              | block oa0 a0 =>
                have hoa : oa0 = base := by
                  have := hp0.2.1
                  rw [hp0', entryIdent_block, decide_eq_true_eq] at this
                  exact this
                refine ⟨entryWF_block (lv + 1) _ _, ?_, fun ca2 _ _ => rfl⟩
                rw [show (PTE.block oa0 a0).block_addr = oa0 from rfl,
                  entryIdent_block, decide_eq_true_eq]
                exact hoa
          · rw [Bool.not_eq_true] at hba
            rw [pteDefrag_table_bail lv c s ca hred hcp hba]
            refine ⟨(entryWF_table_iff lv _).mpr ⟨by rw [hl1, hlen], hwf1⟩, ?_,
              fun ca2 h _ => Option.noConfusion h⟩
            rw [entryIdent_table]
            exact hid1
        · rw [Bool.not_eq_true] at hcp
          rw [pteDefrag_table, hred]
          simp only [hcp, Bool.not_false, if_true]
          refine ⟨entryWF_absent (lv + 1), entryIdent_absent (lv + 1) base, ?_⟩
          intro ca2 h hpres2
          injection h with h
          rw [← h] at hpres2
          rw [show absentAttrs.present = false from rfl] at hpres2
          cases hpres2


/-- The shape and identity invariant every reachable table satisfies. -/
def identInv (pt : PTable) : Prop :=
  ∃ t, pt = [t] ∧ t.length = PTE_PER_PAGE ∧
    (∀ q ∈ t, entryWF stage2MaxLevel q = true) ∧
    childrenIdent (entryIdent stage2MaxLevel) (addr.entry_size stage2MaxLevel) 0 t = true

theorem identInv_fresh : identInv freshTable := by
  refine ⟨List.replicate PTE_PER_PAGE PTE.absent, rfl, List.length_replicate .., ?_, ?_⟩
  · intro q hq
    rw [List.eq_of_mem_replicate hq]
    exact entryWF_absent stage2MaxLevel
  · refine childrenIdent_all _ _ _ ?_ 0
    intro b2 q hq
    rw [List.eq_of_mem_replicate hq]
    exact entryIdent_absent stage2MaxLevel b2

/-- A root walk over an empty range touches nothing. -/
theorem mapRoot_of_ge (c u : Bool) (a : Attrs) (b e rl : Nat) (pt : PTable)
    (s : MMState) (h : e ≤ b) : mapRoot c u a b e rl pt s = (true, pt, s) := by
  unfold mapRoot
  rw [blockIterList_nil _ _ _ h]
  dsimp only
  rw [show ∀ (ts : List (List PTE)) (s2 : MMState),
      mapRootGo c u a e rl ts [] s2 = (true, ts, s2) from
    fun ts s2 => by cases ts <;> rfl]
  simp [List.take_append_drop]

/-- identity_update keeps the shape and identity invariant. -/
theorem identityUpdate_inv (u : Bool) (a : Attrs) (b e : Nat) (s : MMState)
    (pt : PTable) (h : identInv pt) :
    identInv (identityUpdate stage2MaxLevel stage2RootCount u a b e pt s).2.1 := by
  obtain ⟨t, rfl, hlen, hwf, hid⟩ := h
  set e1 := min (addr.round_up_to_page e)
    (stage2RootCount * addr.entry_size (stage2MaxLevel + 1)) with he1
  set b1 := clearPa b with hb1
  by_cases hne : b1 < e1
  · have he148 : e1 ≤ 2 ^ 48 := by
      rw [he1]
      have hh : stage2RootCount * addr.entry_size (stage2MaxLevel + 1) = 2 ^ 48 := by decide
      rw [hh]
      exact min_le_right _ _
    have he162 : e1 ≤ 2 ^ 62 := by
      have hh : (2 : Nat) ^ 48 ≤ 2 ^ 62 := by decide
      omega
    have hroot4 : stage2MaxLevel + 1 = 4 := rfl
    have hl3 : PAGE_BITS + (3 + 1) * PAGE_LEVEL_BITS ≤ 62 := by decide
    have hb1div : (b1 / addr.entry_size (3 + 1)) * addr.entry_size (3 + 1) = 0 := by
      rw [show addr.entry_size (3 + 1) = 2 ^ 48 from by decide,
        Nat.div_eq_of_lt (by omega), Nat.zero_mul]
    set R1 := mapLevel false u a 3 b1 e1 t s with hR1
    obtain ⟨ht1len, ht1wf⟩ :=
      mapLevel_presWF false u a 3 hl3 b1 e1 t s hlen he162 hwf
    have ht1id : childrenIdent (entryIdent 3) (addr.entry_size 3) 0 R1.2.1 = true := by
      have := mapLevel_ident false u a 3 hl3 b1 e1 t s hlen he162 hwf
        (by rw [hb1div]; exact hid)
      rw [hb1div] at this
      exact this
    rw [← hR1] at ht1len ht1wf
    set R2 := mapLevel true u a 3 b1 e1 R1.2.1 R1.2.2 with hR2
    obtain ⟨ht2len, ht2wf⟩ :=
      mapLevel_presWF true u a 3 hl3 b1 e1 R1.2.1 R1.2.2 ht1len he162 ht1wf
    have ht2id : childrenIdent (entryIdent 3) (addr.entry_size 3) 0 R2.2.1 = true := by
      have := mapLevel_ident true u a 3 hl3 b1 e1 R1.2.1 R1.2.2 ht1len he162 ht1wf
        (by rw [hb1div]; exact ht1id)
      rw [hb1div] at this
      exact this
    rw [← hR2] at ht2len ht2wf
    by_cases hok1 : R1.1 = true
    · have hupd : (identityUpdate stage2MaxLevel stage2RootCount u a b e [t] s).2.1 =
          [R2.2.1] := by
        simp only [identityUpdate]
        rw [← he1, ← hb1, hroot4, mapRoot_single false u a b1 e1 t s hne he148]
        dsimp only
        rw [if_neg (by rw [hok1]; simp)]
        rw [mapRoot_single true u a b1 e1 R1.2.1 R1.2.2 hne he148]
        dsimp only
        by_cases hok2 : R2.1 = true
        · rw [if_neg (by rw [hok2]; simp)]
        · rw [Bool.not_eq_true] at hok2
          rw [if_pos (by rw [hok2]; simp)]
      rw [hupd]
      exact ⟨R2.2.1, rfl, ht2len, ht2wf, ht2id⟩
    · rw [Bool.not_eq_true] at hok1
      have hupd : (identityUpdate stage2MaxLevel stage2RootCount u a b e [t] s).2.1 =
          [R1.2.1] := by
        simp only [identityUpdate]
        rw [← he1, ← hb1, hroot4, mapRoot_single false u a b1 e1 t s hne he148]
        dsimp only
        rw [if_pos (by rw [hok1]; simp)]
      rw [hupd]
      exact ⟨R1.2.1, rfl, ht1len, ht1wf, ht1id⟩
  · have hge : e1 ≤ b1 := by omega
    have hupd : identityUpdate stage2MaxLevel stage2RootCount u a b e [t] s =
        (true, [t], s.emit (Event.tlb b1 e1)) := by
      simp only [identityUpdate]
      rw [← he1, ← hb1, mapRoot_of_ge false u a b1 e1 _ [t] s hge]
      dsimp only
      rw [if_neg (by simp)]
      rw [mapRoot_of_ge true u a b1 e1 _ [t] s hge]
      dsimp only
      rw [if_neg (by simp)]
    rw [hupd]
    exact ⟨t, rfl, hlen, hwf, hid⟩

/-- defrag keeps the shape and identity invariant. -/
theorem tableDefrag_inv (s : MMState) (pt : PTable) (h : identInv pt) :
    identInv (tableDefrag pt s).1 := by
  obtain ⟨t, rfl, hlen, hwf, hid⟩ := h
  rw [tableDefrag_singleton]
  obtain ⟨hl1, hwf1, hid1⟩ :=
    defragChildren_identWF stage2MaxLevel (pteDefrag_identWF stage2MaxLevel)
      t 0 s hwf hid
  exact ⟨_, rfl, by rw [hl1, hlen], hwf1, hid1⟩

/-- Every reachable table satisfies the shape and identity invariant. -/
theorem reachable_identInv (pt : PTable) (hr : Reachable pt) : identInv pt := by
  induction hr with
  | fresh => exact identInv_fresh
  | map b e m s hr ih => exact identityUpdate_inv false (modeToAttrs m) b e s _ ih
  | unmap b e s hr ih =>
    exact identityUpdate_inv true
      (modeToAttrs (Mode.UNOWNED ||| Mode.INVALID ||| Mode.SHARED)) b e s _ ih
  | defrag s hr ih => exact tableDefrag_inv s _ ih

/-- The identity invariant forces the covering leaf block of any address to
output the start of its own window. -/
theorem leafAt_ident : ∀ l : Nat, PAGE_BITS + l * PAGE_LEVEL_BITS ≤ 64 →
    ∀ (V : Nat) (p : PTE), V < USIZE →
      entryWF l p = true →
      entryIdent l ((V / addr.entry_size l) * addr.entry_size l) p = true →
      (leafAt l p V).2.is_block = true →
      (leafAt l p V).2.block_addr =
        V &&& usizeNot (addr.entry_size (leafAt l p V).1 - 1) := by
  intro l
  induction l with
  | zero =>
    intro hl V p hV hWF hid hblk
    cases p with
    | absent => cases hblk
    | table c => cases hblk
    | block oa a =>
      show oa = V &&& usizeNot (addr.entry_size 0 - 1)
      rw [entryIdent_block, decide_eq_true_eq] at hid
      rw [entry_size_eq, and_usizeNot_pow2 V _ (by omega) hV]
      rw [hid, entry_size_eq]
      ring
  | succ lv ihl =>
    intro hl V p hV hWF hid hblk
    cases p with
    | absent => cases hblk
    | block oa a =>
      show oa = V &&& usizeNot (addr.entry_size (lv + 1) - 1)
      rw [entryIdent_block, decide_eq_true_eq] at hid
      rw [entry_size_eq, and_usizeNot_pow2 V _ (by omega) hV]
      rw [hid, entry_size_eq]
      ring
    | table c =>
      have hmono : lv * PAGE_LEVEL_BITS ≤ (lv + 1) * PAGE_LEVEL_BITS :=
        Nat.mul_le_mul_right _ (Nat.le_succ lv)
      have hl' : PAGE_BITS + lv * PAGE_LEVEL_BITS ≤ 64 := by omega
      obtain ⟨hclen, hcwf⟩ := (entryWF_table_iff lv c).mp hWF
      rw [entryIdent_table] at hid
      have hgid := childrenIdent_getD (entryIdent lv) (addr.entry_size lv) c
        ((V / addr.entry_size (lv + 1)) * addr.entry_size (lv + 1)) (addr.index V lv)
        hid (by rw [hclen]; exact index_lt_pte V lv)
      rw [base_index_eq V lv] at hgid
      have hcmem : c.getD (addr.index V lv) PTE.absent ∈ c := by
        have hilt : addr.index V lv < c.length := by
          rw [hclen]
          exact index_lt_pte V lv
        rw [List.getD_eq_getElem?_getD, List.getElem?_eq_getElem hilt]
        exact List.getElem_mem hilt
      show (leafAt lv (c.getD (addr.index V lv) PTE.absent) V).2.block_addr = _
      exact ihl hl' V _ hV (hcwf _ hcmem) hgid hblk

/-- C1: in every table reachable by any sequence of identity_map, unmap and
defrag operations, the covering leaf for a virtual address V inside the root
coverage, whenever it is a block descriptor at level L, outputs exactly
V &&& ~(entry_size(L) - 1): every mapping is an identity mapping truncated to
its level's entry size. -/
theorem identity_mapping_invariant (pt : PTable) (hr : Reachable pt) (V : Nat)
    (hV : V < stage2RootCount * addr.entry_size (stage2MaxLevel + 1))
    (hblk : (ptableLeafAt pt V).2.is_block = true) :
    (ptableLeafAt pt V).2.block_addr =
      V &&& usizeNot (addr.entry_size (ptableLeafAt pt V).1 - 1) := by
  obtain ⟨t, rfl, hlen, hwf, hid⟩ := reachable_identInv pt hr
  have hV48 : V < 2 ^ 48 := by
    have hh : stage2RootCount * addr.entry_size (stage2MaxLevel + 1) = 2 ^ 48 := by decide
    omega
  have hVU : V < USIZE := by
    show V < 2 ^ 64
    have hh : (2 : Nat) ^ 48 < 2 ^ 64 := by decide
    omega
  have hidx4 : addr.index V (stage2MaxLevel + 1) = 0 := by
    rw [index_def2, show addr.entry_size (stage2MaxLevel + 1) = 2 ^ 48 from by decide,
      Nat.div_eq_of_lt hV48]
    rfl
  have hpl : ptableLeafAt [t] V = leafAt 3 (t.getD (addr.index V 3) PTE.absent) V := by
    rw [ptableLeafAt, hidx4]
    rfl
  rw [hpl] at hblk ⊢
  have hdiv4 : (V / addr.entry_size (3 + 1)) * addr.entry_size (3 + 1) = 0 := by
    rw [show addr.entry_size (3 + 1) = 2 ^ 48 from by decide,
      Nat.div_eq_of_lt hV48, Nat.zero_mul]
  have hident : entryIdent 3 ((V / addr.entry_size 3) * addr.entry_size 3)
      (t.getD (addr.index V 3) PTE.absent) = true := by
    have h := childrenIdent_getD (entryIdent 3) (addr.entry_size 3) t 0 (addr.index V 3)
      hid (by rw [hlen]; exact index_lt_pte V 3)
    rw [show (0 : Nat) + addr.index V 3 * addr.entry_size 3 =
        (V / addr.entry_size (3 + 1)) * addr.entry_size (3 + 1) +
          addr.index V 3 * addr.entry_size 3 from by rw [hdiv4]] at h
    rw [base_index_eq V 3] at h
    exact h
  have hmem : t.getD (addr.index V 3) PTE.absent ∈ t := by
    have hilt : addr.index V 3 < t.length := by
      rw [hlen]
      exact index_lt_pte V 3
    rw [List.getD_eq_getElem?_getD, List.getElem?_eq_getElem hilt]
    exact List.getElem_mem hilt
  exact leafAt_ident 3 (by decide) V _ hVU (hwf _ hmem) hident hblk

def c1pt : PTable :=
  (identityMap 0 0x200000 Mode.R freshTable { pool := 10, trace := [] }).2.1

/-- Witness for C1: after identity-mapping [0, 0x200000) readable, the leaf
covering 0x1234 is the 2 MiB block at level 1 with output 0, which is
0x1234 &&& ~(entry_size(1) - 1). -/
theorem identity_mapping_invariant_witness :
    0x1234 < stage2RootCount * addr.entry_size (stage2MaxLevel + 1) ∧
    (ptableLeafAt c1pt 0x1234).2.is_block = true ∧
    (ptableLeafAt c1pt 0x1234).2.block_addr =
      0x1234 &&& usizeNot (addr.entry_size (ptableLeafAt c1pt 0x1234).1 - 1) :=
  ⟨by decide, by decide,
    identity_mapping_invariant c1pt
      (Reachable.map 0 0x200000 Mode.R { pool := 10, trace := [] } Reachable.fresh)
      0x1234 (by decide) (by decide)⟩



end Hfo2
